import Mathlib

/-!
# tgen Markov model (`src/tgen-markovmodel.c`)

A shallow embedding of the Markov emission engine: graph validation, the
weighted edge chooser, delay generation and the `next`/`reset` state machine.

Conventions of the embedding.

* A C string is the list of its characters before the terminating NUL.
* `gdouble` is modelled by `Double`: NaN, the two infinities and the finite
  values, the latter taken as exact rationals (rounding is not modelled).
* Out-parameters become returned values.  The caller's `guint64* delay` is an
  `Option Nat`: `none` is the NULL pointer, `some d` a pointer to a variable
  that currently holds `d`; the call returns the content after the call.
* A failed `g_assert` aborts the process: functions that can reach one return
  an `Option`, `none` standing for the abort.
* The libraries the file links against (GLib's PRNG, libm, igraph) are not part
  of the repository; what the code needs of them is gathered in `Env`
  and in the `igraph_*` definitions below.
* The logger (`tgen_warning` and its like, from `tgen-log.h`) is outside the
  sources and its output is not modelled.  Two things are kept of the
  diagnostics: the loops of the two validation passes carry the list of the
  elements they have passed to the check, each check being what examines and
  reports an element; and the one call of `tgen_warning` whose format string
  does not fit its arguments makes the result of
  `_tgenmarkovmodel_checkVertexAttributes` an `Option`, `none` on that path.
-/

set_option autoImplicit false

namespace TGen

/-! ## C strings and GLib's case-insensitive comparison -/

/-- A NUL-terminated C string, as the list of its characters before the NUL. -/
abbrev CStr := List Char

/-- GLib `g_ascii_tolower`: only the letters `A`..`Z` are changed. -/
def g_ascii_tolower (c : Char) : Char :=
  if 65 ≤ c.toNat ∧ c.toNat ≤ 90 then Char.ofNat (c.toNat + 32) else c

/-- GLib `g_ascii_strncasecmp (s1, s2, n)`: walks both strings while `n` is not
used up and neither string has ended, returning the difference of the first
pair of characters that differ after lowering; when the walk stops with `n`
left over it returns the difference of the characters it stopped at (NUL is
0), otherwise 0. -/
def g_ascii_strncasecmp : CStr → CStr → Nat → Int
  | _, _, 0 => 0
  | [], [], _ + 1 => 0
  | [], c2 :: _, _ + 1 => 0 - (c2.toNat : Int)
  | c1 :: _, [], _ + 1 => (c1.toNat : Int)
  | c1 :: s1, c2 :: s2, n + 1 =>
    if g_ascii_tolower c1 ≠ g_ascii_tolower c2 then
      ((g_ascii_tolower c1).toNat : Int) - ((g_ascii_tolower c2).toNat : Int)
    else g_ascii_strncasecmp s1 s2 n

/-! ## The enumerations of the source -/

inductive VertexAttribute where
  | VERTEX_ATTR_NAME
  | VERTEX_ATTR_TYPE
  deriving DecidableEq, Repr

inductive EdgeAttribute where
  | EDGE_ATTR_TYPE
  | EDGE_ATTR_WEIGHT
  | EDGE_ATTR_LOGNORMMU
  | EDGE_ATTR_LOGNORMSIGMA
  | EDGE_ATTR_EXPLAMBDA
  deriving DecidableEq, Repr

inductive VertexType where
  | VERTEX_TYPE_STATE
  | VERTEX_TYPE_OBSERVATION
  deriving DecidableEq, Repr

inductive EdgeType where
  | EDGE_TYPE_TRANSITION
  | EDGE_TYPE_EMISSION
  deriving DecidableEq, Repr

inductive VertexID where
  | VERTEX_NAME_START
  | VERTEX_NAME_PACKET_TO_SERVER
  | VERTEX_NAME_PACKET_TO_ORIGIN
  | VERTEX_NAME_STREAM
  | VERTEX_NAME_END
  deriving DecidableEq, Repr

/-- The `Observation` enumeration of `tgen-markovmodel.h` (the header is not
among the source files; the four values are the ones the source returns). -/
inductive Observation where
  | OBSERVATION_PACKET_TO_ORIGIN
  | OBSERVATION_PACKET_TO_SERVER
  | OBSERVATION_STREAM
  | OBSERVATION_END
  deriving DecidableEq, Repr

open VertexAttribute EdgeAttribute VertexType EdgeType VertexID Observation

def _tgenmarkovmodel_vertexTypeToString : VertexType → CStr
  | VERTEX_TYPE_STATE => "state".toList
  | VERTEX_TYPE_OBSERVATION => "observation".toList

def _tgenmarkovmodel_vertexTypeStringLength (type : VertexType) : Nat :=
  (_tgenmarkovmodel_vertexTypeToString type).length

def _tgenmarkovmodel_vertexTypeIsEqual (typeStr : CStr) (type : VertexType) : Bool :=
  g_ascii_strncasecmp typeStr (_tgenmarkovmodel_vertexTypeToString type)
    (_tgenmarkovmodel_vertexTypeStringLength type) == 0

def _tgenmarkovmodel_edgeTypeToString : EdgeType → CStr
  | EDGE_TYPE_TRANSITION => "transition".toList
  | EDGE_TYPE_EMISSION => "emission".toList

def _tgenmarkovmodel_edgeTypeStringLength (type : EdgeType) : Nat :=
  (_tgenmarkovmodel_edgeTypeToString type).length

def _tgenmarkovmodel_edgeTypeIsEqual (typeStr : CStr) (type : EdgeType) : Bool :=
  g_ascii_strncasecmp typeStr (_tgenmarkovmodel_edgeTypeToString type)
    (_tgenmarkovmodel_edgeTypeStringLength type) == 0

def _tgenmarkovmodel_vertexIDToString : VertexID → CStr
  | VERTEX_NAME_START => "start".toList
  | VERTEX_NAME_PACKET_TO_SERVER => "+".toList
  | VERTEX_NAME_PACKET_TO_ORIGIN => "-".toList
  | VERTEX_NAME_STREAM => "$".toList
  | VERTEX_NAME_END => "F".toList

def _tgenmarkovmodel_vertexIDStringLength (id : VertexID) : Nat :=
  (_tgenmarkovmodel_vertexIDToString id).length

def _tgenmarkovmodel_vertexIDIsEqual (idStr : CStr) (id : VertexID) : Bool :=
  g_ascii_strncasecmp idStr (_tgenmarkovmodel_vertexIDToString id)
    (_tgenmarkovmodel_vertexIDStringLength id) == 0

def _tgenmarkovmodel_vertexIDIsEmission (idStr : CStr) : Bool :=
  _tgenmarkovmodel_vertexIDIsEqual idStr VERTEX_NAME_PACKET_TO_SERVER ||
  _tgenmarkovmodel_vertexIDIsEqual idStr VERTEX_NAME_PACKET_TO_ORIGIN ||
  _tgenmarkovmodel_vertexIDIsEqual idStr VERTEX_NAME_STREAM ||
  _tgenmarkovmodel_vertexIDIsEqual idStr VERTEX_NAME_END

/-! ## `gdouble` -/

/-- A `gdouble`: NaN, minus infinity, a finite value, plus infinity. -/
inductive Double where
  | nan
  | ninf
  | fin (q : ℚ)
  | pinf
  deriving DecidableEq

namespace Double

def isnan : Double → Bool
  | nan => true
  | _ => false

def neg : Double → Double
  | nan => nan
  | ninf => pinf
  | fin q => fin (-q)
  | pinf => ninf

def add : Double → Double → Double
  | nan, _ => nan
  | _, nan => nan
  | pinf, ninf => nan
  | ninf, pinf => nan
  | pinf, _ => pinf
  | _, pinf => pinf
  | ninf, _ => ninf
  | _, ninf => ninf
  | fin a, fin b => fin (a + b)

def sub (a b : Double) : Double := add a (neg b)

/-- An infinity with the sign of `q * s`, where `s` is the infinity's own sign
(`true` for plus); NaN when `q` is zero. -/
def infTimes (s : Bool) (q : ℚ) : Double :=
  if q = 0 then nan else if (0 < q) = s then pinf else ninf

def mul : Double → Double → Double
  | nan, _ => nan
  | _, nan => nan
  | pinf, pinf => pinf
  | pinf, ninf => ninf
  | ninf, pinf => ninf
  | ninf, ninf => pinf
  | pinf, fin q => infTimes true q
  | fin q, pinf => infTimes true q
  | ninf, fin q => infTimes false q
  | fin q, ninf => infTimes false q
  | fin a, fin b => fin (a * b)

/-- Division; a zero divisor is taken as positive zero. -/
def div : Double → Double → Double
  | nan, _ => nan
  | _, nan => nan
  | fin a, fin b =>
    if b = 0 then (if a = 0 then nan else if 0 < a then pinf else ninf) else fin (a / b)
  | fin _, _ => fin 0
  | pinf, fin q => if 0 ≤ q then pinf else ninf
  | ninf, fin q => if 0 ≤ q then ninf else pinf
  | _, _ => nan

/-- The C comparison `a >= b`: false as soon as one side is NaN. -/
def ge : Double → Double → Bool
  | nan, _ => false
  | _, nan => false
  | pinf, _ => true
  | _, ninf => true
  | ninf, _ => false
  | _, pinf => false
  | fin a, fin b => decide (b ≤ a)

/-- The C comparison `a > b`: false as soon as one side is NaN. -/
def gt : Double → Double → Bool
  | nan, _ => false
  | _, nan => false
  | ninf, _ => false
  | _, pinf => false
  | pinf, _ => true
  | _, ninf => true
  | fin a, fin b => decide (b < a)

end Double

/-! ## The graph library (igraph with the C attribute handler) -/

structure Vertex where
  /-- value of the string attribute `name` (empty when the file gives none) -/
  name : CStr
  /-- value of the string attribute `type` -/
  type : CStr
  deriving DecidableEq

structure Edge where
  src : Nat
  dst : Nat
  /-- value of the string attribute `type` -/
  type : CStr
  weight : Double
  lognorm_mu : Double
  lognorm_sigma : Double
  exp_lambda : Double
  deriving DecidableEq

/-- An `igraph_t` with its attribute table: which attributes exist at all
(`igraph_cattribute_has_attr`), and the vertices and edges by index. -/
structure igraph_t where
  /-- whether the vertices carry the attribute `id` the loader may add -/
  hasVertexId : Bool
  hasVertexName : Bool
  hasVertexType : Bool
  hasEdgeType : Bool
  hasEdgeWeight : Bool
  hasEdgeMu : Bool
  hasEdgeSigma : Bool
  hasEdgeLambda : Bool
  vertices : List Vertex
  edges : List Edge
  deriving DecidableEq

def igraph_cattribute_has_vertex_attr (g : igraph_t) : VertexAttribute → Bool
  | VERTEX_ATTR_NAME => g.hasVertexName
  | VERTEX_ATTR_TYPE => g.hasVertexType

def igraph_cattribute_has_edge_attr (g : igraph_t) : EdgeAttribute → Bool
  | EDGE_ATTR_TYPE => g.hasEdgeType
  | EDGE_ATTR_WEIGHT => g.hasEdgeWeight
  | EDGE_ATTR_LOGNORMMU => g.hasEdgeMu
  | EDGE_ATTR_LOGNORMSIGMA => g.hasEdgeSigma
  | EDGE_ATTR_EXPLAMBDA => g.hasEdgeLambda

/-- `igraph_cattribute_VAS`: the string attribute of a vertex (empty for an
index that names no vertex). -/
def igraph_cattribute_VAS (g : igraph_t) (attr : VertexAttribute) (vertexIndex : Nat) : CStr :=
  match g.vertices[vertexIndex]?, attr with
  | some v, VERTEX_ATTR_NAME => v.name
  | some v, VERTEX_ATTR_TYPE => v.type
  | none, _ => []

/-- `igraph_cattribute_EAS`: the string attribute `type` of an edge. -/
def igraph_cattribute_EAS (g : igraph_t) (edgeIndex : Nat) : CStr :=
  match g.edges[edgeIndex]? with
  | some e => e.type
  | none => []

/-- `igraph_cattribute_EAN`: a numeric attribute of an edge (NaN for an index
that names no edge, and for `type`, which is not numeric). -/
def igraph_cattribute_EAN (g : igraph_t) (attr : EdgeAttribute) (edgeIndex : Nat) : Double :=
  match g.edges[edgeIndex]?, attr with
  | some e, EDGE_ATTR_WEIGHT => e.weight
  | some e, EDGE_ATTR_LOGNORMMU => e.lognorm_mu
  | some e, EDGE_ATTR_LOGNORMSIGMA => e.lognorm_sigma
  | some e, EDGE_ATTR_EXPLAMBDA => e.exp_lambda
  | _, _ => Double.nan

/-- `igraph_edge`: the endpoints of an edge, `none` for a non-success code. -/
def igraph_edge (g : igraph_t) (edgeIndex : Nat) : Option (Nat × Nat) :=
  match g.edges[edgeIndex]? with
  | some e => some (e.src, e.dst)
  | none => none

/-- The edge ids among `i, i+1, ...` (the ids of `es`) that leave `v`. -/
def incidentFrom (v : Nat) : List Edge → Nat → List Nat
  | [], _ => []
  | e :: es, i =>
    if e.src = v then i :: incidentFrom v es (i + 1) else incidentFrom v es (i + 1)

/-- The edges an iterator over `igraph_es_incident (v, IGRAPH_OUT)` visits: the
ids of the edges leaving `v`, in the order the library stores them (taken here
as increasing edge id). -/
def igraph_incident_out (g : igraph_t) (v : Nat) : List Nat :=
  incidentFrom v g.edges 0

/-! ## The external libraries: GLib's PRNG and libm -/

/-- What the engine needs of the libraries it links against.
`g_rand_double seed i` is the `i`-th value (from 0) that `g_rand_double`
returns on a generator seeded with `seed`; `log`, `exp`, `sqrt`, `cos` are
libm's; `castUndefined` is what the platform yields for a conversion to
`guint64` that C leaves undefined (NaN, negative or too large a value). -/
structure Env where
  g_rand_double : Nat → Nat → ℚ
  log : Double → Double
  exp : Double → Double
  sqrt : Double → Double
  cos : Double → Double
  castUndefined : Double → Nat

/-- A `GRand`: the seed it was created with and how many values it has
produced so far. -/
structure GRand where
  seed : Nat
  pos : Nat
  deriving DecidableEq

def g_rand_new_with_seed (seed : Nat) : GRand := { seed := seed, pos := 0 }

/-- GLib `g_rand_double_range`: `r * end - (r - 1) * begin` for one draw `r`. -/
def g_rand_double_range (env : Env) (rand : GRand) (rbegin rend : Double) : Double × GRand :=
  let r := Double.fin (env.g_rand_double rand.seed rand.pos)
  (Double.sub (Double.mul r rend) (Double.mul (Double.sub r (Double.fin 1)) rbegin),
   { rand with pos := rand.pos + 1 })

/-- The constant `M_PI`: the double nearest to pi. -/
def M_PI : Double := Double.fin (884279719003555 / 281474976710656)

/-- `UINT64_MAX`, as the integer the cast saturates to. -/
def UINT64_MAX : Nat := 2 ^ 64 - 1

/-- `UINT64_MAX` converted to `gdouble` for the comparison in
`_tgenmarkovmodel_generateDelay`: the conversion rounds to `2 ^ 64`. -/
def UINT64_MAX_double : Double := Double.fin (2 ^ 64)

/-- The C conversion `(guint64) x`: truncation toward zero when the truncated
value fits, and the platform's choice otherwise. -/
def castToUInt64 (env : Env) (x : Double) : Nat :=
  match x with
  | Double.fin q =>
    if -1 < q ∧ q < 2 ^ 64 then ⌊q⌋.toNat else env.castUndefined x % 2 ^ 64
  | _ => env.castUndefined x % 2 ^ 64

/-! ## The engine -/

structure TGenMarkovModel where
  refcount : Int
  prng : GRand
  prngSeed : Nat
  name : CStr
  graph : igraph_t
  startVertexIndex : Nat
  currentStateVertexIndex : Nat
  foundEndState : Bool
  magic : Nat
  deriving DecidableEq

def TGEN_MMODEL_MAGIC : Nat := 0xDEEFCABA

/-- Returns the value when it is found and not empty. -/
def _tgenmarkovmodel_findVertexAttributeString (mmodel : TGenMarkovModel) (vertexIndex : Nat)
    (attr : VertexAttribute) : Option CStr :=
  if igraph_cattribute_has_vertex_attr mmodel.graph attr then
    match igraph_cattribute_VAS mmodel.graph attr vertexIndex with
    | [] => none
    | c :: cs => some (c :: cs)
  else none

/-- Returns the value when the attribute exists and the value is not NaN. -/
def _tgenmarkovmodel_findEdgeAttributeDouble (mmodel : TGenMarkovModel) (edgeIndex : Nat)
    (attr : EdgeAttribute) : Option Double :=
  if igraph_cattribute_has_edge_attr mmodel.graph attr then
    let value := igraph_cattribute_EAN mmodel.graph attr edgeIndex
    if value.isnan = false then some value else none
  else none

/-- Returns the value when it is found and not empty (the source only ever
asks for `EDGE_ATTR_TYPE`, the one string attribute of an edge). -/
def _tgenmarkovmodel_findEdgeAttributeString (mmodel : TGenMarkovModel) (edgeIndex : Nat)
    (attr : EdgeAttribute) : Option CStr :=
  if igraph_cattribute_has_edge_attr mmodel.graph attr then
    match igraph_cattribute_EAS mmodel.graph edgeIndex with
    | [] => none
    | c :: cs => some (c :: cs)
  else none

/-- The check of one vertex.  `some b` is the value the call returns.  On one
path the result is `none`, the source's behaviour there not being defined: a
vertex of type `observation` whose name is no emission name is reported by a
call of `tgen_warning` whose format string does not fit its arguments (it
begins with `'$s'` where `'%s'` is meant, so seven conversions stand against
eight arguments and the conversion `%s` is given the vertex index).
`tgen_warning` is declared in `tgen-log.h`, outside the sources at hand, and
nothing is assumed of what that call does. -/
def _tgenmarkovmodel_checkVertexAttributes (mmodel : TGenMarkovModel) (vertexIndex : Nat) :
    Option Bool :=
  -- the `name` attribute: (isSuccess so far, idStr)
  let nameStep : Bool × CStr :=
    if igraph_cattribute_has_vertex_attr mmodel.graph VERTEX_ATTR_NAME then
      match _tgenmarkovmodel_findVertexAttributeString mmodel vertexIndex VERTEX_ATTR_NAME with
      | some vidStr => (true, vidStr)
      | none => (false, "NULL".toList)
    else (false, "MISSING".toList)
  let isSuccess := nameStep.1
  let idStr := nameStep.2
  -- the `type` attribute
  if igraph_cattribute_has_vertex_attr mmodel.graph VERTEX_ATTR_TYPE then
    if _tgenmarkovmodel_vertexIDIsEqual idStr VERTEX_NAME_START then
      -- start vertex doesnt need any attributes
      some isSuccess
    else
      match _tgenmarkovmodel_findVertexAttributeString mmodel vertexIndex VERTEX_ATTR_TYPE with
      | some typeStr =>
        if _tgenmarkovmodel_vertexTypeIsEqual typeStr VERTEX_TYPE_STATE then
          some isSuccess
        else if _tgenmarkovmodel_vertexTypeIsEqual typeStr VERTEX_TYPE_OBSERVATION then
          -- `tgen_warning("'$s' type on vertex %li must be one of ...", ...)` comes
          -- before `isSuccess = FALSE` when the name is no emission name
          if !_tgenmarkovmodel_vertexIDIsEmission idStr then none else some isSuccess
        else some false
      | none => some false
  else some false

/-- The `while` loop of `_tgenmarkovmodel_validateVertices` over the vertex
indices still to visit.  The state is `(isSuccess, foundStart, *startVertexID)`
and, with it, the vertex indices the loop has passed to
`_tgenmarkovmodel_checkVertexAttributes` so far, in the order of the calls.
The loop leaves (`break`) right after a check that returns FALSE; `none` when a
check does not return a value. -/
def _tgenmarkovmodel_validateVertices_loop (mmodel : TGenMarkovModel) :
    List Nat → (Bool × Bool × Nat) × List Nat → Option ((Bool × Bool × Nat) × List Nat)
  | [], st => some st
  | vertexIndex :: rest, ((_, foundStart, startVertexID), checked) =>
    match _tgenmarkovmodel_checkVertexAttributes mmodel vertexIndex with
    | none => none
    | some isSuccess =>
      if !isSuccess then some ((isSuccess, foundStart, startVertexID), checked ++ [vertexIndex])
      else
        let idStr := igraph_cattribute_VAS mmodel.graph VERTEX_ATTR_NAME vertexIndex
        if _tgenmarkovmodel_vertexIDIsEqual idStr VERTEX_NAME_START then
          _tgenmarkovmodel_validateVertices_loop mmodel rest
            ((isSuccess, true, vertexIndex), checked ++ [vertexIndex])
        else
          _tgenmarkovmodel_validateVertices_loop mmodel rest
            ((isSuccess, foundStart, startVertexID), checked ++ [vertexIndex])

/-- Returns `isSuccess && foundStart` and the content of `*startVertexID`
after the call (the caller passes `&mmodel->startVertexIndex`); `none` when a
check in the loop does not return a value. -/
def _tgenmarkovmodel_validateVertices (mmodel : TGenMarkovModel) : Option (Bool × Nat) :=
  match _tgenmarkovmodel_validateVertices_loop mmodel
      (List.range mmodel.graph.vertices.length) ((true, false, mmodel.startVertexIndex), []) with
  | none => none
  | some (r, _) => some (r.1 && r.2.1, r.2.2)

/-- One numeric attribute check of `_tgenmarkovmodel_checkEdgeAttributes`:
`false` when the attribute is missing, NaN or negative. -/
def edgeAttributeNonNegative (mmodel : TGenMarkovModel) (edgeIndex : Nat)
    (attr : EdgeAttribute) : Bool :=
  if igraph_cattribute_has_edge_attr mmodel.graph attr then
    match _tgenmarkovmodel_findEdgeAttributeDouble mmodel edgeIndex attr with
    | some value => Double.ge value (Double.fin 0)
    | none => false
  else false

def _tgenmarkovmodel_checkEdgeAttributes (mmodel : TGenMarkovModel) (edgeIndex : Nat) : Bool :=
  match igraph_edge mmodel.graph edgeIndex with
  | none => false
  | some (fromVertexIndex, toVertexIndex) =>
  match _tgenmarkovmodel_findVertexAttributeString mmodel fromVertexIndex VERTEX_ATTR_NAME with
  | none => false
  | some fromIDStr =>
  match _tgenmarkovmodel_findVertexAttributeString mmodel toVertexIndex VERTEX_ATTR_NAME with
  | none => false
  | some toIDStr =>
    let weightOk := edgeAttributeNonNegative mmodel edgeIndex EDGE_ATTR_WEIGHT
    -- the `type` attribute: (no failure found, isValidEmission)
    let typeStep : Bool × Bool :=
      if igraph_cattribute_has_edge_attr mmodel.graph EDGE_ATTR_TYPE then
        match _tgenmarkovmodel_findEdgeAttributeString mmodel edgeIndex EDGE_ATTR_TYPE with
        | some typeStr =>
          if _tgenmarkovmodel_edgeTypeIsEqual typeStr EDGE_TYPE_TRANSITION then
            (!_tgenmarkovmodel_vertexIDIsEmission fromIDStr &&
              !_tgenmarkovmodel_vertexIDIsEmission toIDStr, false)
          else if _tgenmarkovmodel_edgeTypeIsEqual typeStr EDGE_TYPE_EMISSION then
            let ok := !_tgenmarkovmodel_vertexIDIsEmission fromIDStr &&
              _tgenmarkovmodel_vertexIDIsEmission toIDStr
            (ok, ok)
          else (false, false)
        | none => (false, false)
      else (false, false)
    let isValidEmission := typeStep.2
    let paramsOk :=
      if isValidEmission then
        edgeAttributeNonNegative mmodel edgeIndex EDGE_ATTR_LOGNORMMU &&
        edgeAttributeNonNegative mmodel edgeIndex EDGE_ATTR_LOGNORMSIGMA &&
        edgeAttributeNonNegative mmodel edgeIndex EDGE_ATTR_EXPLAMBDA
      else true
    weightOk && typeStep.1 && paramsOk

/-- The `while` loop of `_tgenmarkovmodel_validateEdges` over the edge indices
still to visit.  The state is `isSuccess` and, with it, the edge indices the
loop has passed to `_tgenmarkovmodel_checkEdgeAttributes` so far, in the order
of the calls.  The loop leaves (`break`) right after a check that returns
FALSE. -/
def _tgenmarkovmodel_validateEdges_loop (mmodel : TGenMarkovModel) :
    List Nat → Bool × List Nat → Bool × List Nat
  | [], st => st
  | edgeIndex :: rest, (_, checked) =>
    let isSuccess := _tgenmarkovmodel_checkEdgeAttributes mmodel edgeIndex
    if !isSuccess then (isSuccess, checked ++ [edgeIndex])
    else _tgenmarkovmodel_validateEdges_loop mmodel rest (isSuccess, checked ++ [edgeIndex])

/-- Returns `isSuccess` as the loop leaves it. -/
def _tgenmarkovmodel_validateEdges (mmodel : TGenMarkovModel) : Bool :=
  (_tgenmarkovmodel_validateEdges_loop mmodel (List.range mmodel.graph.edges.length)
    (true, [])).1

/-- The engine as `_tgenmarkovmodel_new` fills it in before validation
(`g_new0` zeroes the remaining fields). -/
def newModelBeforeValidation (graph : igraph_t) (name : CStr) (seed : Nat) : TGenMarkovModel :=
  { refcount := 1
    prng := g_rand_new_with_seed seed
    prngSeed := seed
    name := name
    graph := graph
    startVertexIndex := 0
    currentStateVertexIndex := 0
    foundEndState := false
    magic := TGEN_MMODEL_MAGIC }

/-- Returns the engine, or `none` when no engine is returned: the NULL that
reports a failed validation, and the vertex pass in which a check does not
return a value (see `_tgenmarkovmodel_checkVertexAttributes`). -/
def _tgenmarkovmodel_new (graph : igraph_t) (name : CStr) (seed : Nat) : Option TGenMarkovModel :=
  let mmodel := newModelBeforeValidation graph name seed
  match _tgenmarkovmodel_validateVertices mmodel with
  | none => none
  | some v =>
    let verticesPassed := v.1
    let mmodel := { mmodel with startVertexIndex := v.2 }
    let edgesPassed := _tgenmarkovmodel_validateEdges mmodel
    if !verticesPassed || !edgesPassed then none
    else some { mmodel with currentStateVertexIndex := mmodel.startVertexIndex }

/-- First loop of `_tgenmarkovmodel_chooseEdge`: the total weight of the
visited edges whose type matches; `none` when an assertion fails. -/
def chooseEdge_totalWeight (mmodel : TGenMarkovModel) (type : EdgeType) :
    List Nat → Double → Option Double
  | [], totalWeight => some totalWeight
  | edgeIndex :: rest, totalWeight =>
    match _tgenmarkovmodel_findEdgeAttributeString mmodel edgeIndex EDGE_ATTR_TYPE with
    | none => none
    | some typeStr =>
      if _tgenmarkovmodel_edgeTypeIsEqual typeStr type then
        match _tgenmarkovmodel_findEdgeAttributeDouble mmodel edgeIndex EDGE_ATTR_WEIGHT with
        | none => none
        | some weightValue =>
          chooseEdge_totalWeight mmodel type rest (Double.add totalWeight weightValue)
      else chooseEdge_totalWeight mmodel type rest totalWeight

/-- Second loop of `_tgenmarkovmodel_chooseEdge`: the first matching edge whose
cumulative weight reaches `randomValue` (`some none` when the loop ends with
`foundEdge` still false, `none` when an assertion fails). -/
def chooseEdge_select (mmodel : TGenMarkovModel) (type : EdgeType) (randomValue : Double) :
    List Nat → Double → Option (Option Nat)
  | [], _ => some none
  | edgeIndex :: rest, cumulativeWeight =>
    match _tgenmarkovmodel_findEdgeAttributeString mmodel edgeIndex EDGE_ATTR_TYPE with
    | none => none
    | some typeStr =>
      if _tgenmarkovmodel_edgeTypeIsEqual typeStr type then
        match _tgenmarkovmodel_findEdgeAttributeDouble mmodel edgeIndex EDGE_ATTR_WEIGHT with
        | none => none
        | some weightValue =>
          if Double.ge (Double.add cumulativeWeight weightValue) randomValue then
            some (some edgeIndex)
          else
            chooseEdge_select mmodel type randomValue rest (Double.add cumulativeWeight weightValue)
      else chooseEdge_select mmodel type randomValue rest cumulativeWeight

/-- The result is `none` when an assertion aborts; otherwise the engine after
the call (its PRNG has advanced) and `some (edgeIndex, toVertexIndex)` for
TRUE, `none` for FALSE. -/
def _tgenmarkovmodel_chooseEdge (env : Env) (mmodel : TGenMarkovModel) (type : EdgeType)
    (fromVertexIndex : Nat) : Option (Option (Nat × Nat) × TGenMarkovModel) :=
  -- the iterator cannot be created on a vertex the graph does not have
  if ¬ fromVertexIndex < mmodel.graph.vertices.length then some (none, mmodel)
  else
    let edges := igraph_incident_out mmodel.graph fromVertexIndex
    match chooseEdge_totalWeight mmodel type edges (Double.fin 0) with
    | none => none
    | some totalWeight =>
      let draw := g_rand_double_range env mmodel.prng (Double.fin 0) totalWeight
      let randomValue := draw.1
      let mmodel := { mmodel with prng := draw.2 }
      match chooseEdge_select mmodel type randomValue edges (Double.fin 0) with
      | none => none
      | some none => some (none, mmodel)
      | some (some chosenEdgeIndex) =>
        match igraph_edge mmodel.graph chosenEdgeIndex with
        | none => some (none, mmodel)
        | some (_, toVertex) => some (some (chosenEdgeIndex, toVertex), mmodel)

def _tgenmarkovmodel_chooseTransition (env : Env) (mmodel : TGenMarkovModel)
    (fromVertexIndex : Nat) : Option (Option (Nat × Nat) × TGenMarkovModel) :=
  _tgenmarkovmodel_chooseEdge env mmodel EDGE_TYPE_TRANSITION fromVertexIndex

def _tgenmarkovmodel_chooseEmission (env : Env) (mmodel : TGenMarkovModel)
    (fromVertexIndex : Nat) : Option (Option (Nat × Nat) × TGenMarkovModel) :=
  _tgenmarkovmodel_chooseEdge env mmodel EDGE_TYPE_EMISSION fromVertexIndex

def _tgenmarkovmodel_generateLogNormalValue (env : Env) (mmodel : TGenMarkovModel)
    (mu sigma : Double) : Double × TGenMarkovModel :=
  let d1 := g_rand_double_range env mmodel.prng (Double.fin 0.0001) (Double.fin 0.9999)
  let u := d1.1
  let d2 := g_rand_double_range env d1.2 (Double.fin 0.0001) (Double.fin 0.9999)
  let v := d2.1
  let two := Double.fin 2
  let x := Double.mul (env.sqrt (Double.mul (Double.neg two) (env.log u)))
    (env.cos (Double.mul (Double.mul two M_PI) v))
  (env.exp (Double.add mu (Double.mul sigma x)), { mmodel with prng := d2.2 })

def _tgenmarkovmodel_generateExponentialValue (env : Env) (mmodel : TGenMarkovModel)
    (lambda : Double) : Double × TGenMarkovModel :=
  let d := g_rand_double_range env mmodel.prng (Double.fin 0.0001) (Double.fin 0.9999)
  let clampedUniform := d.1
  (Double.div (Double.neg (env.log clampedUniform)) lambda, { mmodel with prng := d.2 })

def _tgenmarkovmodel_generateDelay (env : Env) (mmodel : TGenMarkovModel) (edgeIndex : Nat) :
    Option (Nat × TGenMarkovModel) :=
  match _tgenmarkovmodel_findEdgeAttributeString mmodel edgeIndex EDGE_ATTR_TYPE with
  | none => none
  | some typeStr =>
  if _tgenmarkovmodel_edgeTypeIsEqual typeStr EDGE_TYPE_EMISSION = false then none else
  match _tgenmarkovmodel_findEdgeAttributeDouble mmodel edgeIndex EDGE_ATTR_LOGNORMMU with
  | none => none
  | some muValue =>
  match _tgenmarkovmodel_findEdgeAttributeDouble mmodel edgeIndex EDGE_ATTR_LOGNORMSIGMA with
  | none => none
  | some sigmaValue =>
    let generated : Option (Double × TGenMarkovModel) :=
      if Double.gt sigmaValue (Double.fin 0) || Double.gt muValue (Double.fin 0) then
        some (_tgenmarkovmodel_generateLogNormalValue env mmodel muValue sigmaValue)
      else
        match _tgenmarkovmodel_findEdgeAttributeDouble mmodel edgeIndex EDGE_ATTR_EXPLAMBDA with
        | none => none
        | some lambdaValue =>
          some (_tgenmarkovmodel_generateExponentialValue env mmodel lambdaValue)
    match generated with
    | none => none
    | some (generatedValue, mmodel) =>
      if Double.gt generatedValue UINT64_MAX_double then some (UINT64_MAX, mmodel)
      else some (castToUInt64 env generatedValue, mmodel)

def _tgenmarkovmodel_vertexToObservation (mmodel : TGenMarkovModel) (vertexIndex : Nat) :
    Option Observation :=
  match _tgenmarkovmodel_findVertexAttributeString mmodel vertexIndex VERTEX_ATTR_TYPE with
  | none => none
  | some typeStr =>
  if _tgenmarkovmodel_vertexTypeIsEqual typeStr VERTEX_TYPE_OBSERVATION = false then none else
  match _tgenmarkovmodel_findVertexAttributeString mmodel vertexIndex VERTEX_ATTR_NAME with
  | none => none
  | some vidStr =>
    if _tgenmarkovmodel_vertexIDIsEqual vidStr VERTEX_NAME_PACKET_TO_ORIGIN then
      some OBSERVATION_PACKET_TO_ORIGIN
    else if _tgenmarkovmodel_vertexIDIsEqual vidStr VERTEX_NAME_PACKET_TO_SERVER then
      some OBSERVATION_PACKET_TO_SERVER
    else if _tgenmarkovmodel_vertexIDIsEqual vidStr VERTEX_NAME_STREAM then
      some OBSERVATION_STREAM
    else some OBSERVATION_END

/-- The step `next`.  `delay` is the caller's pointer (see the conventions at
the top); the result is `none` when an assertion aborts, otherwise the
observation returned, the content of `*delay` after the call and the engine
after the call. -/
def tgenmarkovmodel_getNextObservation (env : Env) (mmodel : TGenMarkovModel)
    (delay : Option Nat) : Option (Observation × Option Nat × TGenMarkovModel) :=
  if mmodel.foundEndState then some (OBSERVATION_END, delay, mmodel)
  else
    -- first choose the next state through a transition edge
    match _tgenmarkovmodel_chooseTransition env mmodel mmodel.currentStateVertexIndex with
    | none => none
    | some (none, mmodel) => some (OBSERVATION_END, delay, mmodel)
    | some (some (_, nextStateVertexIndex), mmodel) =>
      -- update our current state
      let mmodel := { mmodel with currentStateVertexIndex := nextStateVertexIndex }
      -- now choose an observation through an emission edge
      match _tgenmarkovmodel_chooseEmission env mmodel mmodel.currentStateVertexIndex with
      | none => none
      | some (none, mmodel) => some (OBSERVATION_END, delay, mmodel)
      | some (some (emissionEdgeIndex, emissionObservationVertexIndex), mmodel) =>
        let delayStep : Option (Option Nat × TGenMarkovModel) :=
          match delay with
          | none => some (none, mmodel)
          | some _ =>
            match _tgenmarkovmodel_generateDelay env mmodel emissionEdgeIndex with
            | none => none
            | some (d, mmodel) => some (some (if d > 60000000 then 60000000 else d), mmodel)
        match delayStep with
        | none => none
        | some (delay, mmodel) =>
          match _tgenmarkovmodel_vertexToObservation mmodel emissionObservationVertexIndex with
          | none => none
          | some observation => some (observation, delay, mmodel)

def tgenmarkovmodel_reset (mmodel : TGenMarkovModel) : TGenMarkovModel :=
  { mmodel with
    foundEndState := false
    currentStateVertexIndex := mmodel.startVertexIndex }

def tgenmarkovmodel_getSeed (mmodel : TGenMarkovModel) : Nat := mmodel.prngSeed

def tgenmarkovmodel_getName (mmodel : TGenMarkovModel) : CStr := mmodel.name

/-! ## Call sequences -/

/-- A call the host makes on an engine: `next` with its `delay` pointer, or
`reset`. -/
inductive Call where
  | next (delay : Option Nat)
  | reset
  deriving DecidableEq

/-- What a call hands back: for `next` the observation and the content of
`*delay` after the call, nothing for `reset`. -/
inductive Output where
  | observed (observation : Observation) (delay : Option Nat)
  | done
  deriving DecidableEq

/-- Runs the calls in order on the engine; `none` when one of them aborts. -/
def runCalls (env : Env) : List Call → TGenMarkovModel → Option (List Output × TGenMarkovModel)
  | [], mmodel => some ([], mmodel)
  | Call.next delay :: rest, mmodel =>
    match tgenmarkovmodel_getNextObservation env mmodel delay with
    | none => none
    | some (observation, d, mmodel) =>
      match runCalls env rest mmodel with
      | none => none
      | some (outs, mmodel) => some (Output.observed observation d :: outs, mmodel)
  | Call.reset :: rest, mmodel =>
    match runCalls env rest (tgenmarkovmodel_reset mmodel) with
    | none => none
    | some (outs, mmodel) => some (Output.done :: outs, mmodel)

/-! ## Vocabulary of the statements -/

/-- The first `c.length` characters of `s` are those of `c`, ASCII case aside:
what the source's comparisons `g_ascii_strncasecmp (s, c, strlen (c)) == 0`
test, as the characterisation lemmas below show. -/
def startsWithIgnoringCase (s c : CStr) : Prop :=
  (s.take c.length).map g_ascii_tolower = c.map g_ascii_tolower

instance (s c : CStr) : Decidable (startsWithIgnoringCase s c) := by
  unfold startsWithIgnoringCase; infer_instance

/-- The engine with its diagnostic name replaced. -/
def withName (name : CStr) (mmodel : TGenMarkovModel) : TGenMarkovModel :=
  { mmodel with name := name }

/-! ## Paths of `next` -/

/-- The transition chooser returns FALSE on the engine's current vertex. -/
def transitionChooserFails (env : Env) (mmodel : TGenMarkovModel) : Prop :=
  ∃ m1, _tgenmarkovmodel_chooseTransition env mmodel mmodel.currentStateVertexIndex
    = some (none, m1)

/-- The transition chooser returns TRUE with destination `v`, and the emission
chooser then returns FALSE on `v`. -/
def emissionChooserFails (env : Env) (mmodel : TGenMarkovModel) : Prop :=
  ∃ e v m1 m2,
    _tgenmarkovmodel_chooseTransition env mmodel mmodel.currentStateVertexIndex
      = some (some (e, v), m1) ∧
    _tgenmarkovmodel_chooseEmission env { m1 with currentStateVertexIndex := v } v
      = some (none, m2)

/-- Both choosers return TRUE: the call reaches the emission. -/
def bothChoosersSucceed (env : Env) (mmodel : TGenMarkovModel) : Prop :=
  ∃ e v m1 ee ov m2,
    _tgenmarkovmodel_chooseTransition env mmodel mmodel.currentStateVertexIndex
      = some (some (e, v), m1) ∧
    _tgenmarkovmodel_chooseEmission env { m1 with currentStateVertexIndex := v } v
      = some (some (ee, ov), m2)

/-! ## Concrete inputs

The graphs and the environment the closed statements below are evaluated on.
Every attribute exists in these graphs; a transition edge carries no emission
parameters, which the loader reads as NaN. -/

/-- An environment for the evaluations: every uniform draw is 1/4.  With it the
sampler's clamped uniform is 0.25005, whose logarithm is -1.386 to three
places, the value `log` returns; the runs below use exponential delays only, so
`exp`, `sqrt` and `cos` are never called. -/
def sampleEnv : Env where
  g_rand_double := fun _ _ => 1 / 4
  log := fun _ => Double.fin (-1386 / 1000)
  exp := fun _ => Double.nan
  sqrt := fun _ => Double.nan
  cos := fun _ => Double.nan
  castUndefined := fun _ => 0

def transitionEdge (src dst : Nat) (w : ℚ) : Edge :=
  { src := src, dst := dst, type := "transition".toList, weight := Double.fin w,
    lognorm_mu := Double.nan, lognorm_sigma := Double.nan, exp_lambda := Double.nan }

def emissionEdge (src dst : Nat) (w mu sigma lam : ℚ) : Edge :=
  { src := src, dst := dst, type := "emission".toList, weight := Double.fin w,
    lognorm_mu := Double.fin mu, lognorm_sigma := Double.fin sigma,
    exp_lambda := Double.fin lam }

def mkGraph (vs : List Vertex) (es : List Edge) : igraph_t :=
  { hasVertexId := true, hasVertexName := true, hasVertexType := true, hasEdgeType := true,
    hasEdgeWeight := true, hasEdgeMu := true, hasEdgeSigma := true, hasEdgeLambda := true,
    vertices := vs, edges := es }

def startVertex : Vertex := { name := "start".toList, type := [] }

def stateVertex (name : String) : Vertex := { name := name.toList, type := "state".toList }

def observationVertex (name : String) : Vertex :=
  { name := name.toList, type := "observation".toList }

/-- Graph `start -t-> s1`, `s1 -t-> s2`, `s1 -e-> F`, `s2 -e-> +`, all weights 1,
emissions exponential with rate 1. -/
def graphEndThenPacket : igraph_t := mkGraph
  [startVertex, stateVertex "s1", stateVertex "s2", observationVertex "F", observationVertex "+"]
  [transitionEdge 0 1 1, transitionEdge 1 2 1, emissionEdge 1 3 1 0 0 1, emissionEdge 2 4 1 0 0 1]

/-- Graph `start -t-> s1`, `s1 -t-> s2`, `s2 -e-> +`: `s1` has no emission edge. -/
def graphNoEmission : igraph_t := mkGraph
  [startVertex, stateVertex "s1", stateVertex "s2", observationVertex "+"]
  [transitionEdge 0 1 1, transitionEdge 1 2 1, emissionEdge 2 3 1 0 0 1]

/-- Graph with the start vertex alone and no edge. -/
def graphStartOnly : igraph_t := mkGraph [startVertex] []

/-- Graph whose only vertex is named `START`, in capitals. -/
def graphCapitalStart : igraph_t := mkGraph [{ name := "START".toList, type := [] }] []

/-- Graph with two vertices named `start` and no edge. -/
def graphTwoStarts : igraph_t := mkGraph [startVertex, startVertex] []

/-- Graph with the start vertex and a vertex named `F` of type `state`. -/
def graphStateNamedF : igraph_t := mkGraph [startVertex, stateVertex "F"] []

/-- Graph whose vertices all have type `observation`: one named `start`, one
named `f` in lower case. -/
def graphObservationNames : igraph_t :=
  mkGraph [observationVertex "start", observationVertex "f"] []

/-- Graph with a single vertex, named `s1`: there is no start vertex. -/
def graphNoStart : igraph_t := mkGraph [stateVertex "s1"] []

/-- The engine `_tgenmarkovmodel_new` returns for a graph whose start vertex is
vertex 0. -/
def engineOn (graph : igraph_t) : TGenMarkovModel := newModelBeforeValidation graph "m".toList 7

/-- The engine on `graphEndThenPacket` with the terminated flag raised. -/
def terminatedEngine : TGenMarkovModel :=
  { engineOn graphEndThenPacket with foundEndState := true }

/-! ## Vocabulary of the edge statements -/

/-- The name begins, ASCII case aside, with one of `+`, `-`, `$`, `F`: what
`_tgenmarkovmodel_vertexIDIsEmission` tests. -/
def emissionNamed (s : CStr) : Prop :=
  startsWithIgnoringCase s "+".toList ∨ startsWithIgnoringCase s "-".toList ∨
    startsWithIgnoringCase s "$".toList ∨ startsWithIgnoringCase s "F".toList

/-- The name is exactly one of the four strings `+`, `-`, `$`, `F`. -/
def isOneOfEmissionNames (s : CStr) : Prop :=
  s = "+".toList ∨ s = "-".toList ∨ s = "$".toList ∨ s = "F".toList

instance (s : CStr) : Decidable (isOneOfEmissionNames s) := by
  unfold isOneOfEmissionNames; infer_instance

/-- The graph with the three emission attributes removed: the attributes no
longer exist and no edge carries a value for them. -/
def withoutEmissionParams (g : igraph_t) : igraph_t :=
  { g with
    hasEdgeMu := false
    hasEdgeSigma := false
    hasEdgeLambda := false
    edges := g.edges.map (fun e =>
      { e with lognorm_mu := Double.nan, lognorm_sigma := Double.nan,
               exp_lambda := Double.nan }) }

/-! ## Concrete inputs for the edge statements -/

/-- Graph `start -t-> f`: the destination is a state vertex named `f`, in lower
case. -/
def graphTransitionToLowerF : igraph_t :=
  mkGraph [startVertex, stateVertex "f"] [transitionEdge 0 1 1]

/-- Graph `start -t-> s1`, `+ -e-> F`: the emission edge leaves the observation
vertex `+`. -/
def graphEmissionFromObservation : igraph_t := mkGraph
  [startVertex, stateVertex "s1", observationVertex "+", observationVertex "F"]
  [transitionEdge 0 1 1, emissionEdge 2 3 1 0 0 1]

/-- Graph `start -t-> s1` whose only edge has weight plus infinity. -/
def graphInfiniteWeight : igraph_t := mkGraph [startVertex, stateVertex "s1"]
  [{ src := 0, dst := 1, type := "transition".toList, weight := Double.pinf,
     lognorm_mu := Double.nan, lognorm_sigma := Double.nan, exp_lambda := Double.nan }]

/-! ## The chooser in the spec's words

The spec's chooser for a vertex `v` and a kind `K`: compute `W`, the sum of the
weights of the outgoing edges of kind `K`; walk these edges in storage order,
accumulating weights; return the first edge whose running total is `≥ r`. -/

/-- The outgoing edges of `v` whose type matches `type`, in storage order. -/
def kindEdges (mmodel : TGenMarkovModel) (type : EdgeType) (v : Nat) : List Nat :=
  (igraph_incident_out mmodel.graph v).filter
    (fun e => _tgenmarkovmodel_edgeTypeIsEqual (igraph_cattribute_EAS mmodel.graph e) type)

/-- The weight attribute of an edge. -/
def edgeWeight (mmodel : TGenMarkovModel) (e : Nat) : Double :=
  igraph_cattribute_EAN mmodel.graph EDGE_ATTR_WEIGHT e

/-- The sum of the weights of `es` added, in order, to `acc`. -/
def sumFrom (mmodel : TGenMarkovModel) (acc : Double) (es : List Nat) : Double :=
  es.foldl (fun a e => Double.add a (edgeWeight mmodel e)) acc

/-- The running total after the first `k` edges of `es`. -/
def runningTotal (mmodel : TGenMarkovModel) (es : List Nat) (k : Nat) : Double :=
  sumFrom mmodel (Double.fin 0) (es.take k)

/-- The first edge of `es` at which the running total, started at `acc`,
is `≥ r`; `none` when no edge reaches `r`. -/
def firstReaching (mmodel : TGenMarkovModel) (r : Double) : Double → List Nat → Option Nat
  | _, [] => none
  | acc, e :: es =>
    if Double.ge (Double.add acc (edgeWeight mmodel e)) r then some e
    else firstReaching mmodel r (Double.add acc (edgeWeight mmodel e)) es

/-- The finite value of a weight (0 for NaN and the infinities). -/
def weightQ (mmodel : TGenMarkovModel) (e : Nat) : ℚ :=
  match edgeWeight mmodel e with
  | Double.fin q => q
  | _ => 0

/-- The prefix sum `S_k` of the finite weights of the first `k` edges of `es`. -/
def prefixWeight (mmodel : TGenMarkovModel) (es : List Nat) (k : Nat) : ℚ :=
  ((es.take k).map (weightQ mmodel)).sum

/-- The engine after one draw from its PRNG. -/
def afterOneDraw (mmodel : TGenMarkovModel) : TGenMarkovModel :=
  { mmodel with prng := { seed := mmodel.prng.seed, pos := mmodel.prng.pos + 1 } }

/-- Graph `start -t-> s1` whose only edge has weight 0. -/
def graphZeroWeight : igraph_t :=
  mkGraph [startVertex, stateVertex "s1"] [transitionEdge 0 1 0]

/-- Scenario S6 of the spec: `start -t-> s1`, and `s1` has three emission edges
of weights 1, 3, 6 to `$`, `+`, `-`. -/
def graphThreeEmissions : igraph_t := mkGraph
  [startVertex, stateVertex "s1", observationVertex "$", observationVertex "+",
   observationVertex "-"]
  [transitionEdge 0 1 1, emissionEdge 1 2 1 0 0 1, emissionEdge 1 3 3 0 0 1,
   emissionEdge 1 4 6 0 0 1]

/-- The conversion that ends `_tgenmarkovmodel_generateDelay`: `UINT64_MAX`
when the sample exceeds it, the C cast to `guint64` otherwise. -/
def delayOfSample (env : Env) (generatedValue : Double) : Nat :=
  if Double.gt generatedValue UINT64_MAX_double then UINT64_MAX
  else castToUInt64 env generatedValue

/-- The engine after two draws from its PRNG. -/
def afterTwoDraws (mmodel : TGenMarkovModel) : TGenMarkovModel :=
  { mmodel with prng := { seed := mmodel.prng.seed, pos := mmodel.prng.pos + 2 } }

/-- The value a sampler's `g_rand_double_range (prng, 0.0001, 0.9999)` returns
when the PRNG is at position `pos`. -/
def clampedUniform (env : Env) (mmodel : TGenMarkovModel) (pos : Nat) : Double :=
  (g_rand_double_range env { seed := mmodel.prng.seed, pos := pos }
    (Double.fin 0.0001) (Double.fin 0.9999)).1

/-- Graph `start -t-> s1`, `s1 -e-> $` where the emission has `lognorm_mu = 1`,
`lognorm_sigma = 2`, `exp_lambda = 3`. -/
def graphLogNormal : igraph_t := mkGraph
  [startVertex, stateVertex "s1", observationVertex "$"]
  [transitionEdge 0 1 1, emissionEdge 1 2 1 1 2 3]

/-! ## The serializer -/

/-- What `tgenmarkovmodel_toGraphmlString` needs of libc and of igraph's
GraphML writer: whether `open_memstream` yields a stream, the bytes
`igraph_write_graph_graphml` writes for a graph (`none` for a non-success
code), and whether `fclose` succeeds. -/
structure GraphmlWriter where
  open_memstream : Bool
  igraph_write_graph_graphml : igraph_t → Option CStr
  fclose : Bool

/-- The call `igraph_cattribute_remove_v (graph, "id")`: afterwards the vertices
carry no attribute `id`. -/
def igraph_cattribute_remove_v_id (g : igraph_t) : igraph_t :=
  { g with hasVertexId := false }

/-- Returns the buffer (`none` for NULL) and the engine after the call.  The
two assertions on the `GString` hold for every buffer that is a C string. -/
def tgenmarkovmodel_toGraphmlString (w : GraphmlWriter) (mmodel : TGenMarkovModel) :
    Option CStr × TGenMarkovModel :=
  if w.open_memstream = false then (none, mmodel)
  else
    let mmodel := { mmodel with graph := igraph_cattribute_remove_v_id mmodel.graph }
    match w.igraph_write_graph_graphml mmodel.graph with
    | none => (none, mmodel)
    | some buffer => if w.fclose = false then (none, mmodel) else (some buffer, mmodel)

/-! ## The sampler call of `_tgenmarkovmodel_generateDelay` -/

/-- A call of one of the two samplers, with its arguments. -/
inductive SamplerCall where
  | logNormal (mu sigma : Double)
  | exponential (lambda : Double)
  deriving DecidableEq

/-- The part of `_tgenmarkovmodel_generateDelay` before the sampler runs: the
assertions on the edge's attributes and the choice of the sampler; `none` when
an assertion fails. -/
def generateDelay_samplerCall (mmodel : TGenMarkovModel) (edgeIndex : Nat) : Option SamplerCall :=
  match _tgenmarkovmodel_findEdgeAttributeString mmodel edgeIndex EDGE_ATTR_TYPE with
  | none => none
  | some typeStr =>
  if _tgenmarkovmodel_edgeTypeIsEqual typeStr EDGE_TYPE_EMISSION = false then none else
  match _tgenmarkovmodel_findEdgeAttributeDouble mmodel edgeIndex EDGE_ATTR_LOGNORMMU with
  | none => none
  | some muValue =>
  match _tgenmarkovmodel_findEdgeAttributeDouble mmodel edgeIndex EDGE_ATTR_LOGNORMSIGMA with
  | none => none
  | some sigmaValue =>
    if Double.gt sigmaValue (Double.fin 0) || Double.gt muValue (Double.fin 0) then
      some (SamplerCall.logNormal muValue sigmaValue)
    else
      match _tgenmarkovmodel_findEdgeAttributeDouble mmodel edgeIndex EDGE_ATTR_EXPLAMBDA with
      | none => none
      | some lambdaValue => some (SamplerCall.exponential lambdaValue)

/-- Runs a sampler call: the sample and the engine after the call. -/
def runSamplerCall (env : Env) (mmodel : TGenMarkovModel) :
    SamplerCall → Double × TGenMarkovModel
  | SamplerCall.logNormal mu sigma => _tgenmarkovmodel_generateLogNormalValue env mmodel mu sigma
  | SamplerCall.exponential lambda => _tgenmarkovmodel_generateExponentialValue env mmodel lambda

/-- How many uniforms a sampler call draws. -/
def SamplerCall.draws : SamplerCall → Nat
  | SamplerCall.logNormal _ _ => 2
  | SamplerCall.exponential _ => 1

/-! ## Vocabulary of the engine statements -/

/-- The engine after `k` draws from its PRNG. -/
def afterDraws (k : Nat) (mmodel : TGenMarkovModel) : TGenMarkovModel :=
  { mmodel with prng := { seed := mmodel.prng.seed, pos := mmodel.prng.pos + k } }

/-- What `next` and `reset` keep true of an engine that `_tgenmarkovmodel_new`
returned for `graph`, `name` and `seed`: it owns that graph, which passed the
edge pass; name and seed are the ones given; the terminated flag is down; the
start vertex exists and is named `start`; the current vertex is the start
vertex or the destination of a transition edge. -/
def engineInvariant (graph : igraph_t) (name : CStr) (seed : Nat) (m : TGenMarkovModel) : Prop :=
  m.graph = graph ∧ m.name = name ∧ m.prngSeed = seed ∧ m.prng.seed = seed ∧
  m.foundEndState = false ∧
  _tgenmarkovmodel_validateEdges m = true ∧
  (∃ v, graph.vertices[m.startVertexIndex]? = some v ∧
    _tgenmarkovmodel_vertexIDIsEqual v.name VERTEX_NAME_START = true) ∧
  (m.currentStateVertexIndex = m.startVertexIndex ∨
    ∃ (e : Nat) (edge : Edge), graph.edges[e]? = some edge ∧
      _tgenmarkovmodel_edgeTypeIsEqual edge.type EDGE_TYPE_TRANSITION = true ∧
      edge.dst = m.currentStateVertexIndex)

/-- The observation `_tgenmarkovmodel_vertexToObservation` returns for a
vertex named `vidStr`, once its assertions have passed. -/
def observationOfName (vidStr : CStr) : Observation :=
  if _tgenmarkovmodel_vertexIDIsEqual vidStr VERTEX_NAME_PACKET_TO_ORIGIN then
    OBSERVATION_PACKET_TO_ORIGIN
  else if _tgenmarkovmodel_vertexIDIsEqual vidStr VERTEX_NAME_PACKET_TO_SERVER then
    OBSERVATION_PACKET_TO_SERVER
  else if _tgenmarkovmodel_vertexIDIsEqual vidStr VERTEX_NAME_STREAM then
    OBSERVATION_STREAM
  else OBSERVATION_END

/-! ## Concrete inputs for the engine statements -/

/-- Graph `start -t-> s1`, `s1 -e-> $` where the emission has `lognorm_mu = 0`,
`lognorm_sigma = 0` and `exp_lambda = 0`. -/
def graphZeroLambda : igraph_t := mkGraph
  [startVertex, stateVertex "s1", observationVertex "$"]
  [transitionEdge 0 1 1, emissionEdge 1 2 1 0 0 0]

/-- Graph `start -t-> s1`, `s1 -e-> $` where the emission is exponential with
rate `1.386 / 2^64`: with `sampleEnv`, whose `-log u` is 1.386, the sample is
`2^64` exactly. -/
def graphBoundarySample : igraph_t := mkGraph
  [startVertex, stateVertex "s1", observationVertex "$"]
  [transitionEdge 0 1 1, emissionEdge 1 2 1 0 0 (1386 / 1000 / 2 ^ 64)]

/-- Graph `start -t-> s1`, `s1 -e-> F` where the vertex named `F` has type
`state`. -/
def graphEmissionToStateF : igraph_t := mkGraph
  [startVertex, stateVertex "s1", stateVertex "F"]
  [transitionEdge 0 1 1, emissionEdge 1 2 1 0 0 1]

/-- Graph `start -t-> s1`, `s1 -t-> start`, `start -e-> $`: a transition edge
enters the start vertex and an emission edge leaves it. -/
def graphEdgesAtStart : igraph_t := mkGraph
  [startVertex, stateVertex "s1", observationVertex "$"]
  [transitionEdge 0 1 1, transitionEdge 1 0 1, emissionEdge 0 2 1 0 0 1]

/-- Graph with the start vertex, two vertices of the unknown type `router`, and
two transition edges of negative weight. -/
def graphTwoViolations : igraph_t := mkGraph
  [startVertex, { name := "a".toList, type := "router".toList },
   { name := "b".toList, type := "router".toList }]
  [transitionEdge 0 1 (-1), transitionEdge 0 2 (-1)]

/-- A writer for the evaluations: every call succeeds and the bytes written are
an empty GraphML document. -/
def sampleWriter : GraphmlWriter where
  open_memstream := true
  igraph_write_graph_graphml := fun _ => some "<graphml/>".toList
  fclose := true

/-! ## The samplers' expressions over a type of numbers

The two samplers compute closed expressions of their uniforms.  The expressions
are written here once, over any type of numbers with the operations and libm
functions they use: over `Double` with the environment's libm they are what the
samplers return; over the reals with the real `log`, `exp`, `sqrt` and `cos`
they are the values the statements about magnitudes speak of (rounding is not
modelled). -/

instance : Neg Double := ⟨Double.neg⟩

instance : Add Double := ⟨Double.add⟩

instance : Mul Double := ⟨Double.mul⟩

instance : Div Double := ⟨Double.div⟩

/-- The graph `graphThreeEmissions` with a state vertex `s2` and two transition
edges leaving `s1` added among its emission edges: `start -t-> s1`,
`s1 -t-> s2`, `s1 -e-> $`, `s1 -t-> s1`, `s1 -e-> +`, `s1 -e-> -`. -/
def graphThreeEmissionsAndTransitions : igraph_t := mkGraph
  [startVertex, stateVertex "s1", observationVertex "$", observationVertex "+",
   observationVertex "-", stateVertex "s2"]
  [transitionEdge 0 1 1, transitionEdge 1 5 2, emissionEdge 1 2 1 0 0 1, transitionEdge 1 1 7,
   emissionEdge 1 3 3 0 0 1, emissionEdge 1 4 6 0 0 1]

/-! ## Frame lemmas -/

theorem chooseEdge_frame (env : Env) (mmodel : TGenMarkovModel) (type : EdgeType) (v : Nat)
    (r : Option (Nat × Nat)) (m1 : TGenMarkovModel)
    (h : _tgenmarkovmodel_chooseEdge env mmodel type v = some (r, m1)) :
    m1 = { mmodel with prng := m1.prng } := by
  unfold _tgenmarkovmodel_chooseEdge at h
  split at h
  · simp only [Option.some.injEq, Prod.mk.injEq] at h
    rw [← h.2]
  · dsimp only at h
    split at h
    · exact absurd h (by simp)
    · split at h
      · exact absurd h (by simp)
      · simp only [Option.some.injEq, Prod.mk.injEq] at h
        rw [← h.2]
      · split at h
        · simp only [Option.some.injEq, Prod.mk.injEq] at h
          rw [← h.2]
        · simp only [Option.some.injEq, Prod.mk.injEq] at h
          rw [← h.2]

theorem castToUInt64_le (env : Env) (x : Double) : castToUInt64 env x ≤ UINT64_MAX := by
  have hmod : ∀ n : Nat, n % 2 ^ 64 ≤ UINT64_MAX := fun n => by
    have := Nat.mod_lt n (show 0 < 2 ^ 64 by norm_num)
    unfold UINT64_MAX
    omega
  unfold castToUInt64
  split
  · rename_i q
    split
    · rename_i hq
      have h1 : ⌊q⌋ < 2 ^ 64 := by
        have : ((⌊q⌋ : ℤ) : ℚ) < ((2 ^ 64 : ℤ) : ℚ) := by
          push_cast
          exact lt_of_le_of_lt (Int.floor_le q) hq.2
        exact_mod_cast this
      unfold UINT64_MAX
      omega
    · exact hmod _
  · exact hmod _

theorem generateDelay_frame (env : Env) (mmodel : TGenMarkovModel) (e d : Nat)
    (m1 : TGenMarkovModel) (h : _tgenmarkovmodel_generateDelay env mmodel e = some (d, m1)) :
    m1 = { mmodel with prng := m1.prng } ∧ d ≤ UINT64_MAX := by
  unfold _tgenmarkovmodel_generateDelay at h
  split at h
  · exact absurd h (by simp)
  · split at h
    · exact absurd h (by simp)
    · split at h
      · exact absurd h (by simp)
      · split at h
        · exact absurd h (by simp)
        · dsimp only at h
          split at h
          · exact absurd h (by simp)
          · rename_i gv m2 hgen
            have hm2 : m2 = { mmodel with prng := m2.prng } := by
              split at hgen
              · simp only [_tgenmarkovmodel_generateLogNormalValue, Option.some.injEq,
                  Prod.mk.injEq] at hgen
                rw [← hgen.2]
              · split at hgen
                · exact absurd hgen (by simp)
                · simp only [_tgenmarkovmodel_generateExponentialValue, Option.some.injEq,
                    Prod.mk.injEq] at hgen
                  rw [← hgen.2]
            split at h
            · simp only [Option.some.injEq, Prod.mk.injEq] at h
              rw [← h.1, ← h.2]
              exact ⟨hm2, le_refl _⟩
            · simp only [Option.some.injEq, Prod.mk.injEq] at h
              rw [← h.1, ← h.2]
              exact ⟨hm2, castToUInt64_le env gv⟩

/-- The four ways a call of `next` returns: terminated, transition chooser
failed, emission chooser failed, emission. -/
theorem getNextObservation_cases (env : Env) (mmodel : TGenMarkovModel) (delay : Option Nat)
    (obs : Observation) (d : Option Nat) (m' : TGenMarkovModel)
    (h : tgenmarkovmodel_getNextObservation env mmodel delay = some (obs, d, m')) :
    (mmodel.foundEndState = true ∧ obs = OBSERVATION_END ∧ d = delay ∧ m' = mmodel) ∨
    (mmodel.foundEndState = false ∧
      _tgenmarkovmodel_chooseTransition env mmodel mmodel.currentStateVertexIndex
        = some (none, m') ∧ obs = OBSERVATION_END ∧ d = delay) ∨
    (mmodel.foundEndState = false ∧ ∃ e v m1,
      _tgenmarkovmodel_chooseTransition env mmodel mmodel.currentStateVertexIndex
        = some (some (e, v), m1) ∧
      _tgenmarkovmodel_chooseEmission env { m1 with currentStateVertexIndex := v } v
        = some (none, m') ∧ obs = OBSERVATION_END ∧ d = delay) ∨
    (mmodel.foundEndState = false ∧ ∃ e v m1 ee ov m2,
      _tgenmarkovmodel_chooseTransition env mmodel mmodel.currentStateVertexIndex
        = some (some (e, v), m1) ∧
      _tgenmarkovmodel_chooseEmission env { m1 with currentStateVertexIndex := v } v
        = some (some (ee, ov), m2) ∧
      ((delay = none ∧ d = none ∧ m' = m2) ∨
       (∃ d0 x, delay = some d0 ∧ _tgenmarkovmodel_generateDelay env m2 ee = some (x, m') ∧
          d = some (if x > 60000000 then 60000000 else x))) ∧
      _tgenmarkovmodel_vertexToObservation m' ov = some obs) := by
  unfold tgenmarkovmodel_getNextObservation at h
  split at h
  · rename_i hf
    simp only [Option.some.injEq, Prod.mk.injEq] at h
    exact Or.inl ⟨hf, h.1.symm, h.2.1.symm, h.2.2.symm⟩
  · rename_i hf
    have hf' : mmodel.foundEndState = false := by simpa using hf
    right
    split at h
    · exact absurd h (by simp)
    · rename_i m1 ht
      simp only [Option.some.injEq, Prod.mk.injEq] at h
      left
      refine ⟨hf', ?_, h.1.symm, h.2.1.symm⟩
      rw [← h.2.2]; exact ht
    · rename_i e v m1 ht
      right
      dsimp only at h
      split at h
      · exact absurd h (by simp)
      · rename_i m2 he
        simp only [Option.some.injEq, Prod.mk.injEq] at h
        left
        refine ⟨hf', e, v, m1, ht, ?_, h.1.symm, h.2.1.symm⟩
        rw [← h.2.2]; exact he
      · rename_i ee ov m2 he
        right
        refine ⟨hf', e, v, m1, ee, ov, m2, ht, he, ?_⟩
        split at h
        · exact absurd h (by simp)
        · rename_i d1 m3 hstep
          split at h
          · exact absurd h (by simp)
          · rename_i o ho
            simp only [Option.some.injEq, Prod.mk.injEq] at h
            obtain ⟨h1, h2, h3⟩ := h
            subst h1 h2 h3
            refine ⟨?_, ho⟩
            split at hstep
            · simp only [Option.some.injEq, Prod.mk.injEq] at hstep
              exact Or.inl ⟨rfl, hstep.1.symm, hstep.2.symm⟩
            · rename_i d0
              split at hstep
              · exact absurd hstep (by simp)
              · rename_i x m4 hg
                simp only [Option.some.injEq, Prod.mk.injEq] at hstep
                right
                refine ⟨d0, x, rfl, ?_, hstep.1.symm⟩
                rw [← hstep.2]; exact hg

/-! ## Dependence on the graph only, and on the name not at all -/

theorem findVertexAttributeString_graph (m1 m2 : TGenMarkovModel) (h : m1.graph = m2.graph)
    (v : Nat) (a : VertexAttribute) :
    _tgenmarkovmodel_findVertexAttributeString m1 v a
      = _tgenmarkovmodel_findVertexAttributeString m2 v a := by
  unfold _tgenmarkovmodel_findVertexAttributeString
  rw [h]

theorem findEdgeAttributeDouble_graph (m1 m2 : TGenMarkovModel) (h : m1.graph = m2.graph)
    (e : Nat) (a : EdgeAttribute) :
    _tgenmarkovmodel_findEdgeAttributeDouble m1 e a
      = _tgenmarkovmodel_findEdgeAttributeDouble m2 e a := by
  unfold _tgenmarkovmodel_findEdgeAttributeDouble
  rw [h]

theorem findEdgeAttributeString_graph (m1 m2 : TGenMarkovModel) (h : m1.graph = m2.graph)
    (e : Nat) (a : EdgeAttribute) :
    _tgenmarkovmodel_findEdgeAttributeString m1 e a
      = _tgenmarkovmodel_findEdgeAttributeString m2 e a := by
  unfold _tgenmarkovmodel_findEdgeAttributeString
  rw [h]

theorem checkVertexAttributes_graph (m1 m2 : TGenMarkovModel) (h : m1.graph = m2.graph)
    (v : Nat) :
    _tgenmarkovmodel_checkVertexAttributes m1 v = _tgenmarkovmodel_checkVertexAttributes m2 v := by
  unfold _tgenmarkovmodel_checkVertexAttributes
  simp only [findVertexAttributeString_graph m1 m2 h, h]

theorem checkEdgeAttributes_graph (m1 m2 : TGenMarkovModel) (h : m1.graph = m2.graph)
    (e : Nat) :
    _tgenmarkovmodel_checkEdgeAttributes m1 e = _tgenmarkovmodel_checkEdgeAttributes m2 e := by
  unfold _tgenmarkovmodel_checkEdgeAttributes edgeAttributeNonNegative
  simp only [findVertexAttributeString_graph m1 m2 h, findEdgeAttributeString_graph m1 m2 h,
    findEdgeAttributeDouble_graph m1 m2 h, h]

theorem validateEdges_loop_graph (m1 m2 : TGenMarkovModel) (h : m1.graph = m2.graph)
    (l : List Nat) (st : Bool × List Nat) :
    _tgenmarkovmodel_validateEdges_loop m1 l st = _tgenmarkovmodel_validateEdges_loop m2 l st := by
  induction l generalizing st with
  | nil => rfl
  | cons e rest ih =>
    obtain ⟨b, checked⟩ := st
    simp only [_tgenmarkovmodel_validateEdges_loop, checkEdgeAttributes_graph m1 m2 h, ih]

theorem validateEdges_graph (m1 m2 : TGenMarkovModel) (h : m1.graph = m2.graph) :
    _tgenmarkovmodel_validateEdges m1 = _tgenmarkovmodel_validateEdges m2 := by
  unfold _tgenmarkovmodel_validateEdges
  rw [h, validateEdges_loop_graph m1 m2 h]

theorem validateVertices_loop_graph (m1 m2 : TGenMarkovModel) (h : m1.graph = m2.graph)
    (l : List Nat) (st : (Bool × Bool × Nat) × List Nat) :
    _tgenmarkovmodel_validateVertices_loop m1 l st
      = _tgenmarkovmodel_validateVertices_loop m2 l st := by
  induction l generalizing st with
  | nil => rfl
  | cons v rest ih =>
    obtain ⟨⟨a, b, c⟩, checked⟩ := st
    simp only [_tgenmarkovmodel_validateVertices_loop, checkVertexAttributes_graph m1 m2 h, ih, h]

theorem chooseEdge_totalWeight_graph (m1 m2 : TGenMarkovModel) (h : m1.graph = m2.graph)
    (type : EdgeType) (l : List Nat) (acc : Double) :
    chooseEdge_totalWeight m1 type l acc = chooseEdge_totalWeight m2 type l acc := by
  induction l generalizing acc with
  | nil => rfl
  | cons e rest ih =>
    simp only [chooseEdge_totalWeight, findEdgeAttributeString_graph m1 m2 h,
      findEdgeAttributeDouble_graph m1 m2 h, ih]

theorem chooseEdge_select_graph (m1 m2 : TGenMarkovModel) (h : m1.graph = m2.graph)
    (type : EdgeType) (r : Double) (l : List Nat) (acc : Double) :
    chooseEdge_select m1 type r l acc = chooseEdge_select m2 type r l acc := by
  induction l generalizing acc with
  | nil => rfl
  | cons e rest ih =>
    simp only [chooseEdge_select, findEdgeAttributeString_graph m1 m2 h,
      findEdgeAttributeDouble_graph m1 m2 h, ih]

theorem chooseEdge_withName (env : Env) (name : CStr) (mmodel : TGenMarkovModel)
    (type : EdgeType) (v : Nat) :
    _tgenmarkovmodel_chooseEdge env (withName name mmodel) type v
      = (_tgenmarkovmodel_chooseEdge env mmodel type v).map
          (fun r => (r.1, withName name r.2)) := by
  obtain ⟨rc, prng, seed, nm, g, sv, cv, fe, mg⟩ := mmodel
  unfold _tgenmarkovmodel_chooseEdge withName
  dsimp only
  split
  · rfl
  · rw [chooseEdge_totalWeight_graph ⟨rc, prng, seed, name, g, sv, cv, fe, mg⟩
      ⟨rc, prng, seed, nm, g, sv, cv, fe, mg⟩ rfl]
    cases chooseEdge_totalWeight ⟨rc, prng, seed, nm, g, sv, cv, fe, mg⟩ type
        (igraph_incident_out g v) (Double.fin 0) with
    | none => rfl
    | some tw =>
      dsimp only [Option.map]
      rw [chooseEdge_select_graph ⟨rc, _, seed, name, g, sv, cv, fe, mg⟩
        ⟨rc, (g_rand_double_range env prng (Double.fin 0) tw).2, seed, nm, g, sv, cv, fe, mg⟩ rfl]
      cases chooseEdge_select
          ⟨rc, (g_rand_double_range env prng (Double.fin 0) tw).2, seed, nm, g, sv, cv, fe, mg⟩
          type (g_rand_double_range env prng (Double.fin 0) tw).1
          (igraph_incident_out g v) (Double.fin 0) with
      | none => rfl
      | some choice =>
        cases choice with
        | none => rfl
        | some chosen =>
          dsimp only
          cases igraph_edge g chosen with
          | none => rfl
          | some ft => rfl

theorem generateDelay_withName (env : Env) (name : CStr) (mmodel : TGenMarkovModel) (e : Nat) :
    _tgenmarkovmodel_generateDelay env (withName name mmodel) e
      = (_tgenmarkovmodel_generateDelay env mmodel e).map
          (fun r => (r.1, withName name r.2)) := by
  have hg : (withName name mmodel).graph = mmodel.graph := rfl
  unfold _tgenmarkovmodel_generateDelay
  simp only [findEdgeAttributeString_graph _ _ hg, findEdgeAttributeDouble_graph _ _ hg]
  cases _tgenmarkovmodel_findEdgeAttributeString mmodel e EDGE_ATTR_TYPE with
  | none => rfl
  | some typeStr =>
    dsimp only
    split
    · rfl
    · cases _tgenmarkovmodel_findEdgeAttributeDouble mmodel e EDGE_ATTR_LOGNORMMU with
      | none => rfl
      | some mu =>
        dsimp only
        cases _tgenmarkovmodel_findEdgeAttributeDouble mmodel e EDGE_ATTR_LOGNORMSIGMA with
        | none => rfl
        | some sigma =>
          dsimp only
          cases hb : (Double.gt sigma (Double.fin 0) || Double.gt mu (Double.fin 0)) with
          | true =>
            have hp : (withName name mmodel).prng = mmodel.prng := rfl
            simp only [↓reduceIte, _tgenmarkovmodel_generateLogNormalValue, hp]
            split <;> rfl
          | false =>
            simp only [Bool.false_eq_true, ↓reduceIte]
            cases _tgenmarkovmodel_findEdgeAttributeDouble mmodel e EDGE_ATTR_EXPLAMBDA with
            | none => rfl
            | some lam =>
              have hp : (withName name mmodel).prng = mmodel.prng := rfl
              simp only [_tgenmarkovmodel_generateExponentialValue, hp]
              split <;> rfl

theorem vertexToObservation_graph (m1 m2 : TGenMarkovModel) (h : m1.graph = m2.graph) (v : Nat) :
    _tgenmarkovmodel_vertexToObservation m1 v = _tgenmarkovmodel_vertexToObservation m2 v := by
  unfold _tgenmarkovmodel_vertexToObservation
  simp only [findVertexAttributeString_graph m1 m2 h]

theorem getNextObservation_withName (env : Env) (name : CStr) (mmodel : TGenMarkovModel)
    (delay : Option Nat) :
    tgenmarkovmodel_getNextObservation env (withName name mmodel) delay
      = (tgenmarkovmodel_getNextObservation env mmodel delay).map
          (fun r => (r.1, r.2.1, withName name r.2.2)) := by
  unfold tgenmarkovmodel_getNextObservation _tgenmarkovmodel_chooseTransition
    _tgenmarkovmodel_chooseEmission
  have hf : (withName name mmodel).foundEndState = mmodel.foundEndState := rfl
  have hc : (withName name mmodel).currentStateVertexIndex = mmodel.currentStateVertexIndex := rfl
  rw [hf, hc, chooseEdge_withName]
  split
  · rfl
  · cases _tgenmarkovmodel_chooseEdge env mmodel EDGE_TYPE_TRANSITION
        mmodel.currentStateVertexIndex with
    | none => rfl
    | some r1 =>
      obtain ⟨c1, m1⟩ := r1
      cases c1 with
      | none => rfl
      | some ev =>
        obtain ⟨e, v⟩ := ev
        dsimp only [Option.map]
        have e1 : ({ withName name m1 with currentStateVertexIndex := v } : TGenMarkovModel)
            = withName name { m1 with currentStateVertexIndex := v } := rfl
        rw [e1, chooseEdge_withName]
        cases _tgenmarkovmodel_chooseEdge env { m1 with currentStateVertexIndex := v }
            EDGE_TYPE_EMISSION v with
        | none => rfl
        | some r2 =>
          obtain ⟨c2, m2⟩ := r2
          cases c2 with
          | none => rfl
          | some eo =>
            obtain ⟨ee, ov⟩ := eo
            dsimp only [Option.map]
            cases delay with
            | none =>
              dsimp only
              rw [vertexToObservation_graph (withName name m2) m2 rfl]
              cases _tgenmarkovmodel_vertexToObservation m2 ov <;> rfl
            | some d0 =>
              dsimp only
              rw [generateDelay_withName]
              cases _tgenmarkovmodel_generateDelay env m2 ee with
              | none => rfl
              | some r3 =>
                obtain ⟨x, m3⟩ := r3
                dsimp only [Option.map]
                rw [vertexToObservation_graph (withName name m3) m3 rfl]
                cases _tgenmarkovmodel_vertexToObservation m3 ov <;> rfl

theorem runCalls_withName (env : Env) (name : CStr) (calls : List Call)
    (mmodel : TGenMarkovModel) :
    runCalls env calls (withName name mmodel)
      = (runCalls env calls mmodel).map (fun r => (r.1, withName name r.2)) := by
  induction calls generalizing mmodel with
  | nil => rfl
  | cons c rest ih =>
    cases c with
    | next delay =>
      simp only [runCalls]
      rw [getNextObservation_withName]
      cases tgenmarkovmodel_getNextObservation env mmodel delay with
      | none => rfl
      | some r =>
        obtain ⟨o, d, m1⟩ := r
        dsimp only [Option.map]
        rw [ih]
        cases runCalls env rest m1 <;> rfl
    | reset =>
      simp only [runCalls]
      have hr : tgenmarkovmodel_reset (withName name mmodel)
          = withName name (tgenmarkovmodel_reset mmodel) := rfl
      rw [hr, ih]
      cases runCalls env rest (tgenmarkovmodel_reset mmodel) <;> rfl

theorem new_eq (graph : igraph_t) (name : CStr) (seed : Nat) :
    _tgenmarkovmodel_new graph name seed
      = match _tgenmarkovmodel_validateVertices (newModelBeforeValidation graph name seed) with
        | none => none
        | some v =>
          if v.1 && _tgenmarkovmodel_validateEdges (newModelBeforeValidation graph name seed) then
            some { newModelBeforeValidation graph name seed with
              startVertexIndex := v.2
              currentStateVertexIndex := v.2 }
          else none := by
  unfold _tgenmarkovmodel_new
  dsimp only
  cases hv : _tgenmarkovmodel_validateVertices (newModelBeforeValidation graph name seed) with
  | none => rfl
  | some v =>
    dsimp only
    have he := validateEdges_graph
      { newModelBeforeValidation graph name seed with startVertexIndex := v.2 }
      (newModelBeforeValidation graph name seed) rfl
    rw [he]
    cases v.1 <;>
      cases _tgenmarkovmodel_validateEdges (newModelBeforeValidation graph name seed) <;> rfl

/-- An engine is returned exactly when the vertex pass returns TRUE and the edge
pass returns TRUE; it starts at the vertex the vertex pass found. -/
theorem new_eq_some_iff (graph : igraph_t) (name : CStr) (seed : Nat) (m : TGenMarkovModel) :
    _tgenmarkovmodel_new graph name seed = some m ↔
      ∃ s, _tgenmarkovmodel_validateVertices (newModelBeforeValidation graph name seed)
          = some (true, s) ∧
        _tgenmarkovmodel_validateEdges (newModelBeforeValidation graph name seed) = true ∧
        m = { newModelBeforeValidation graph name seed with
              startVertexIndex := s
              currentStateVertexIndex := s } := by
  rw [new_eq]
  cases hv : _tgenmarkovmodel_validateVertices (newModelBeforeValidation graph name seed) with
  | none => simp
  | some v =>
    obtain ⟨ok, s⟩ := v
    cases ok <;>
      cases he : _tgenmarkovmodel_validateEdges (newModelBeforeValidation graph name seed) <;>
      simp [eq_comm]

/-- The vertex pass returns what the loop over all vertices leaves. -/
theorem validateVertices_eq_some (mmodel : TGenMarkovModel) (ok : Bool) (s : Nat)
    (h : _tgenmarkovmodel_validateVertices mmodel = some (ok, s)) :
    ∃ r, _tgenmarkovmodel_validateVertices_loop mmodel (List.range mmodel.graph.vertices.length)
        ((true, false, mmodel.startVertexIndex), []) = some r ∧
      ok = (r.1.1 && r.1.2.1) ∧ s = r.1.2.2 := by
  unfold _tgenmarkovmodel_validateVertices at h
  cases hl : _tgenmarkovmodel_validateVertices_loop mmodel
      (List.range mmodel.graph.vertices.length) ((true, false, mmodel.startVertexIndex), []) with
  | none => rw [hl] at h; exact absurd h (by simp)
  | some r =>
    rw [hl] at h
    simp only [Option.some.injEq, Prod.mk.injEq] at h
    exact ⟨r, rfl, h.1.symm, h.2.symm⟩

theorem new_withName (graph : igraph_t) (name1 name2 : CStr) (seed : Nat) :
    (_tgenmarkovmodel_new graph name1 seed).map (withName name2)
      = _tgenmarkovmodel_new graph name2 seed := by
  have hg : (newModelBeforeValidation graph name1 seed).graph
      = (newModelBeforeValidation graph name2 seed).graph := rfl
  have hv : _tgenmarkovmodel_validateVertices (newModelBeforeValidation graph name1 seed)
      = _tgenmarkovmodel_validateVertices (newModelBeforeValidation graph name2 seed) := by
    unfold _tgenmarkovmodel_validateVertices
    rw [validateVertices_loop_graph _ _ hg]
    rfl
  rw [new_eq, new_eq, hv, validateEdges_graph _ _ hg]
  cases _tgenmarkovmodel_validateVertices (newModelBeforeValidation graph name2 seed) with
  | none => rfl
  | some v =>
    dsimp only
    split <;> rfl

theorem char_toNat_sub_eq_zero (a b : Char) (h : (a.toNat : Int) - (b.toNat : Int) = 0) :
    a = b := by
  have h1 : a.toNat = b.toNat := by omega
  apply Char.ext
  apply UInt32.ext
  exact h1

theorem strncasecmp_eq_zero_iff (c : CStr) (hc : ∀ ch ∈ c, ch.toNat ≠ 0) (s : CStr) :
    g_ascii_strncasecmp s c c.length = 0 ↔ startsWithIgnoringCase s c := by
  unfold startsWithIgnoringCase
  induction c generalizing s with
  | nil => simp [g_ascii_strncasecmp]
  | cons c2 cs ih =>
    have hc2 : c2.toNat ≠ 0 := hc c2 (List.mem_cons_self _ _)
    have hcs : ∀ ch ∈ cs, ch.toNat ≠ 0 := fun ch h => hc ch (List.mem_cons_of_mem _ h)
    cases s with
    | nil =>
      simp only [List.length_cons, g_ascii_strncasecmp, List.take_nil, List.map_nil,
        List.map_cons]
      constructor
      · intro h; omega
      · intro h; exact absurd h (by simp)
    | cons c1 s1 =>
      simp only [List.length_cons, g_ascii_strncasecmp, List.take_succ_cons, List.map_cons,
        List.cons.injEq]
      by_cases hl : g_ascii_tolower c1 = g_ascii_tolower c2
      · simp only [hl, ne_eq, not_true_eq_false, ↓reduceIte, true_and]
        exact ih hcs s1
      · simp only [ne_eq, hl, not_false_eq_true, ↓reduceIte, false_and, iff_false]
        intro h
        exact hl (char_toNat_sub_eq_zero _ _ h)

theorem vertexIDIsEqual_iff (s : CStr) (id : VertexID) :
    _tgenmarkovmodel_vertexIDIsEqual s id = true
      ↔ startsWithIgnoringCase s (_tgenmarkovmodel_vertexIDToString id) := by
  unfold _tgenmarkovmodel_vertexIDIsEqual _tgenmarkovmodel_vertexIDStringLength
  rw [beq_iff_eq]
  apply strncasecmp_eq_zero_iff
  cases id <;> decide

theorem vertexTypeIsEqual_iff (s : CStr) (t : VertexType) :
    _tgenmarkovmodel_vertexTypeIsEqual s t = true
      ↔ startsWithIgnoringCase s (_tgenmarkovmodel_vertexTypeToString t) := by
  unfold _tgenmarkovmodel_vertexTypeIsEqual _tgenmarkovmodel_vertexTypeStringLength
  rw [beq_iff_eq]
  apply strncasecmp_eq_zero_iff
  cases t <;> decide

theorem checkVertexAttributes_iff (mmodel : TGenMarkovModel) (i : Nat) :
    _tgenmarkovmodel_checkVertexAttributes mmodel i = some true ↔
      mmodel.graph.hasVertexName = true ∧ mmodel.graph.hasVertexType = true ∧
      igraph_cattribute_VAS mmodel.graph VERTEX_ATTR_NAME i ≠ [] ∧
      (_tgenmarkovmodel_vertexIDIsEqual (igraph_cattribute_VAS mmodel.graph VERTEX_ATTR_NAME i)
          VERTEX_NAME_START = true ∨
        (igraph_cattribute_VAS mmodel.graph VERTEX_ATTR_TYPE i ≠ [] ∧
          (_tgenmarkovmodel_vertexTypeIsEqual
              (igraph_cattribute_VAS mmodel.graph VERTEX_ATTR_TYPE i) VERTEX_TYPE_STATE = true ∨
            (_tgenmarkovmodel_vertexTypeIsEqual
                (igraph_cattribute_VAS mmodel.graph VERTEX_ATTR_TYPE i)
                VERTEX_TYPE_OBSERVATION = true ∧
              _tgenmarkovmodel_vertexIDIsEmission
                (igraph_cattribute_VAS mmodel.graph VERTEX_ATTR_NAME i) = true)))) := by
  unfold _tgenmarkovmodel_checkVertexAttributes _tgenmarkovmodel_findVertexAttributeString
    igraph_cattribute_has_vertex_attr
  cases hn : mmodel.graph.hasVertexName <;> cases ht : mmodel.graph.hasVertexType
  · simp
  · simp only [Bool.false_eq_true, ↓reduceIte, false_and, iff_false, Bool.not_eq_true]
    have : _tgenmarkovmodel_vertexIDIsEqual "MISSING".toList VERTEX_NAME_START = false := by
      decide
    rw [this]
    simp only [Bool.false_eq_true, ↓reduceIte]
    cases igraph_cattribute_VAS mmodel.graph VERTEX_ATTR_TYPE i with
    | nil => simp
    | cons t ts => dsimp only; split <;> (try split) <;> (try split) <;> simp
  · simp
  · simp only [↓reduceIte, true_and]
    cases hname : igraph_cattribute_VAS mmodel.graph VERTEX_ATTR_NAME i with
    | nil =>
      have : _tgenmarkovmodel_vertexIDIsEqual "NULL".toList VERTEX_NAME_START = false := by
        decide
      simp only [this]
      cases htype : igraph_cattribute_VAS mmodel.graph VERTEX_ATTR_TYPE i with
      | nil => simp
      | cons t ts => dsimp only; split <;> (try split) <;> (try split) <;> simp
    | cons n ns =>
      simp only
      cases hs : _tgenmarkovmodel_vertexIDIsEqual (n :: ns) VERTEX_NAME_START with
      | true => simp
      | false =>
        cases htype : igraph_cattribute_VAS mmodel.graph VERTEX_ATTR_TYPE i with
        | nil => simp
        | cons t ts =>
          simp only
          cases hst : _tgenmarkovmodel_vertexTypeIsEqual (t :: ts) VERTEX_TYPE_STATE with
          | true => simp
          | false =>
            cases hob : _tgenmarkovmodel_vertexTypeIsEqual (t :: ts) VERTEX_TYPE_OBSERVATION with
            | true =>
              cases hem : _tgenmarkovmodel_vertexIDIsEmission (n :: ns) <;> simp
            | false => simp

theorem validateVertices_loop_success (mmodel : TGenMarkovModel) (l : List Nat)
    (st r : (Bool × Bool × Nat) × List Nat)
    (h : _tgenmarkovmodel_validateVertices_loop mmodel l st = some r) (hr : r.1.1 = true) :
    ∀ i ∈ l, _tgenmarkovmodel_checkVertexAttributes mmodel i = some true := by
  induction l generalizing st with
  | nil => intro i hi; exact absurd hi (List.not_mem_nil i)
  | cons v rest ih =>
    obtain ⟨⟨a, b, c⟩, checked⟩ := st
    simp only [_tgenmarkovmodel_validateVertices_loop] at h
    cases hc : _tgenmarkovmodel_checkVertexAttributes mmodel v with
    | none => simp [hc] at h
    | some ok =>
      cases ok with
      | false =>
        simp only [hc, Bool.not_false, ↓reduceIte, Option.some.injEq] at h
        rw [← h] at hr
        exact absurd hr (by simp)
      | true =>
        simp only [hc, Bool.not_true, Bool.false_eq_true, ↓reduceIte] at h
        intro i hi
        rcases List.mem_cons.mp hi with rfl | hi
        · exact hc
        · split at h
          · exact ih _ h i hi
          · exact ih _ h i hi

theorem validateVertices_loop_found (mmodel : TGenMarkovModel) (l : List Nat)
    (st r : (Bool × Bool × Nat) × List Nat)
    (h : _tgenmarkovmodel_validateVertices_loop mmodel l st = some r) :
    (r.1.2.1 = st.1.2.1 ∧ r.1.2.2 = st.1.2.2) ∨
    (r.1.2.1 = true ∧ r.1.2.2 ∈ l ∧
      _tgenmarkovmodel_vertexIDIsEqual
        (igraph_cattribute_VAS mmodel.graph VERTEX_ATTR_NAME r.1.2.2) VERTEX_NAME_START = true) := by
  induction l generalizing st with
  | nil =>
    simp only [_tgenmarkovmodel_validateVertices_loop, Option.some.injEq] at h
    rw [h]
    exact Or.inl ⟨rfl, rfl⟩
  | cons v rest ih =>
    obtain ⟨⟨a, b, c⟩, checked⟩ := st
    simp only [_tgenmarkovmodel_validateVertices_loop] at h
    cases hc : _tgenmarkovmodel_checkVertexAttributes mmodel v with
    | none => simp [hc] at h
    | some ok =>
      cases ok with
      | false =>
        simp only [hc, Bool.not_false, ↓reduceIte, Option.some.injEq] at h
        rw [← h]
        exact Or.inl ⟨rfl, rfl⟩
      | true =>
        simp only [hc, Bool.not_true, Bool.false_eq_true, ↓reduceIte] at h
        split at h
        · rename_i hm
          rcases ih _ h with h1 | h1
          · right
            refine ⟨h1.1, ?_, ?_⟩
            · rw [h1.2]; exact List.mem_cons_self _ _
            · rw [h1.2]; exact hm
          · exact Or.inr ⟨h1.1, List.mem_cons_of_mem _ h1.2.1, h1.2.2⟩
        · rcases ih _ h with h1 | h1
          · exact Or.inl h1
          · exact Or.inr ⟨h1.1, List.mem_cons_of_mem _ h1.2.1, h1.2.2⟩

theorem validateVertices_loop_notfound (mmodel : TGenMarkovModel) (l : List Nat)
    (st r : (Bool × Bool × Nat) × List Nat)
    (hl : _tgenmarkovmodel_validateVertices_loop mmodel l st = some r)
    (h : ∀ i ∈ l, _tgenmarkovmodel_vertexIDIsEqual
      (igraph_cattribute_VAS mmodel.graph VERTEX_ATTR_NAME i) VERTEX_NAME_START = false) :
    r.1.2.1 = st.1.2.1 := by
  rcases validateVertices_loop_found mmodel l st r hl with h1 | h1
  · exact h1.1
  · have := h _ h1.2.1
    rw [h1.2.2] at this
    exact absurd this (by simp)

/-- A vertex pass that returns TRUE ran its loop to the end with every check
returning TRUE and a start vertex found. -/
theorem validateVertices_true (mmodel : TGenMarkovModel) (s : Nat)
    (h : _tgenmarkovmodel_validateVertices mmodel = some (true, s)) :
    ∃ r, _tgenmarkovmodel_validateVertices_loop mmodel (List.range mmodel.graph.vertices.length)
        ((true, false, mmodel.startVertexIndex), []) = some r ∧
      r.1.1 = true ∧ r.1.2.1 = true ∧ r.1.2.2 = s ∧
      ∀ i, i < mmodel.graph.vertices.length →
        _tgenmarkovmodel_checkVertexAttributes mmodel i = some true := by
  obtain ⟨r, hl, hok, hs⟩ := validateVertices_eq_some mmodel true s h
  have hok' := hok.symm
  rw [Bool.and_eq_true] at hok'
  exact ⟨r, hl, hok'.1, hok'.2, hs.symm,
    fun i hi => validateVertices_loop_success mmodel _ _ r hl hok'.1 i (List.mem_range.mpr hi)⟩

theorem VAS_name_of_getElem (g : igraph_t) (i : Nat) (v : Vertex)
    (h : g.vertices[i]? = some v) : igraph_cattribute_VAS g VERTEX_ATTR_NAME i = v.name := by
  unfold igraph_cattribute_VAS
  rw [h]

theorem VAS_type_of_getElem (g : igraph_t) (i : Nat) (v : Vertex)
    (h : g.vertices[i]? = some v) : igraph_cattribute_VAS g VERTEX_ATTR_TYPE i = v.type := by
  unfold igraph_cattribute_VAS
  rw [h]

theorem new_some_checks (graph : igraph_t) (name : CStr) (seed : Nat) (m : TGenMarkovModel)
    (h : _tgenmarkovmodel_new graph name seed = some m) :
    ∀ i, i < graph.vertices.length →
      _tgenmarkovmodel_checkVertexAttributes (newModelBeforeValidation graph name seed) i
        = some true := by
  obtain ⟨s, hv, _, _⟩ := (new_eq_some_iff graph name seed m).mp h
  obtain ⟨_, _, _, _, _, hall⟩ := validateVertices_true _ s hv
  exact hall

theorem startsWithIgnoringCase_head (s : CStr) (c0 : Char) (cs : CStr)
    (h : startsWithIgnoringCase s (c0 :: cs)) :
    ∃ c1 s1, s = c1 :: s1 ∧ g_ascii_tolower c1 = g_ascii_tolower c0 := by
  unfold startsWithIgnoringCase at h
  cases s with
  | nil => simp at h
  | cons c1 s1 =>
    simp only [List.length_cons, List.take_succ_cons, List.map_cons, List.cons.injEq] at h
    exact ⟨c1, s1, rfl, h.1⟩

theorem not_state_of_observation (t : CStr)
    (h : _tgenmarkovmodel_vertexTypeIsEqual t VERTEX_TYPE_OBSERVATION = true) :
    _tgenmarkovmodel_vertexTypeIsEqual t VERTEX_TYPE_STATE = false := by
  rw [Bool.eq_false_iff]
  intro hs
  have h1 : startsWithIgnoringCase t ('o' :: "bservation".toList) :=
    (vertexTypeIsEqual_iff t VERTEX_TYPE_OBSERVATION).mp h
  have h2 : startsWithIgnoringCase t ('s' :: "tate".toList) :=
    (vertexTypeIsEqual_iff t VERTEX_TYPE_STATE).mp hs
  obtain ⟨c1, s1, e1, l1⟩ := startsWithIgnoringCase_head _ _ _ h1
  obtain ⟨c2, s2, e2, l2⟩ := startsWithIgnoringCase_head _ _ _ h2
  rw [e1] at e2
  simp only [List.cons.injEq] at e2
  rw [← e2.1, l1] at l2
  exact absurd l2 (by decide)

theorem vertexIDIsEmission_iff (s : CStr) :
    _tgenmarkovmodel_vertexIDIsEmission s = true ↔
      (startsWithIgnoringCase s "+".toList ∨ startsWithIgnoringCase s "-".toList ∨
        startsWithIgnoringCase s "$".toList ∨ startsWithIgnoringCase s "F".toList) := by
  unfold _tgenmarkovmodel_vertexIDIsEmission
  simp only [Bool.or_eq_true, vertexIDIsEqual_iff]
  constructor
  · rintro (((h | h) | h) | h)
    · exact Or.inl h
    · exact Or.inr (Or.inl h)
    · exact Or.inr (Or.inr (Or.inl h))
    · exact Or.inr (Or.inr (Or.inr h))
  · rintro (h | h | h | h)
    · exact Or.inl (Or.inl (Or.inl h))
    · exact Or.inl (Or.inl (Or.inr h))
    · exact Or.inl (Or.inr h)
    · exact Or.inr h

/-! ## The claims -/

/-- C1 (code defect). The claim asks that after `next` has returned
end-of-session every later `next` before a reset returns end-of-session. The
source tests `foundEndState` on entry and clears it in `reset` but never sets
it: on the graph `start -> s1 -> s2` with `s1` emitting `F` and `s2` emitting
`+`, the first `next` returns end-of-session and leaves the flag false, and the
second `next` returns packet-to-server with delay 1. -/
theorem C1_end_of_session_is_not_sticky :
    _tgenmarkovmodel_new graphEndThenPacket "m".toList 7 = some (engineOn graphEndThenPacket) ∧
    tgenmarkovmodel_getNextObservation sampleEnv (engineOn graphEndThenPacket) (some 0)
      = some (OBSERVATION_END, some 1,
          { engineOn graphEndThenPacket with
            prng := { seed := 7, pos := 3 }, currentStateVertexIndex := 1,
            foundEndState := false }) ∧
    runCalls sampleEnv [Call.next (some 0), Call.next (some 1)] (engineOn graphEndThenPacket)
      = some ([Output.observed OBSERVATION_END (some 1),
               Output.observed OBSERVATION_PACKET_TO_SERVER (some 1)],
          { engineOn graphEndThenPacket with
            prng := { seed := 7, pos := 6 }, currentStateVertexIndex := 2,
            foundEndState := false }) := by
  decide!

/-- C2, counterexample. On the accepted graph that has the start vertex alone
the transition chooser fails, `next` returns end-of-session without writing
`*delay`, and the caller's variable still holds the 70,000,000 it held before
the call. -/
theorem C2_counterexample_delay_left_unwritten :
    _tgenmarkovmodel_new graphStartOnly "m".toList 7 = some (engineOn graphStartOnly) ∧
    tgenmarkovmodel_getNextObservation sampleEnv (engineOn graphStartOnly) (some 70000000)
      = some (OBSERVATION_END, some 70000000,
          { engineOn graphStartOnly with prng := { seed := 7, pos := 1 } }) := by
  decide!

/-- C2, as amended. For every engine and every call of `next` that passes a
delay variable and returns: when both choosers succeed the delay written is at
most 60,000,000; on every other path (terminated, chooser failure) `next`
returns end-of-session and the variable keeps the value it had. Hence the
delay is at most 60,000,000 after the call whenever it was before. -/
theorem C2_delay_bound (env : Env) (mmodel : TGenMarkovModel) (d0 : Nat) (obs : Observation)
    (d : Option Nat) (m' : TGenMarkovModel)
    (h : tgenmarkovmodel_getNextObservation env mmodel (some d0) = some (obs, d, m')) :
    ∃ x, d = some x ∧ 0 ≤ x ∧
      (mmodel.foundEndState = false ∧ bothChoosersSucceed env mmodel → x ≤ 60000000) ∧
      (¬ (mmodel.foundEndState = false ∧ bothChoosersSucceed env mmodel) →
        obs = OBSERVATION_END ∧ x = d0) ∧
      (d0 ≤ 60000000 → x ≤ 60000000) := by
  rcases getNextObservation_cases env mmodel (some d0) obs d m' h with
    ⟨hf, ho, hd, _⟩ | ⟨_, ht, ho, hd⟩ | ⟨_, e, v, m1, ht, he, ho, hd⟩ |
    ⟨hf, e, v, m1, ee, ov, m2, ht, he, hdel, _⟩
  · refine ⟨d0, hd, Nat.zero_le _, ?_, fun _ => ⟨ho, rfl⟩, fun hle => hle⟩
    rintro ⟨hf', _⟩
    rw [hf] at hf'
    exact absurd hf' (by decide)
  · refine ⟨d0, hd, Nat.zero_le _, ?_, fun _ => ⟨ho, rfl⟩, fun hle => hle⟩
    rintro ⟨_, e, v, m1, ee, ov, m2, ht', _⟩
    rw [ht] at ht'
    exact absurd ht' (by simp)
  · refine ⟨d0, hd, Nat.zero_le _, ?_, fun _ => ⟨ho, rfl⟩, fun hle => hle⟩
    rintro ⟨_, e', v', m1', ee, ov, m2, ht', he'⟩
    rw [ht] at ht'
    simp only [Option.some.injEq, Prod.mk.injEq] at ht'
    obtain ⟨⟨_, hv⟩, hm⟩ := ht'
    subst hv hm
    rw [he] at he'
    exact absurd he' (by simp)
  · rcases hdel with ⟨hnone, _, _⟩ | ⟨d1, x, _, _, hx⟩
    · exact absurd hnone (by simp)
    · have hxle : (if x > 60000000 then 60000000 else x) ≤ 60000000 := by
        split <;> omega
      refine ⟨_, hx, Nat.zero_le _, fun _ => hxle, ?_, fun _ => hxle⟩
      intro hne
      exact absurd ⟨hf, e, v, m1, ee, ov, m2, ht, he⟩ hne

/-- C2, witness: the first call on the graph `start -> s1 -> F`, made with a
variable holding 70,000,000, writes the delay 1. -/
theorem C2_delay_bound_witness :
    ∃ x, (some 1 : Option Nat) = some x ∧ 0 ≤ x ∧
      ((engineOn graphEndThenPacket).foundEndState = false ∧
        bothChoosersSucceed sampleEnv (engineOn graphEndThenPacket) → x ≤ 60000000) ∧
      (¬ ((engineOn graphEndThenPacket).foundEndState = false ∧
        bothChoosersSucceed sampleEnv (engineOn graphEndThenPacket)) →
        OBSERVATION_END = OBSERVATION_END ∧ x = 70000000) ∧
      (70000000 ≤ 60000000 → x ≤ 60000000) :=
  C2_delay_bound sampleEnv (engineOn graphEndThenPacket) 70000000 OBSERVATION_END (some 1)
    { engineOn graphEndThenPacket with
      prng := { seed := 7, pos := 3 }, currentStateVertexIndex := 1 }
    (by decide!)

/-- C3, counterexample. A terminated engine called with a delay variable that
holds 5 returns end-of-session and the variable still holds 5, not 0: the
terminated path writes no delay. -/
theorem C3_counterexample_terminated_delay_not_zero :
    terminatedEngine.foundEndState = true ∧
    tgenmarkovmodel_getNextObservation sampleEnv terminatedEngine (some 5)
      = some (OBSERVATION_END, some 5, terminatedEngine) ∧
    tgenmarkovmodel_getNextObservation sampleEnv terminatedEngine (some 5)
      ≠ some (OBSERVATION_END, some 0, terminatedEngine) := by
  decide!

/-- C3, as amended. When the engine is Terminated (`foundEndState` is true),
`next` returns end-of-session, leaves the caller's delay variable as it was
(it does not write 0), and leaves the whole engine unchanged, the PRNG state
and the current vertex included. -/
theorem C3_terminated_next (env : Env) (mmodel : TGenMarkovModel) (delay : Option Nat)
    (h : mmodel.foundEndState = true) :
    tgenmarkovmodel_getNextObservation env mmodel delay
      = some (OBSERVATION_END, delay, mmodel) := by
  unfold tgenmarkovmodel_getNextObservation
  simp [h]

/-- C3, witness: the terminated engine called with a variable holding 0. -/
theorem C3_terminated_next_witness :
    terminatedEngine.foundEndState = true ∧
    tgenmarkovmodel_getNextObservation sampleEnv terminatedEngine (some 0)
      = some (OBSERVATION_END, some 0, terminatedEngine) :=
  ⟨rfl, C3_terminated_next sampleEnv terminatedEngine (some 0) rfl⟩

/-- C4, counterexample. On the accepted graph `start -> s1 -> s2` where `s1`
has no emission edge and `s2` emits `+`, the first `next` fails in the emission
chooser: it returns end-of-session, the delay variable keeps its 5, and the
terminated flag stays false. The second `next` then returns packet-to-server
with delay 1, not end-of-session. -/
theorem C4_counterexample_chooser_failure_not_terminated :
    _tgenmarkovmodel_new graphNoEmission "m".toList 7 = some (engineOn graphNoEmission) ∧
    tgenmarkovmodel_getNextObservation sampleEnv (engineOn graphNoEmission) (some 5)
      = some (OBSERVATION_END, some 5,
          { engineOn graphNoEmission with
            prng := { seed := 7, pos := 2 }, currentStateVertexIndex := 1,
            foundEndState := false }) ∧
    (runCalls sampleEnv [Call.next (some 5), Call.next (some 5)] (engineOn graphNoEmission)).map
        Prod.fst
      = some [Output.observed OBSERVATION_END (some 5),
              Output.observed OBSERVATION_PACKET_TO_SERVER (some 1)] := by
  decide!

/-- C4, as amended. Whenever the transition chooser or the emission chooser
fails inside `next` on a running engine, `next` returns end-of-session, leaves
the caller's delay variable unwritten and leaves the terminated flag false:
the engine does not become Terminated; only its PRNG state and its current
vertex can have changed. -/
theorem C4_chooser_failure (env : Env) (mmodel : TGenMarkovModel) (delay : Option Nat)
    (hrun : mmodel.foundEndState = false)
    (hfail : transitionChooserFails env mmodel ∨ emissionChooserFails env mmodel) :
    ∃ m', tgenmarkovmodel_getNextObservation env mmodel delay
        = some (OBSERVATION_END, delay, m') ∧
      m'.foundEndState = false ∧
      m' = { mmodel with
             prng := m'.prng, currentStateVertexIndex := m'.currentStateVertexIndex } := by
  rcases hfail with ⟨m1, ht⟩ | ⟨e, v, m1, m2, ht, he⟩
  · refine ⟨m1, ?_, ?_, ?_⟩
    · unfold tgenmarkovmodel_getNextObservation
      simp [hrun, ht]
    · have := chooseEdge_frame env mmodel _ _ _ _ ht
      rw [this]; exact hrun
    · have := chooseEdge_frame env mmodel _ _ _ _ ht
      rw [this]
  · refine ⟨m2, ?_, ?_, ?_⟩
    · unfold tgenmarkovmodel_getNextObservation
      simp [hrun, ht, he]
    · have h1 := chooseEdge_frame env mmodel _ _ _ _ ht
      have h2 := chooseEdge_frame env _ _ _ _ _ he
      rw [h2]; dsimp only
      rw [h1]; exact hrun
    · have h1 := chooseEdge_frame env mmodel _ _ _ _ ht
      have h2 := chooseEdge_frame env _ _ _ _ _ he
      rw [h2]; dsimp only
      rw [h1]

/-- C4, witness: the emission chooser fails on the first call on
`graphNoEmission`. -/
theorem C4_chooser_failure_witness :
    ∃ m', tgenmarkovmodel_getNextObservation sampleEnv (engineOn graphNoEmission) (some 5)
        = some (OBSERVATION_END, some 5, m') ∧
      m'.foundEndState = false ∧
      m' = { engineOn graphNoEmission with
             prng := m'.prng, currentStateVertexIndex := m'.currentStateVertexIndex } :=
  C4_chooser_failure sampleEnv (engineOn graphNoEmission) (some 5) rfl
    (Or.inr ⟨0, 1, { engineOn graphNoEmission with prng := { seed := 7, pos := 1 } },
      { engineOn graphNoEmission with
        prng := { seed := 7, pos := 2 }, currentStateVertexIndex := 1 },
      by decide!, by decide!⟩)

/-- C5. `reset` sets the terminated flag to false and the current vertex to
the start vertex, and leaves the PRNG state, the seed, the name, the start
vertex and the graph unchanged; hence after any `k` calls of `next` followed by
a reset the PRNG is in the state it would be in without the reset, and the next
uniform drawn from it is the same. -/
theorem C5_reset_frame (env : Env) (mmodel : TGenMarkovModel) (delays : List (Option Nat)) :
    (tgenmarkovmodel_reset mmodel).foundEndState = false ∧
    (tgenmarkovmodel_reset mmodel).currentStateVertexIndex = mmodel.startVertexIndex ∧
    (tgenmarkovmodel_reset mmodel).prng = mmodel.prng ∧
    (tgenmarkovmodel_reset mmodel).prngSeed = mmodel.prngSeed ∧
    (tgenmarkovmodel_reset mmodel).name = mmodel.name ∧
    (tgenmarkovmodel_reset mmodel).startVertexIndex = mmodel.startVertexIndex ∧
    (tgenmarkovmodel_reset mmodel).graph = mmodel.graph ∧
    (∀ outs mk, runCalls env (delays.map Call.next) mmodel = some (outs, mk) →
      (tgenmarkovmodel_reset mk).prng = mk.prng ∧
      env.g_rand_double (tgenmarkovmodel_reset mk).prng.seed (tgenmarkovmodel_reset mk).prng.pos
        = env.g_rand_double mk.prng.seed mk.prng.pos ∧
      ∀ rbegin rend,
        g_rand_double_range env (tgenmarkovmodel_reset mk).prng rbegin rend
          = g_rand_double_range env mk.prng rbegin rend) :=
  ⟨rfl, rfl, rfl, rfl, rfl, rfl, rfl, fun _ _ _ => ⟨rfl, rfl, fun _ _ => rfl⟩⟩

/-- C6 (determinism). Two engines constructed from the same graph and the same
seed, whatever names they are given, behave alike under every sequence of
`next`/`reset` calls: construction fails for both or for neither, a call aborts
in both or in neither, the outputs (observation and delay of every `next`) are
the same, and the final states agree in every field but the name. -/
theorem C6_determinism (env : Env) (graph : igraph_t) (seed : Nat) (name1 name2 : CStr)
    (calls : List Call) :
    ((_tgenmarkovmodel_new graph name1 seed).bind (runCalls env calls)).map
        (fun r => (r.1, withName name2 r.2))
      = (_tgenmarkovmodel_new graph name2 seed).bind (runCalls env calls) ∧
    ((_tgenmarkovmodel_new graph name1 seed).bind (runCalls env calls)).map Prod.fst
      = ((_tgenmarkovmodel_new graph name2 seed).bind (runCalls env calls)).map Prod.fst := by
  have key : ((_tgenmarkovmodel_new graph name1 seed).bind (runCalls env calls)).map
        (fun r => (r.1, withName name2 r.2))
      = (_tgenmarkovmodel_new graph name2 seed).bind (runCalls env calls) := by
    rw [← new_withName graph name1 name2 seed]
    cases _tgenmarkovmodel_new graph name1 seed with
    | none => rfl
    | some m =>
      simp only [Option.map, Option.bind]
      rw [runCalls_withName]
      cases runCalls env calls m <;> rfl
  refine ⟨key, ?_⟩
  rw [← key]
  cases (_tgenmarkovmodel_new graph name1 seed).bind (runCalls env calls) <;> rfl

/-- C7, counterexample. The graph whose only vertex is named `START` is
accepted: an engine is returned, its start vertex is that vertex, and no vertex
of the graph is named `start`. -/
theorem C7_counterexample_start_in_capitals :
    _tgenmarkovmodel_new graphCapitalStart "m".toList 7 = some (engineOn graphCapitalStart) ∧
    igraph_cattribute_VAS graphCapitalStart VERTEX_ATTR_NAME
        (engineOn graphCapitalStart).startVertexIndex = "START".toList ∧
    (∀ v ∈ graphCapitalStart.vertices, v.name ≠ "start".toList) := by
  decide

/-- C7, as amended. `_tgenmarkovmodel_new` returns an engine if and only if
both the vertex pass and the edge pass succeed; the engine it returns is
Running (terminated flag false), owns the graph, has its current vertex equal
to its start vertex, and its start vertex is a vertex of the graph that the
source's name test matches to `start`: the first five characters of its name
are `start`, ASCII case aside. -/
theorem C7_construction (graph : igraph_t) (name : CStr) (seed : Nat) :
    ((_tgenmarkovmodel_new graph name seed).isSome = true ↔
      ∃ s, _tgenmarkovmodel_validateVertices (newModelBeforeValidation graph name seed)
          = some (true, s) ∧
        _tgenmarkovmodel_validateEdges
          { newModelBeforeValidation graph name seed with startVertexIndex := s } = true) ∧
    (∀ m, _tgenmarkovmodel_new graph name seed = some m →
      m.foundEndState = false ∧ m.graph = graph ∧
      m.currentStateVertexIndex = m.startVertexIndex ∧
      ∃ v, graph.vertices[m.startVertexIndex]? = some v ∧
        _tgenmarkovmodel_vertexIDIsEqual v.name VERTEX_NAME_START = true ∧
        startsWithIgnoringCase v.name "start".toList) := by
  constructor
  · unfold _tgenmarkovmodel_new
    dsimp only
    cases hv : _tgenmarkovmodel_validateVertices (newModelBeforeValidation graph name seed) with
    | none => simp
    | some v =>
      obtain ⟨ok, s0⟩ := v
      dsimp only
      cases ok <;>
        cases he : _tgenmarkovmodel_validateEdges
          { newModelBeforeValidation graph name seed with startVertexIndex := s0 } <;>
        simp [he]
  · intro m h
    obtain ⟨s, hv, _, hm⟩ := (new_eq_some_iff graph name seed m).mp h
    subst hm
    obtain ⟨r, hl, _, hfound, hs, _⟩ := validateVertices_true _ s hv
    refine ⟨rfl, rfl, rfl, ?_⟩
    rcases validateVertices_loop_found (newModelBeforeValidation graph name seed) _ _ r hl
      with h1 | h1
    · rw [h1.1] at hfound
      exact absurd hfound (by simp)
    · rw [hs] at h1
      have hlt : s < graph.vertices.length := List.mem_range.mp h1.2.1
      have hget : graph.vertices[s]? = some (graph.vertices[s]) := List.getElem?_eq_getElem hlt
      refine ⟨_, hget, ?_⟩
      have hm : _tgenmarkovmodel_vertexIDIsEqual
          (igraph_cattribute_VAS graph VERTEX_ATTR_NAME s) VERTEX_NAME_START = true := h1.2.2
      rw [VAS_name_of_getElem _ _ _ hget] at hm
      exact ⟨hm, (vertexIDIsEqual_iff _ _).mp hm⟩

/-- C8, counterexample. A graph with two vertices named `start` is accepted:
an engine is returned, and its start vertex is the second of the two. -/
theorem C8_counterexample_two_start_vertices :
    (graphTwoStarts.vertices.filter (fun v => v.name = "start".toList)).length = 2 ∧
    _tgenmarkovmodel_new graphTwoStarts "m".toList 7
      = some { engineOn graphTwoStarts with
               startVertexIndex := 1, currentStateVertexIndex := 1 } := by
  decide

/-- C8, as amended. Construction fails for every graph in which no vertex has
a name that begins with `start`, ASCII case aside. (Two or more start vertices
do not make construction fail.) -/
theorem C8_no_start_vertex (graph : igraph_t) (name : CStr) (seed : Nat)
    (h : ∀ v ∈ graph.vertices, ¬ startsWithIgnoringCase v.name "start".toList) :
    _tgenmarkovmodel_new graph name seed = none := by
  have hno : ∀ i ∈ List.range (newModelBeforeValidation graph name seed).graph.vertices.length,
      _tgenmarkovmodel_vertexIDIsEqual
        (igraph_cattribute_VAS (newModelBeforeValidation graph name seed).graph
          VERTEX_ATTR_NAME i) VERTEX_NAME_START = false := by
    intro i hi
    have hlt : i < graph.vertices.length := List.mem_range.mp hi
    have hget : graph.vertices[i]? = some graph.vertices[i] := List.getElem?_eq_getElem hlt
    have hname : igraph_cattribute_VAS (newModelBeforeValidation graph name seed).graph
        VERTEX_ATTR_NAME i = graph.vertices[i].name := VAS_name_of_getElem _ _ _ hget
    rw [hname, Bool.eq_false_iff]
    intro hm
    exact h _ (List.getElem_mem hlt) ((vertexIDIsEqual_iff _ _).mp hm)
  cases hnew : _tgenmarkovmodel_new graph name seed with
  | none => rfl
  | some m =>
    obtain ⟨s, hv, _, _⟩ := (new_eq_some_iff graph name seed m).mp hnew
    obtain ⟨r, hl, _, hfound, _, _⟩ := validateVertices_true _ s hv
    have hf := validateVertices_loop_notfound (newModelBeforeValidation graph name seed) _ _ r
      hl hno
    rw [hfound] at hf
    exact absurd hf (by simp)

/-- C8, witness: the graph whose only vertex is named `s1`. -/
theorem C8_no_start_vertex_witness :
    _tgenmarkovmodel_new graphNoStart "m".toList 7 = none :=
  C8_no_start_vertex graphNoStart "m".toList 7 (by decide)

/-- C9, counterexample. The graph with the start vertex and a vertex named `F`
whose type is `state` is accepted: an engine is returned. -/
theorem C9_counterexample_state_vertex_named_F :
    ({ name := "F".toList, type := "state".toList } : Vertex) ∈ graphStateNamedF.vertices ∧
    _tgenmarkovmodel_new graphStateNamedF "m".toList 7 = some (engineOn graphStateNamedF) := by
  decide

/-- C9, as amended. In every graph accepted by the validator, every vertex
whose name is one of `+`, `-`, `$`, `F` has a non-empty type that the source's
type test matches to `state` or to `observation`, that is, a type that begins
with one of these two words, ASCII case aside. (Type `state` is not rejected
for such a vertex.) -/
theorem C9_emission_named_vertex_type (graph : igraph_t) (name : CStr) (seed : Nat)
    (m : TGenMarkovModel) (h : _tgenmarkovmodel_new graph name seed = some m)
    (v : Vertex) (hv : v ∈ graph.vertices)
    (hname : v.name = "+".toList ∨ v.name = "-".toList ∨ v.name = "$".toList ∨
      v.name = "F".toList) :
    v.type ≠ [] ∧
    (_tgenmarkovmodel_vertexTypeIsEqual v.type VERTEX_TYPE_STATE = true ∨
      _tgenmarkovmodel_vertexTypeIsEqual v.type VERTEX_TYPE_OBSERVATION = true) ∧
    (startsWithIgnoringCase v.type "state".toList ∨
      startsWithIgnoringCase v.type "observation".toList) := by
  obtain ⟨i, hi, hiv⟩ := List.getElem_of_mem hv
  have hget : graph.vertices[i]? = some v := by
    rw [List.getElem?_eq_getElem hi, hiv]
  have hcheck := new_some_checks graph name seed m h i hi
  rw [checkVertexAttributes_iff] at hcheck
  have hn : igraph_cattribute_VAS (newModelBeforeValidation graph name seed).graph
      VERTEX_ATTR_NAME i = v.name := VAS_name_of_getElem _ _ _ hget
  have ht : igraph_cattribute_VAS (newModelBeforeValidation graph name seed).graph
      VERTEX_ATTR_TYPE i = v.type := VAS_type_of_getElem _ _ _ hget
  rw [hn, ht] at hcheck
  have hnostart : _tgenmarkovmodel_vertexIDIsEqual v.name VERTEX_NAME_START = false := by
    rcases hname with e | e | e | e <;> rw [e] <;> decide
  rcases hcheck.2.2.2 with hs | ⟨hne, hty⟩
  · rw [hnostart] at hs
    exact absurd hs (by simp)
  · have hty' : _tgenmarkovmodel_vertexTypeIsEqual v.type VERTEX_TYPE_STATE = true ∨
        _tgenmarkovmodel_vertexTypeIsEqual v.type VERTEX_TYPE_OBSERVATION = true := by
      rcases hty with h1 | h1
      · exact Or.inl h1
      · exact Or.inr h1.1
    refine ⟨hne, hty', ?_⟩
    rcases hty' with h1 | h1
    · exact Or.inl ((vertexTypeIsEqual_iff _ _).mp h1)
    · exact Or.inr ((vertexTypeIsEqual_iff _ _).mp h1)

/-- C9, witness: the vertex `F` of `graphEndThenPacket`, of type `observation`. -/
theorem C9_emission_named_vertex_type_witness :
    (observationVertex "F").type ≠ [] ∧
    (_tgenmarkovmodel_vertexTypeIsEqual (observationVertex "F").type VERTEX_TYPE_STATE = true ∨
      _tgenmarkovmodel_vertexTypeIsEqual (observationVertex "F").type
        VERTEX_TYPE_OBSERVATION = true) ∧
    (startsWithIgnoringCase (observationVertex "F").type "state".toList ∨
      startsWithIgnoringCase (observationVertex "F").type "observation".toList) :=
  C9_emission_named_vertex_type graphEndThenPacket "m".toList 7 (engineOn graphEndThenPacket)
    (by decide) (observationVertex "F") (by decide) (by decide)

/-- C10, counterexample. The graph whose two vertices have type `observation`
and are named `start` and `f` is accepted, although neither name is one of the
four strings `+`, `-`, `$`, `F`: the type of a vertex named `start` is not
looked at, and names are compared without regard to ASCII case. -/
theorem C10_counterexample_observation_names :
    _tgenmarkovmodel_new graphObservationNames "m".toList 7
      = some (engineOn graphObservationNames) ∧
    (∀ v ∈ graphObservationNames.vertices,
      v.type = "observation".toList ∧
      v.name ∉ ["+".toList, "-".toList, "$".toList, "F".toList]) ∧
    _tgenmarkovmodel_checkVertexAttributes (engineOn graphObservationNames) 0 = some true ∧
    _tgenmarkovmodel_checkVertexAttributes (engineOn graphObservationNames) 1 = some true := by
  decide

/-- C10, as amended. The vertex pass accepts a vertex whose type is
`observation` only if its name begins, ASCII case aside, with `start` or with
one of `+`, `-`, `$`, `F`: only then does the check of the vertex return TRUE,
only then does the vertex pass return TRUE, and only then is an engine
returned. -/
theorem C10_observation_vertex_names (graph : igraph_t) (name : CStr) (seed : Nat) (i : Nat)
    (hi : i < graph.vertices.length)
    (hobs : _tgenmarkovmodel_vertexTypeIsEqual
      (igraph_cattribute_VAS graph VERTEX_ATTR_TYPE i) VERTEX_TYPE_OBSERVATION = true) :
    (_tgenmarkovmodel_checkVertexAttributes (newModelBeforeValidation graph name seed) i
        = some true →
      (startsWithIgnoringCase (igraph_cattribute_VAS graph VERTEX_ATTR_NAME i) "start".toList ∨
        startsWithIgnoringCase (igraph_cattribute_VAS graph VERTEX_ATTR_NAME i) "+".toList ∨
        startsWithIgnoringCase (igraph_cattribute_VAS graph VERTEX_ATTR_NAME i) "-".toList ∨
        startsWithIgnoringCase (igraph_cattribute_VAS graph VERTEX_ATTR_NAME i) "$".toList ∨
        startsWithIgnoringCase (igraph_cattribute_VAS graph VERTEX_ATTR_NAME i) "F".toList)) ∧
    (∀ s, _tgenmarkovmodel_validateVertices (newModelBeforeValidation graph name seed)
        = some (true, s) →
      (startsWithIgnoringCase (igraph_cattribute_VAS graph VERTEX_ATTR_NAME i) "start".toList ∨
        startsWithIgnoringCase (igraph_cattribute_VAS graph VERTEX_ATTR_NAME i) "+".toList ∨
        startsWithIgnoringCase (igraph_cattribute_VAS graph VERTEX_ATTR_NAME i) "-".toList ∨
        startsWithIgnoringCase (igraph_cattribute_VAS graph VERTEX_ATTR_NAME i) "$".toList ∨
        startsWithIgnoringCase (igraph_cattribute_VAS graph VERTEX_ATTR_NAME i) "F".toList)) ∧
    (∀ m, _tgenmarkovmodel_new graph name seed = some m →
      (startsWithIgnoringCase (igraph_cattribute_VAS graph VERTEX_ATTR_NAME i) "start".toList ∨
        startsWithIgnoringCase (igraph_cattribute_VAS graph VERTEX_ATTR_NAME i) "+".toList ∨
        startsWithIgnoringCase (igraph_cattribute_VAS graph VERTEX_ATTR_NAME i) "-".toList ∨
        startsWithIgnoringCase (igraph_cattribute_VAS graph VERTEX_ATTR_NAME i) "$".toList ∨
        startsWithIgnoringCase (igraph_cattribute_VAS graph VERTEX_ATTR_NAME i) "F".toList)) := by
  have first : _tgenmarkovmodel_checkVertexAttributes (newModelBeforeValidation graph name seed) i
      = some true →
      (startsWithIgnoringCase (igraph_cattribute_VAS graph VERTEX_ATTR_NAME i) "start".toList ∨
        startsWithIgnoringCase (igraph_cattribute_VAS graph VERTEX_ATTR_NAME i) "+".toList ∨
        startsWithIgnoringCase (igraph_cattribute_VAS graph VERTEX_ATTR_NAME i) "-".toList ∨
        startsWithIgnoringCase (igraph_cattribute_VAS graph VERTEX_ATTR_NAME i) "$".toList ∨
        startsWithIgnoringCase (igraph_cattribute_VAS graph VERTEX_ATTR_NAME i) "F".toList) := by
    intro hcheck
    rw [checkVertexAttributes_iff] at hcheck
    have hg : (newModelBeforeValidation graph name seed).graph = graph := rfl
    rw [hg] at hcheck
    rcases hcheck.2.2.2 with hs | ⟨_, hty⟩
    · exact Or.inl ((vertexIDIsEqual_iff _ _).mp hs)
    · rcases hty with hst | ⟨_, hem⟩
      · have := not_state_of_observation _ hobs
        rw [this] at hst
        exact absurd hst (by simp)
      · exact Or.inr ((vertexIDIsEmission_iff _).mp hem)
  refine ⟨first, fun s hv => ?_, fun m hm => ?_⟩
  · obtain ⟨_, _, _, _, _, hall⟩ := validateVertices_true _ s hv
    exact first (hall i hi)
  · exact first (new_some_checks graph name seed m hm i hi)

/-- C10, witness: vertex 3 of `graphEndThenPacket`, named `F`, of type
`observation`: its check returns TRUE, the graph is accepted, and the name
begins with `F`. -/
theorem C10_observation_vertex_names_witness :
    _tgenmarkovmodel_checkVertexAttributes
        (newModelBeforeValidation graphEndThenPacket "m".toList 7) 3 = some true ∧
    _tgenmarkovmodel_new graphEndThenPacket "m".toList 7 = some (engineOn graphEndThenPacket) ∧
    (startsWithIgnoringCase (igraph_cattribute_VAS graphEndThenPacket VERTEX_ATTR_NAME 3)
        "start".toList ∨
      startsWithIgnoringCase (igraph_cattribute_VAS graphEndThenPacket VERTEX_ATTR_NAME 3)
        "+".toList ∨
      startsWithIgnoringCase (igraph_cattribute_VAS graphEndThenPacket VERTEX_ATTR_NAME 3)
        "-".toList ∨
      startsWithIgnoringCase (igraph_cattribute_VAS graphEndThenPacket VERTEX_ATTR_NAME 3)
        "$".toList ∨
      startsWithIgnoringCase (igraph_cattribute_VAS graphEndThenPacket VERTEX_ATTR_NAME 3)
        "F".toList) :=
  ⟨by decide, by decide,
    (C10_observation_vertex_names graphEndThenPacket "m".toList 7 3 (by decide) (by decide)).1
      (by decide)⟩

/-! ## The edge pass -/

theorem edgeTypeIsEqual_iff (s : CStr) (t : EdgeType) :
    _tgenmarkovmodel_edgeTypeIsEqual s t = true
      ↔ startsWithIgnoringCase s (_tgenmarkovmodel_edgeTypeToString t) := by
  unfold _tgenmarkovmodel_edgeTypeIsEqual _tgenmarkovmodel_edgeTypeStringLength
  rw [beq_iff_eq]
  apply strncasecmp_eq_zero_iff
  cases t <;> decide

theorem not_transition_of_emission (t : CStr)
    (h : _tgenmarkovmodel_edgeTypeIsEqual t EDGE_TYPE_EMISSION = true) :
    _tgenmarkovmodel_edgeTypeIsEqual t EDGE_TYPE_TRANSITION = false := by
  rw [Bool.eq_false_iff]
  intro hs
  have h1 : startsWithIgnoringCase t ('e' :: "mission".toList) :=
    (edgeTypeIsEqual_iff t EDGE_TYPE_EMISSION).mp h
  have h2 : startsWithIgnoringCase t ('t' :: "ransition".toList) :=
    (edgeTypeIsEqual_iff t EDGE_TYPE_TRANSITION).mp hs
  obtain ⟨c1, s1, e1, l1⟩ := startsWithIgnoringCase_head _ _ _ h1
  obtain ⟨c2, s2, e2, l2⟩ := startsWithIgnoringCase_head _ _ _ h2
  rw [e1] at e2
  simp only [List.cons.injEq] at e2
  rw [← e2.1, l1] at l2
  exact absurd l2 (by decide)

theorem edgeTypeIsEqual_ne_nil (t : CStr) (k : EdgeType)
    (h : _tgenmarkovmodel_edgeTypeIsEqual t k = true) : t ≠ [] := by
  intro ht
  rw [ht] at h
  cases k <;> exact absurd h (by decide)

theorem findVertexAttributeString_name_eq_some (m : TGenMarkovModel) (v : Nat) (s : CStr) :
    _tgenmarkovmodel_findVertexAttributeString m v VERTEX_ATTR_NAME = some s ↔
      m.graph.hasVertexName = true ∧ igraph_cattribute_VAS m.graph VERTEX_ATTR_NAME v = s ∧
        s ≠ [] := by
  unfold _tgenmarkovmodel_findVertexAttributeString igraph_cattribute_has_vertex_attr
  cases m.graph.hasVertexName
  · simp
  · cases igraph_cattribute_VAS m.graph VERTEX_ATTR_NAME v with
    | nil =>
      simp only [↓reduceIte, true_and]
      constructor
      · intro h; exact absurd h (by simp)
      · rintro ⟨h1, h2⟩; exact absurd h1.symm h2
    | cons c cs =>
      simp only [↓reduceIte, Option.some.injEq, true_and]
      constructor
      · intro h; exact ⟨h, by rw [← h]; simp⟩
      · intro h; exact h.1

theorem findEdgeAttributeString_type_eq_some (m : TGenMarkovModel) (e : Nat) (s : CStr) :
    _tgenmarkovmodel_findEdgeAttributeString m e EDGE_ATTR_TYPE = some s ↔
      m.graph.hasEdgeType = true ∧ igraph_cattribute_EAS m.graph e = s ∧ s ≠ [] := by
  unfold _tgenmarkovmodel_findEdgeAttributeString igraph_cattribute_has_edge_attr
  cases m.graph.hasEdgeType
  · simp
  · cases igraph_cattribute_EAS m.graph e with
    | nil =>
      simp only [↓reduceIte, true_and]
      constructor
      · intro h; exact absurd h (by simp)
      · rintro ⟨h1, h2⟩; exact absurd h1.symm h2
    | cons c cs =>
      simp only [↓reduceIte, Option.some.injEq, true_and]
      constructor
      · intro h; exact ⟨h, by rw [← h]; simp⟩
      · intro h; exact h.1

theorem findEdgeAttributeDouble_eq_some (m : TGenMarkovModel) (e : Nat) (a : EdgeAttribute)
    (x : Double) :
    _tgenmarkovmodel_findEdgeAttributeDouble m e a = some x ↔
      igraph_cattribute_has_edge_attr m.graph a = true ∧
        igraph_cattribute_EAN m.graph a e = x ∧ x ≠ Double.nan := by
  unfold _tgenmarkovmodel_findEdgeAttributeDouble
  cases igraph_cattribute_has_edge_attr m.graph a
  · simp
  · simp only [↓reduceIte, true_and]
    cases hx : igraph_cattribute_EAN m.graph a e <;>
      simp [Double.isnan] <;> (try (intro h; first | exact h.symm | (rw [← h]; simp)))

theorem ge_zero_cases (x : Double) (h : Double.ge x (Double.fin 0) = true) :
    x = Double.pinf ∨ ∃ q : ℚ, 0 ≤ q ∧ x = Double.fin q := by
  cases x with
  | nan => simp [Double.ge] at h
  | ninf => simp [Double.ge] at h
  | pinf => exact Or.inl rfl
  | fin q =>
    simp only [Double.ge, decide_eq_true_eq] at h
    exact Or.inr ⟨q, h, rfl⟩

theorem edgeAttributeNonNegative_iff (m : TGenMarkovModel) (e : Nat) (a : EdgeAttribute) :
    edgeAttributeNonNegative m e a = true ↔
      igraph_cattribute_has_edge_attr m.graph a = true ∧
        Double.ge (igraph_cattribute_EAN m.graph a e) (Double.fin 0) = true := by
  unfold edgeAttributeNonNegative _tgenmarkovmodel_findEdgeAttributeDouble
  cases igraph_cattribute_has_edge_attr m.graph a
  · simp
  · simp only [↓reduceIte, true_and]
    cases igraph_cattribute_EAN m.graph a e <;> simp [Double.isnan, Double.ge]

theorem EAS_of_getElem (g : igraph_t) (e : Nat) (edge : Edge) (h : g.edges[e]? = some edge) :
    igraph_cattribute_EAS g e = edge.type := by
  unfold igraph_cattribute_EAS
  rw [h]

theorem checkEdgeAttributes_iff (m : TGenMarkovModel) (e : Nat) :
    _tgenmarkovmodel_checkEdgeAttributes m e = true ↔
      ∃ edge, m.graph.edges[e]? = some edge ∧
        m.graph.hasVertexName = true ∧
        igraph_cattribute_VAS m.graph VERTEX_ATTR_NAME edge.src ≠ [] ∧
        igraph_cattribute_VAS m.graph VERTEX_ATTR_NAME edge.dst ≠ [] ∧
        edgeAttributeNonNegative m e EDGE_ATTR_WEIGHT = true ∧
        m.graph.hasEdgeType = true ∧ edge.type ≠ [] ∧
        ((_tgenmarkovmodel_edgeTypeIsEqual edge.type EDGE_TYPE_TRANSITION = true ∧
            _tgenmarkovmodel_vertexIDIsEmission
              (igraph_cattribute_VAS m.graph VERTEX_ATTR_NAME edge.src) = false ∧
            _tgenmarkovmodel_vertexIDIsEmission
              (igraph_cattribute_VAS m.graph VERTEX_ATTR_NAME edge.dst) = false) ∨
          (_tgenmarkovmodel_edgeTypeIsEqual edge.type EDGE_TYPE_TRANSITION = false ∧
            _tgenmarkovmodel_edgeTypeIsEqual edge.type EDGE_TYPE_EMISSION = true ∧
            _tgenmarkovmodel_vertexIDIsEmission
              (igraph_cattribute_VAS m.graph VERTEX_ATTR_NAME edge.src) = false ∧
            _tgenmarkovmodel_vertexIDIsEmission
              (igraph_cattribute_VAS m.graph VERTEX_ATTR_NAME edge.dst) = true ∧
            edgeAttributeNonNegative m e EDGE_ATTR_LOGNORMMU = true ∧
            edgeAttributeNonNegative m e EDGE_ATTR_LOGNORMSIGMA = true ∧
            edgeAttributeNonNegative m e EDGE_ATTR_EXPLAMBDA = true)) := by
  unfold _tgenmarkovmodel_checkEdgeAttributes igraph_edge
  cases hedge : m.graph.edges[e]? with
  | none => simp
  | some edge =>
    simp only [Option.some.injEq, exists_eq_left']
    cases hf : _tgenmarkovmodel_findVertexAttributeString m edge.src VERTEX_ATTR_NAME with
    | none =>
      simp only [Bool.false_eq_true, false_iff, not_and]
      intro hn hsrc
      have := (findVertexAttributeString_name_eq_some m edge.src
        (igraph_cattribute_VAS m.graph VERTEX_ATTR_NAME edge.src)).mpr ⟨hn, rfl, hsrc⟩
      rw [hf] at this
      exact absurd this (by simp)
    | some fromIDStr =>
      obtain ⟨hn, hfe, hfne⟩ := (findVertexAttributeString_name_eq_some _ _ _).mp hf
      cases ht : _tgenmarkovmodel_findVertexAttributeString m edge.dst VERTEX_ATTR_NAME with
      | none =>
        simp only [Bool.false_eq_true, false_iff, not_and]
        intro _ _ hdst
        have := (findVertexAttributeString_name_eq_some m edge.dst
          (igraph_cattribute_VAS m.graph VERTEX_ATTR_NAME edge.dst)).mpr ⟨hn, rfl, hdst⟩
        rw [ht] at this
        exact absurd this (by simp)
      | some toIDStr =>
        obtain ⟨_, hte, htne⟩ := (findVertexAttributeString_name_eq_some _ _ _).mp ht
        subst hfe hte
        simp only [hn, ne_eq, hfne, not_false_eq_true, htne, true_and]
        have hhas : igraph_cattribute_has_edge_attr m.graph EDGE_ATTR_TYPE
            = m.graph.hasEdgeType := rfl
        rw [hhas]
        cases hty : m.graph.hasEdgeType with
        | false => simp
        | true =>
          simp only [↓reduceIte, true_and]
          cases hfs : _tgenmarkovmodel_findEdgeAttributeString m e EDGE_ATTR_TYPE with
          | none =>
            constructor
            · intro h; simp at h
            · rintro ⟨_, hne, _⟩
              have := (findEdgeAttributeString_type_eq_some m e edge.type).mpr
                ⟨hty, EAS_of_getElem _ _ _ hedge, hne⟩
              rw [hfs] at this
              exact absurd this (by simp)
          | some typeStr =>
            obtain ⟨_, hse, hsne⟩ := (findEdgeAttributeString_type_eq_some _ _ _).mp hfs
            rw [EAS_of_getElem _ _ _ hedge] at hse
            subst hse
            simp only [ne_eq, hsne, not_false_eq_true, true_and]
            rcases Bool.eq_false_or_eq_true
                (_tgenmarkovmodel_edgeTypeIsEqual edge.type EDGE_TYPE_TRANSITION) with htr | htr
            · simp [htr]
            · rcases Bool.eq_false_or_eq_true
                  (_tgenmarkovmodel_edgeTypeIsEqual edge.type EDGE_TYPE_EMISSION) with hem | hem
              · rcases Bool.eq_false_or_eq_true (_tgenmarkovmodel_vertexIDIsEmission
                    (igraph_cattribute_VAS m.graph VERTEX_ATTR_NAME edge.src)) with hfe | hfe <;>
                  rcases Bool.eq_false_or_eq_true (_tgenmarkovmodel_vertexIDIsEmission
                    (igraph_cattribute_VAS m.graph VERTEX_ATTR_NAME edge.dst)) with hte | hte <;>
                  simp [htr, hem, hfe, hte, and_assoc]
              · simp [htr, hem]

theorem validateEdges_loop_success (m : TGenMarkovModel) (l : List Nat) (st : Bool × List Nat)
    (h : (_tgenmarkovmodel_validateEdges_loop m l st).1 = true) :
    ∀ i ∈ l, _tgenmarkovmodel_checkEdgeAttributes m i = true := by
  induction l generalizing st with
  | nil => intro i hi; exact absurd hi (List.not_mem_nil i)
  | cons e rest ih =>
    obtain ⟨b, checked⟩ := st
    simp only [_tgenmarkovmodel_validateEdges_loop] at h
    cases hc : _tgenmarkovmodel_checkEdgeAttributes m e with
    | false => simp [hc] at h
    | true =>
      simp only [hc, Bool.not_true, Bool.false_eq_true, ↓reduceIte] at h
      intro i hi
      rcases List.mem_cons.mp hi with rfl | hi
      · exact hc
      · exact ih _ h i hi

theorem validateEdges_checks (m : TGenMarkovModel) (h : _tgenmarkovmodel_validateEdges m = true)
    (e : Nat) (he : e < m.graph.edges.length) :
    _tgenmarkovmodel_checkEdgeAttributes m e = true :=
  validateEdges_loop_success m _ _ h e (List.mem_range.mpr he)

theorem new_some_validateEdges (graph : igraph_t) (name : CStr) (seed : Nat)
    (m : TGenMarkovModel) (h : _tgenmarkovmodel_new graph name seed = some m) :
    _tgenmarkovmodel_validateEdges (newModelBeforeValidation graph name seed) = true ∧
      m.graph = graph := by
  obtain ⟨s, _, he, hm⟩ := (new_eq_some_iff graph name seed m).mp h
  subst hm
  exact ⟨he, rfl⟩

theorem new_none_of_checkEdge_false (graph : igraph_t) (name : CStr) (seed : Nat) (e : Nat)
    (he : e < graph.edges.length)
    (h : _tgenmarkovmodel_checkEdgeAttributes (newModelBeforeValidation graph name seed) e
      = false) :
    _tgenmarkovmodel_new graph name seed = none := by
  cases hnew : _tgenmarkovmodel_new graph name seed with
  | none => rfl
  | some m =>
    have hv := (new_some_validateEdges graph name seed m hnew).1
    have := validateEdges_checks _ hv e he
    rw [h] at this
    exact absurd this (by simp)

theorem getElem?_lt_length {α : Type} (l : List α) (i : Nat) (a : α) (h : l[i]? = some a) :
    i < l.length := by
  by_contra hn
  rw [List.getElem?_eq_none (Nat.le_of_not_lt hn)] at h
  exact absurd h (by simp)

theorem EAN_weight_of_getElem (g : igraph_t) (e : Nat) (edge : Edge)
    (h : g.edges[e]? = some edge) :
    igraph_cattribute_EAN g EDGE_ATTR_WEIGHT e = edge.weight ∧
    igraph_cattribute_EAN g EDGE_ATTR_LOGNORMMU e = edge.lognorm_mu ∧
    igraph_cattribute_EAN g EDGE_ATTR_LOGNORMSIGMA e = edge.lognorm_sigma ∧
    igraph_cattribute_EAN g EDGE_ATTR_EXPLAMBDA e = edge.exp_lambda := by
  unfold igraph_cattribute_EAN
  rw [h]
  exact ⟨rfl, rfl, rfl, rfl⟩

theorem ge_zero_ne_nan (x : Double) (h : Double.ge x (Double.fin 0) = true) : x ≠ Double.nan := by
  intro hx
  rw [hx] at h
  simp [Double.ge] at h

theorem emissionNamed_iff (s : CStr) :
    _tgenmarkovmodel_vertexIDIsEmission s = true ↔ emissionNamed s :=
  vertexIDIsEmission_iff s

theorem vertexIDIsEmission_eq_false_iff (s : CStr) :
    _tgenmarkovmodel_vertexIDIsEmission s = false ↔ ¬ emissionNamed s := by
  rw [Bool.eq_false_iff, Ne, emissionNamed_iff]

theorem emissionNamed_of_isOneOf (s : CStr) (h : isOneOfEmissionNames s) : emissionNamed s := by
  rcases h with e | e | e | e <;> rw [e]
  · exact Or.inl (by decide)
  · exact Or.inr (Or.inl (by decide))
  · exact Or.inr (Or.inr (Or.inl (by decide)))
  · exact Or.inr (Or.inr (Or.inr (by decide)))

/-- C11, counterexample. The transition edge `start -> f` of weight 1 is
rejected by the edge check although neither endpoint is named `+`, `-`, `$` or
`F`: the name `f` matches `F` because names are compared without regard to
ASCII case. -/
theorem C11_counterexample_lower_case_f :
    graphTransitionToLowerF.edges[0]? = some (transitionEdge 0 1 1) ∧
    ¬ isOneOfEmissionNames (igraph_cattribute_VAS graphTransitionToLowerF VERTEX_ATTR_NAME 0) ∧
    ¬ isOneOfEmissionNames (igraph_cattribute_VAS graphTransitionToLowerF VERTEX_ATTR_NAME 1) ∧
    _tgenmarkovmodel_checkEdgeAttributes (engineOn graphTransitionToLowerF) 0 = false := by
  decide!

/-- C11, as amended. For every edge of type transition with a present,
non-NaN weight >= 0 whose endpoints both have non-empty names, the edge check
accepts the edge if and only if neither endpoint's name matches one of `+`,
`-`, `$`, `F` under the source's name test, that is, neither name begins with
one of these four, ASCII case aside. -/
theorem C11_transition_edge_check (mmodel : TGenMarkovModel) (e : Nat) (edge : Edge)
    (hedge : mmodel.graph.edges[e]? = some edge)
    (hnamecol : mmodel.graph.hasVertexName = true)
    (htypecol : mmodel.graph.hasEdgeType = true)
    (hweightcol : mmodel.graph.hasEdgeWeight = true)
    (htr : _tgenmarkovmodel_edgeTypeIsEqual edge.type EDGE_TYPE_TRANSITION = true)
    (hw : Double.ge edge.weight (Double.fin 0) = true)
    (hsrc : igraph_cattribute_VAS mmodel.graph VERTEX_ATTR_NAME edge.src ≠ [])
    (hdst : igraph_cattribute_VAS mmodel.graph VERTEX_ATTR_NAME edge.dst ≠ []) :
    (_tgenmarkovmodel_checkEdgeAttributes mmodel e = true ↔
      (_tgenmarkovmodel_vertexIDIsEmission
          (igraph_cattribute_VAS mmodel.graph VERTEX_ATTR_NAME edge.src) = false ∧
        _tgenmarkovmodel_vertexIDIsEmission
          (igraph_cattribute_VAS mmodel.graph VERTEX_ATTR_NAME edge.dst) = false)) ∧
    (_tgenmarkovmodel_checkEdgeAttributes mmodel e = true ↔
      (¬ emissionNamed (igraph_cattribute_VAS mmodel.graph VERTEX_ATTR_NAME edge.src) ∧
        ¬ emissionNamed (igraph_cattribute_VAS mmodel.graph VERTEX_ATTR_NAME edge.dst))) := by
  have hwok : edgeAttributeNonNegative mmodel e EDGE_ATTR_WEIGHT = true := by
    rw [edgeAttributeNonNegative_iff, (EAN_weight_of_getElem _ _ _ hedge).1]
    exact ⟨hweightcol, hw⟩
  have key : _tgenmarkovmodel_checkEdgeAttributes mmodel e = true ↔
      (_tgenmarkovmodel_vertexIDIsEmission
          (igraph_cattribute_VAS mmodel.graph VERTEX_ATTR_NAME edge.src) = false ∧
        _tgenmarkovmodel_vertexIDIsEmission
          (igraph_cattribute_VAS mmodel.graph VERTEX_ATTR_NAME edge.dst) = false) := by
    rw [checkEdgeAttributes_iff]
    constructor
    · rintro ⟨edge', hedge', _, _, _, _, _, _, h⟩
      rw [hedge] at hedge'
      simp only [Option.some.injEq] at hedge'
      subst hedge'
      rcases h with ⟨_, h1, h2⟩ | ⟨h0, _⟩
      · exact ⟨h1, h2⟩
      · rw [htr] at h0
        exact absurd h0 (by simp)
    · rintro ⟨h1, h2⟩
      exact ⟨edge, hedge, hnamecol, hsrc, hdst, hwok, htypecol,
        edgeTypeIsEqual_ne_nil _ _ htr, Or.inl ⟨htr, h1, h2⟩⟩
  refine ⟨key, ?_⟩
  rw [key, vertexIDIsEmission_eq_false_iff, vertexIDIsEmission_eq_false_iff]

/-- C11, witness: the transition edge `start -> s1` of `graphEndThenPacket`. -/
theorem C11_transition_edge_check_witness :
    (_tgenmarkovmodel_checkEdgeAttributes (engineOn graphEndThenPacket) 0 = true ↔
      (_tgenmarkovmodel_vertexIDIsEmission
          (igraph_cattribute_VAS (engineOn graphEndThenPacket).graph VERTEX_ATTR_NAME
            (transitionEdge 0 1 1).src) = false ∧
        _tgenmarkovmodel_vertexIDIsEmission
          (igraph_cattribute_VAS (engineOn graphEndThenPacket).graph VERTEX_ATTR_NAME
            (transitionEdge 0 1 1).dst) = false)) ∧
    (_tgenmarkovmodel_checkEdgeAttributes (engineOn graphEndThenPacket) 0 = true ↔
      (¬ emissionNamed (igraph_cattribute_VAS (engineOn graphEndThenPacket).graph
          VERTEX_ATTR_NAME (transitionEdge 0 1 1).src) ∧
        ¬ emissionNamed (igraph_cattribute_VAS (engineOn graphEndThenPacket).graph
          VERTEX_ATTR_NAME (transitionEdge 0 1 1).dst))) :=
  C11_transition_edge_check (engineOn graphEndThenPacket) 0 (transitionEdge 0 1 1)
    (by decide!) (by decide) (by decide) (by decide) (by decide) (by decide!) (by decide)
    (by decide)

/-- C12. Construction fails (no engine is returned) for every graph that
contains an emission edge whose source vertex is named `+`, `-`, `$` or `F`. -/
theorem C12_emission_from_observation_fails (graph : igraph_t) (name : CStr) (seed : Nat)
    (e : Nat) (edge : Edge) (hedge : graph.edges[e]? = some edge)
    (_hem : _tgenmarkovmodel_edgeTypeIsEqual edge.type EDGE_TYPE_EMISSION = true)
    (v : Vertex) (hv : graph.vertices[edge.src]? = some v)
    (hname : isOneOfEmissionNames v.name) :
    _tgenmarkovmodel_new graph name seed = none := by
  apply new_none_of_checkEdge_false graph name seed e (getElem?_lt_length _ _ _ hedge)
  rw [Bool.eq_false_iff]
  intro hc
  rw [checkEdgeAttributes_iff] at hc
  obtain ⟨edge', hedge', _, _, _, _, _, _, h⟩ := hc
  have hedge'' : graph.edges[e]? = some edge' := hedge'
  rw [hedge] at hedge''
  simp only [Option.some.injEq] at hedge''
  subst hedge''
  have hsrcname : igraph_cattribute_VAS (newModelBeforeValidation graph name seed).graph
      VERTEX_ATTR_NAME edge.src = v.name := VAS_name_of_getElem _ _ _ hv
  have hemn : _tgenmarkovmodel_vertexIDIsEmission v.name = true :=
    (emissionNamed_iff _).mpr (emissionNamed_of_isOneOf _ hname)
  rw [hsrcname, hemn] at h
  rcases h with ⟨_, h1, _⟩ | ⟨_, _, h1, _⟩
  · exact absurd h1 (by simp)
  · exact absurd h1 (by simp)

/-- C12, witness: the graph whose emission edge leaves the vertex `+`. -/
theorem C12_emission_from_observation_fails_witness :
    _tgenmarkovmodel_new graphEmissionFromObservation "m".toList 7 = none :=
  C12_emission_from_observation_fails graphEmissionFromObservation "m".toList 7 1
    (emissionEdge 2 3 1 0 0 1) (by decide!) (by decide) (observationVertex "+") (by decide)
    (by decide)

theorem withoutEmissionParams_getElem (g : igraph_t) (e : Nat) (edge : Edge)
    (h : g.edges[e]? = some edge) :
    (withoutEmissionParams g).edges[e]? =
      some { edge with lognorm_mu := Double.nan, lognorm_sigma := Double.nan,
                       exp_lambda := Double.nan } := by
  unfold withoutEmissionParams
  simp only [List.getElem?_map, h, Option.map_some']

theorem edge_params_of_nonNegative (m : TGenMarkovModel) (e : Nat) (edge : Edge)
    (hedge : m.graph.edges[e]? = some edge) :
    (edgeAttributeNonNegative m e EDGE_ATTR_WEIGHT = true →
      m.graph.hasEdgeWeight = true ∧ edge.weight ≠ Double.nan ∧
        Double.ge edge.weight (Double.fin 0) = true) ∧
    (edgeAttributeNonNegative m e EDGE_ATTR_LOGNORMMU = true →
      m.graph.hasEdgeMu = true ∧ edge.lognorm_mu ≠ Double.nan ∧
        Double.ge edge.lognorm_mu (Double.fin 0) = true) ∧
    (edgeAttributeNonNegative m e EDGE_ATTR_LOGNORMSIGMA = true →
      m.graph.hasEdgeSigma = true ∧ edge.lognorm_sigma ≠ Double.nan ∧
        Double.ge edge.lognorm_sigma (Double.fin 0) = true) ∧
    (edgeAttributeNonNegative m e EDGE_ATTR_EXPLAMBDA = true →
      m.graph.hasEdgeLambda = true ∧ edge.exp_lambda ≠ Double.nan ∧
        Double.ge edge.exp_lambda (Double.fin 0) = true) := by
  obtain ⟨h1, h2, h3, h4⟩ := EAN_weight_of_getElem _ _ _ hedge
  simp only [edgeAttributeNonNegative_iff, h1, h2, h3, h4]
  exact ⟨fun h => ⟨h.1, ge_zero_ne_nan _ h.2, h.2⟩, fun h => ⟨h.1, ge_zero_ne_nan _ h.2, h.2⟩,
    fun h => ⟨h.1, ge_zero_ne_nan _ h.2, h.2⟩, fun h => ⟨h.1, ge_zero_ne_nan _ h.2, h.2⟩⟩

/-- C13. In every graph accepted by the edge pass, every edge has a weight
that is present, not NaN and >= 0, and every emission edge additionally has
`lognorm_mu`, `lognorm_sigma` and `exp_lambda` each present, not NaN and >= 0;
a transition edge is accepted without those three attributes: its check still
succeeds on the graph from which the three attributes have been removed. -/
theorem C13_accepted_edge_attributes (mmodel : TGenMarkovModel)
    (hpass : _tgenmarkovmodel_validateEdges mmodel = true)
    (e : Nat) (edge : Edge) (hedge : mmodel.graph.edges[e]? = some edge) :
    (mmodel.graph.hasEdgeWeight = true ∧ edge.weight ≠ Double.nan ∧
      Double.ge edge.weight (Double.fin 0) = true) ∧
    (_tgenmarkovmodel_edgeTypeIsEqual edge.type EDGE_TYPE_EMISSION = true →
      (mmodel.graph.hasEdgeMu = true ∧ edge.lognorm_mu ≠ Double.nan ∧
        Double.ge edge.lognorm_mu (Double.fin 0) = true) ∧
      (mmodel.graph.hasEdgeSigma = true ∧ edge.lognorm_sigma ≠ Double.nan ∧
        Double.ge edge.lognorm_sigma (Double.fin 0) = true) ∧
      (mmodel.graph.hasEdgeLambda = true ∧ edge.exp_lambda ≠ Double.nan ∧
        Double.ge edge.exp_lambda (Double.fin 0) = true)) ∧
    (_tgenmarkovmodel_edgeTypeIsEqual edge.type EDGE_TYPE_TRANSITION = true →
      _tgenmarkovmodel_checkEdgeAttributes
        { mmodel with graph := withoutEmissionParams mmodel.graph } e = true) := by
  have hc := validateEdges_checks mmodel hpass e (getElem?_lt_length _ _ _ hedge)
  rw [checkEdgeAttributes_iff] at hc
  obtain ⟨edge', hedge', hn, hs, hd, hw, ht, hne, h⟩ := hc
  rw [hedge] at hedge'
  simp only [Option.some.injEq] at hedge'
  subst hedge'
  obtain ⟨pw, pmu, psig, plam⟩ := edge_params_of_nonNegative mmodel e edge hedge
  refine ⟨pw hw, ?_, ?_⟩
  · intro hem
    rcases h with ⟨htr, _⟩ | ⟨_, _, _, _, hmu, hsig, hlam⟩
    · rw [not_transition_of_emission _ hem] at htr
      exact absurd htr (by simp)
    · exact ⟨pmu hmu, psig hsig, plam hlam⟩
  · intro htr
    rcases h with ⟨_, h1, h2⟩ | ⟨h0, _⟩
    · rw [checkEdgeAttributes_iff]
      have hedge2 := withoutEmissionParams_getElem _ _ _ hedge
      refine ⟨_, hedge2, hn, hs, hd, ?_, ht, hne, Or.inl ⟨htr, h1, h2⟩⟩
      rw [edgeAttributeNonNegative_iff] at hw ⊢
      rw [(EAN_weight_of_getElem _ _ _ hedge).1] at hw
      rw [(EAN_weight_of_getElem _ _ _ hedge2).1]
      exact hw
    · rw [htr] at h0
      exact absurd h0 (by simp)

/-- C13, witness: the emission edge `s1 -> F` of `graphEndThenPacket`. -/
theorem C13_accepted_edge_attributes_witness :
    ((engineOn graphEndThenPacket).graph.hasEdgeWeight = true ∧
      (emissionEdge 1 3 1 0 0 1).weight ≠ Double.nan ∧
      Double.ge (emissionEdge 1 3 1 0 0 1).weight (Double.fin 0) = true) ∧
    (_tgenmarkovmodel_edgeTypeIsEqual (emissionEdge 1 3 1 0 0 1).type EDGE_TYPE_EMISSION = true →
      ((engineOn graphEndThenPacket).graph.hasEdgeMu = true ∧
        (emissionEdge 1 3 1 0 0 1).lognorm_mu ≠ Double.nan ∧
        Double.ge (emissionEdge 1 3 1 0 0 1).lognorm_mu (Double.fin 0) = true) ∧
      ((engineOn graphEndThenPacket).graph.hasEdgeSigma = true ∧
        (emissionEdge 1 3 1 0 0 1).lognorm_sigma ≠ Double.nan ∧
        Double.ge (emissionEdge 1 3 1 0 0 1).lognorm_sigma (Double.fin 0) = true) ∧
      ((engineOn graphEndThenPacket).graph.hasEdgeLambda = true ∧
        (emissionEdge 1 3 1 0 0 1).exp_lambda ≠ Double.nan ∧
        Double.ge (emissionEdge 1 3 1 0 0 1).exp_lambda (Double.fin 0) = true)) ∧
    (_tgenmarkovmodel_edgeTypeIsEqual (emissionEdge 1 3 1 0 0 1).type
        EDGE_TYPE_TRANSITION = true →
      _tgenmarkovmodel_checkEdgeAttributes
        { engineOn graphEndThenPacket with
          graph := withoutEmissionParams (engineOn graphEndThenPacket).graph } 2 = true) :=
  C13_accepted_edge_attributes (engineOn graphEndThenPacket) (by decide!) 2
    (emissionEdge 1 3 1 0 0 1) (by decide!)

/-- C14, counterexample. The graph `start -t-> s1` whose edge has weight plus
infinity is accepted: an engine is returned. -/
theorem C14_counterexample_infinite_weight :
    (graphInfiniteWeight.edges.map (fun e => e.weight)) = [Double.pinf] ∧
    _tgenmarkovmodel_new graphInfiniteWeight "m".toList 7
      = some (engineOn graphInfiniteWeight) := by
  decide!

/-- C14, as amended. In every graph accepted by the validator, every edge
weight, and every emission parameter `lognorm_mu`, `lognorm_sigma`,
`exp_lambda` of an emission edge, is not NaN and not negative: it is a finite
number >= 0 or plus infinity. (Plus infinity is not rejected.) -/
theorem C14_accepted_values (graph : igraph_t) (name : CStr) (seed : Nat) (m : TGenMarkovModel)
    (h : _tgenmarkovmodel_new graph name seed = some m)
    (e : Nat) (edge : Edge) (hedge : graph.edges[e]? = some edge) :
    (edge.weight = Double.pinf ∨ ∃ q : ℚ, 0 ≤ q ∧ edge.weight = Double.fin q) ∧
    (_tgenmarkovmodel_edgeTypeIsEqual edge.type EDGE_TYPE_EMISSION = true →
      (edge.lognorm_mu = Double.pinf ∨ ∃ q : ℚ, 0 ≤ q ∧ edge.lognorm_mu = Double.fin q) ∧
      (edge.lognorm_sigma = Double.pinf ∨
        ∃ q : ℚ, 0 ≤ q ∧ edge.lognorm_sigma = Double.fin q) ∧
      (edge.exp_lambda = Double.pinf ∨ ∃ q : ℚ, 0 ≤ q ∧ edge.exp_lambda = Double.fin q)) := by
  have hv := (new_some_validateEdges graph name seed m h).1
  have hc := validateEdges_checks _ hv e (getElem?_lt_length _ _ _ hedge)
  rw [checkEdgeAttributes_iff] at hc
  obtain ⟨edge', hedge', _, _, _, hw, _, _, hh⟩ := hc
  have hedge'' : graph.edges[e]? = some edge' := hedge'
  rw [hedge] at hedge''
  simp only [Option.some.injEq] at hedge''
  subst hedge''
  obtain ⟨pw, pmu, psig, plam⟩ :=
    edge_params_of_nonNegative (newModelBeforeValidation graph name seed) e edge hedge
  refine ⟨ge_zero_cases _ (pw hw).2.2, ?_⟩
  intro hem
  rcases hh with ⟨htr, _⟩ | ⟨_, _, _, _, hmu, hsig, hlam⟩
  · rw [not_transition_of_emission _ hem] at htr
    exact absurd htr (by simp)
  · exact ⟨ge_zero_cases _ (pmu hmu).2.2, ge_zero_cases _ (psig hsig).2.2,
      ge_zero_cases _ (plam hlam).2.2⟩

/-- C14, witness: the emission edge `s1 -> F` of `graphEndThenPacket`. -/
theorem C14_accepted_values_witness :
    ((emissionEdge 1 3 1 0 0 1).weight = Double.pinf ∨
      ∃ q : ℚ, 0 ≤ q ∧ (emissionEdge 1 3 1 0 0 1).weight = Double.fin q) ∧
    (_tgenmarkovmodel_edgeTypeIsEqual (emissionEdge 1 3 1 0 0 1).type EDGE_TYPE_EMISSION = true →
      ((emissionEdge 1 3 1 0 0 1).lognorm_mu = Double.pinf ∨
        ∃ q : ℚ, 0 ≤ q ∧ (emissionEdge 1 3 1 0 0 1).lognorm_mu = Double.fin q) ∧
      ((emissionEdge 1 3 1 0 0 1).lognorm_sigma = Double.pinf ∨
        ∃ q : ℚ, 0 ≤ q ∧ (emissionEdge 1 3 1 0 0 1).lognorm_sigma = Double.fin q) ∧
      ((emissionEdge 1 3 1 0 0 1).exp_lambda = Double.pinf ∨
        ∃ q : ℚ, 0 ≤ q ∧ (emissionEdge 1 3 1 0 0 1).exp_lambda = Double.fin q)) :=
  C14_accepted_values graphEndThenPacket "m".toList 7 (engineOn graphEndThenPacket)
    (by decide!) 2 (emissionEdge 1 3 1 0 0 1) (by decide!)

/-! ## The chooser -/

theorem totalWeight_eq_sumFrom (m : TGenMarkovModel) (type : EdgeType) (l : List Nat)
    (acc : Double)
    (hread : ∀ e ∈ l, _tgenmarkovmodel_findEdgeAttributeString m e EDGE_ATTR_TYPE
        = some (igraph_cattribute_EAS m.graph e) ∧
      _tgenmarkovmodel_findEdgeAttributeDouble m e EDGE_ATTR_WEIGHT
        = some (edgeWeight m e)) :
    chooseEdge_totalWeight m type l acc = some (sumFrom m acc
      (l.filter (fun e => _tgenmarkovmodel_edgeTypeIsEqual (igraph_cattribute_EAS m.graph e) type)))
    := by
  induction l generalizing acc with
  | nil => rfl
  | cons e rest ih =>
    have he := hread e (List.mem_cons_self _ _)
    have hrest : ∀ x ∈ rest, _ := fun x hx => hread x (List.mem_cons_of_mem _ hx)
    simp only [chooseEdge_totalWeight, he.1, he.2, List.filter_cons]
    split
    · simp only [sumFrom, List.foldl_cons]
      exact ih _ hrest
    · exact ih _ hrest

theorem select_eq_firstReaching (m : TGenMarkovModel) (type : EdgeType) (r : Double)
    (l : List Nat) (acc : Double)
    (hread : ∀ e ∈ l, _tgenmarkovmodel_findEdgeAttributeString m e EDGE_ATTR_TYPE
        = some (igraph_cattribute_EAS m.graph e) ∧
      _tgenmarkovmodel_findEdgeAttributeDouble m e EDGE_ATTR_WEIGHT
        = some (edgeWeight m e)) :
    chooseEdge_select m type r l acc = some (firstReaching m r acc
      (l.filter (fun e => _tgenmarkovmodel_edgeTypeIsEqual (igraph_cattribute_EAS m.graph e) type)))
    := by
  induction l generalizing acc with
  | nil => rfl
  | cons e rest ih =>
    have he := hread e (List.mem_cons_self _ _)
    have hrest : ∀ x ∈ rest, _ := fun x hx => hread x (List.mem_cons_of_mem _ hx)
    simp only [chooseEdge_select, he.1, he.2, List.filter_cons]
    split
    · simp only [firstReaching]
      split
      · rfl
      · exact ih _ hrest
    · exact ih _ hrest

theorem chooseEdge_eq (env : Env) (m : TGenMarkovModel) (type : EdgeType) (v : Nat)
    (hv : v < m.graph.vertices.length)
    (hread : ∀ e ∈ igraph_incident_out m.graph v,
      _tgenmarkovmodel_findEdgeAttributeString m e EDGE_ATTR_TYPE
        = some (igraph_cattribute_EAS m.graph e) ∧
      _tgenmarkovmodel_findEdgeAttributeDouble m e EDGE_ATTR_WEIGHT
        = some (edgeWeight m e)) :
    _tgenmarkovmodel_chooseEdge env m type v = some
      ((firstReaching m
          (g_rand_double_range env m.prng (Double.fin 0)
            (sumFrom m (Double.fin 0) (kindEdges m type v))).1
          (Double.fin 0) (kindEdges m type v)).bind
        (fun e => (igraph_edge m.graph e).map (fun p => (e, p.2))),
       afterOneDraw m) := by
  unfold _tgenmarkovmodel_chooseEdge
  simp only [hv, not_true_eq_false, ↓reduceIte]
  rw [totalWeight_eq_sumFrom m type _ _ hread]
  have hs : ∀ (p : GRand) (r : Double),
      chooseEdge_select { m with prng := p } type r (igraph_incident_out m.graph v)
          (Double.fin 0)
        = some (firstReaching m r (Double.fin 0)
            ((igraph_incident_out m.graph v).filter (fun e =>
              _tgenmarkovmodel_edgeTypeIsEqual (igraph_cattribute_EAS m.graph e) type))) := by
    intro p r
    rw [chooseEdge_select_graph { m with prng := p } m rfl]
    exact select_eq_firstReaching m type r _ _ hread
  dsimp only at hs ⊢
  rw [hs]
  unfold kindEdges
  cases firstReaching m
      (g_rand_double_range env m.prng (Double.fin 0)
        (sumFrom m (Double.fin 0)
          (List.filter (fun e =>
            _tgenmarkovmodel_edgeTypeIsEqual (igraph_cattribute_EAS m.graph e) type)
            (igraph_incident_out m.graph v)))).1
      (Double.fin 0)
      (List.filter (fun e =>
        _tgenmarkovmodel_edgeTypeIsEqual (igraph_cattribute_EAS m.graph e) type)
        (igraph_incident_out m.graph v)) with
  | none => rfl
  | some e =>
    dsimp only [Option.bind]
    cases igraph_edge m.graph e with
    | none => rfl
    | some p => rfl

theorem sumFrom_cons (m : TGenMarkovModel) (acc : Double) (e : Nat) (es : List Nat) :
    sumFrom m acc (e :: es) = sumFrom m (Double.add acc (edgeWeight m e)) es := rfl

theorem firstReaching_some (m : TGenMarkovModel) (r : Double) (acc : Double) (es : List Nat)
    (e : Nat) (h : firstReaching m r acc es = some e) :
    ∃ i, ∃ hi : i < es.length, es[i] = e ∧
      Double.ge (sumFrom m acc (es.take (i + 1))) r = true ∧
      ∀ j < i, Double.ge (sumFrom m acc (es.take (j + 1))) r = false := by
  induction es generalizing acc with
  | nil => simp [firstReaching] at h
  | cons x rest ih =>
    simp only [firstReaching] at h
    split at h
    · rename_i hge
      simp only [Option.some.injEq] at h
      refine ⟨0, by simp, ?_, ?_, ?_⟩
      · simpa using h
      · simpa [sumFrom] using hge
      · intro j hj; exact absurd hj (Nat.not_lt_zero j)
    · rename_i hge
      obtain ⟨i, hi, h1, h2, h3⟩ := ih _ h
      refine ⟨i + 1, by simpa using hi, ?_, ?_, ?_⟩
      · simpa using h1
      · simpa [sumFrom_cons] using h2
      · intro j hj
        cases j with
        | zero => simpa [sumFrom] using hge
        | succ j =>
          have := h3 j (by omega)
          simpa [sumFrom_cons] using this

theorem firstReaching_none (m : TGenMarkovModel) (r : Double) (acc : Double) (es : List Nat)
    (h : firstReaching m r acc es = none) :
    ∀ i < es.length, Double.ge (sumFrom m acc (es.take (i + 1))) r = false := by
  induction es generalizing acc with
  | nil => intro i hi; exact absurd hi (by simp)
  | cons x rest ih =>
    simp only [firstReaching] at h
    split at h
    · exact absurd h (by simp)
    · rename_i hge
      intro i hi
      cases i with
      | zero => simpa [sumFrom] using hge
      | succ i =>
        have := ih _ h i (by simpa using hi)
        simpa [sumFrom_cons] using this

theorem firstReaching_of_first (m : TGenMarkovModel) (r : Double) (acc : Double)
    (es : List Nat) (i : Nat) (hi : i < es.length)
    (hge : Double.ge (sumFrom m acc (es.take (i + 1))) r = true)
    (hfirst : ∀ j < i, Double.ge (sumFrom m acc (es.take (j + 1))) r = false) :
    firstReaching m r acc es = some es[i] := by
  induction es generalizing acc i with
  | nil => exact absurd hi (by simp)
  | cons x rest ih =>
    cases i with
    | zero =>
      simp only [firstReaching]
      have : Double.ge (Double.add acc (edgeWeight m x)) r = true := by
        simpa [sumFrom] using hge
      simp [this]
    | succ i =>
      have h0 : Double.ge (Double.add acc (edgeWeight m x)) r = false := by
        have := hfirst 0 (by omega)
        simpa [sumFrom] using this
      simp only [firstReaching, h0, Bool.false_eq_true, ↓reduceIte, List.getElem_cons_succ]
      apply ih
      · simpa [sumFrom_cons] using hge
      · intro j hj
        have := hfirst (j + 1) (by omega)
        simpa [sumFrom_cons] using this

theorem mem_incidentFrom (v : Nat) (es : List Edge) (i0 x : Nat) :
    x ∈ incidentFrom v es i0 ↔
      i0 ≤ x ∧ ∃ edge, es[x - i0]? = some edge ∧ edge.src = v := by
  induction es generalizing i0 with
  | nil => simp [incidentFrom]
  | cons e rest ih =>
    simp only [incidentFrom]
    have hrest : x ∈ incidentFrom v rest (i0 + 1) ↔
        i0 + 1 ≤ x ∧ ∃ edge, rest[x - (i0 + 1)]? = some edge ∧ edge.src = v := ih (i0 + 1)
    have hidx : ∀ (h : i0 + 1 ≤ x), (e :: rest)[x - i0]? = rest[x - (i0 + 1)]? := by
      intro h
      have : x - i0 = (x - (i0 + 1)) + 1 := by omega
      rw [this, List.getElem?_cons_succ]
    split
    · rename_i hsrc
      rw [List.mem_cons, hrest]
      constructor
      · rintro (rfl | ⟨hle, edge, h1, h2⟩)
        · exact ⟨le_refl _, e, by simp, hsrc⟩
        · exact ⟨by omega, edge, by rw [hidx hle]; exact h1, h2⟩
      · rintro ⟨hle, edge, h1, h2⟩
        rcases Nat.eq_or_lt_of_le hle with h | h
        · exact Or.inl h.symm
        · right
          exact ⟨h, edge, by rw [← hidx h]; exact h1, h2⟩
    · rename_i hsrc
      rw [hrest]
      constructor
      · rintro ⟨hle, edge, h1, h2⟩
        exact ⟨by omega, edge, by rw [hidx hle]; exact h1, h2⟩
      · rintro ⟨hle, edge, h1, h2⟩
        rcases Nat.eq_or_lt_of_le hle with h | h
        · subst h
          simp only [Nat.sub_self, List.getElem?_cons_zero, Option.some.injEq] at h1
          subst h1
          exact absurd h2 hsrc
        · exact ⟨h, edge, by rw [← hidx h]; exact h1, h2⟩

theorem mem_incident_out (g : igraph_t) (v x : Nat) :
    x ∈ igraph_incident_out g v ↔ ∃ edge, g.edges[x]? = some edge ∧ edge.src = v := by
  unfold igraph_incident_out
  rw [mem_incidentFrom]
  simp

theorem incidentFrom_sorted (v : Nat) (es : List Edge) (i0 : Nat) :
    (incidentFrom v es i0).Pairwise (· < ·) := by
  induction es generalizing i0 with
  | nil => simp [incidentFrom]
  | cons e rest ih =>
    simp only [incidentFrom]
    split
    · rw [List.pairwise_cons]
      refine ⟨?_, ih (i0 + 1)⟩
      intro x hx
      have := ((mem_incidentFrom v rest (i0 + 1) x).mp hx).1
      omega
    · exact ih (i0 + 1)

theorem kindEdges_nodup (m : TGenMarkovModel) (type : EdgeType) (v : Nat) :
    (kindEdges m type v).Nodup := by
  unfold kindEdges igraph_incident_out
  apply List.Nodup.filter
  exact (incidentFrom_sorted v m.graph.edges 0).imp (fun h => Nat.ne_of_lt h)

theorem mem_kindEdges (m : TGenMarkovModel) (type : EdgeType) (v x : Nat) :
    x ∈ kindEdges m type v ↔
      ∃ edge, m.graph.edges[x]? = some edge ∧ edge.src = v ∧
        _tgenmarkovmodel_edgeTypeIsEqual edge.type type = true := by
  unfold kindEdges
  rw [List.mem_filter, mem_incident_out]
  constructor
  · rintro ⟨⟨edge, h1, h2⟩, h3⟩
    rw [EAS_of_getElem _ _ _ h1] at h3
    exact ⟨edge, h1, h2, h3⟩
  · rintro ⟨edge, h1, h2, h3⟩
    refine ⟨⟨edge, h1, h2⟩, ?_⟩
    rw [EAS_of_getElem _ _ _ h1]
    exact h3

theorem readable_of_validateEdges (m : TGenMarkovModel)
    (hvalid : _tgenmarkovmodel_validateEdges m = true) (v : Nat) :
    ∀ e ∈ igraph_incident_out m.graph v,
      _tgenmarkovmodel_findEdgeAttributeString m e EDGE_ATTR_TYPE
        = some (igraph_cattribute_EAS m.graph e) ∧
      _tgenmarkovmodel_findEdgeAttributeDouble m e EDGE_ATTR_WEIGHT
        = some (edgeWeight m e) := by
  intro e he
  obtain ⟨edge, hedge, _⟩ := (mem_incident_out _ _ _).mp he
  have hc := validateEdges_checks m hvalid e (getElem?_lt_length _ _ _ hedge)
  rw [checkEdgeAttributes_iff] at hc
  obtain ⟨edge', hedge', _, _, _, hw, hty, hne, _⟩ := hc
  rw [hedge] at hedge'
  simp only [Option.some.injEq] at hedge'
  subst hedge'
  constructor
  · rw [findEdgeAttributeString_type_eq_some]
    refine ⟨hty, rfl, ?_⟩
    rw [EAS_of_getElem _ _ _ hedge]
    exact hne
  · rw [findEdgeAttributeDouble_eq_some]
    rw [edgeAttributeNonNegative_iff] at hw
    exact ⟨hw.1, rfl, ge_zero_ne_nan _ hw.2⟩

theorem runningTotal_length (m : TGenMarkovModel) (es : List Nat) :
    runningTotal m es es.length = sumFrom m (Double.fin 0) es := by
  unfold runningTotal
  rw [List.take_length]

theorem igraph_edge_of_mem_kindEdges (m : TGenMarkovModel) (type : EdgeType) (v x : Nat)
    (hx : x ∈ kindEdges m type v) :
    ∃ dst, igraph_edge m.graph x = some (v, dst) ∧
      _tgenmarkovmodel_edgeTypeIsEqual (igraph_cattribute_EAS m.graph x) type = true := by
  obtain ⟨edge, h1, h2, h3⟩ := (mem_kindEdges m type v x).mp hx
  refine ⟨edge.dst, ?_, ?_⟩
  · unfold igraph_edge
    rw [h1, ← h2]
  · rw [EAS_of_getElem _ _ _ h1]
    exact h3

/-- C15. On a graph that passed the edge pass, for every vertex `v` with at
least one outgoing edge of kind `K`, total weight `W > 0` and a draw `r` with
`0 <= r < W`, the chooser succeeds, having drawn once: it returns the first
outgoing edge of `v` of kind `K`, in storage order, whose running sum of
kind-`K` weights is `>= r`, together with that edge's destination vertex; the
returned edge leaves `v` and has kind `K`. -/
theorem C15_chooser_returns_first_reaching (env : Env) (mmodel : TGenMarkovModel)
    (type : EdgeType) (v : Nat)
    (hvalid : _tgenmarkovmodel_validateEdges mmodel = true)
    (hv : v < mmodel.graph.vertices.length)
    (hne : kindEdges mmodel type v ≠ [])
    (W q : ℚ)
    (hW : runningTotal mmodel (kindEdges mmodel type v) (kindEdges mmodel type v).length
      = Double.fin W)
    (_hWpos : 0 < W)
    (hdraw : (g_rand_double_range env mmodel.prng (Double.fin 0) (Double.fin W)).1
      = Double.fin q)
    (_hq0 : 0 ≤ q) (hqW : q < W) :
    ∃ i, ∃ hi : i < (kindEdges mmodel type v).length, ∃ dst,
      _tgenmarkovmodel_chooseEdge env mmodel type v
        = some (some ((kindEdges mmodel type v)[i], dst), afterOneDraw mmodel) ∧
      igraph_edge mmodel.graph (kindEdges mmodel type v)[i] = some (v, dst) ∧
      _tgenmarkovmodel_edgeTypeIsEqual
        (igraph_cattribute_EAS mmodel.graph (kindEdges mmodel type v)[i]) type = true ∧
      Double.ge (runningTotal mmodel (kindEdges mmodel type v) (i + 1)) (Double.fin q) = true ∧
      ∀ j < i,
        Double.ge (runningTotal mmodel (kindEdges mmodel type v) (j + 1)) (Double.fin q)
          = false := by
  have hlen : 0 < (kindEdges mmodel type v).length := List.length_pos.mpr hne
  have hsum : sumFrom mmodel (Double.fin 0) (kindEdges mmodel type v) = Double.fin W := by
    rw [← runningTotal_length]; exact hW
  have heq := chooseEdge_eq env mmodel type v hv (readable_of_validateEdges mmodel hvalid v)
  rw [hsum, hdraw] at heq
  cases hfr : firstReaching mmodel (Double.fin q) (Double.fin 0) (kindEdges mmodel type v) with
  | none =>
    have := firstReaching_none _ _ _ _ hfr ((kindEdges mmodel type v).length - 1) (by omega)
    have hl : (kindEdges mmodel type v).length - 1 + 1 = (kindEdges mmodel type v).length := by
      omega
    rw [hl, List.take_length, hsum] at this
    simp only [Double.ge, decide_eq_false_iff_not, not_le] at this
    exact absurd hqW (not_lt.mpr (le_of_lt this))
  | some e =>
    obtain ⟨i, hi, h1, h2, h3⟩ := firstReaching_some _ _ _ _ _ hfr
    obtain ⟨dst, hd, hk⟩ := igraph_edge_of_mem_kindEdges mmodel type v _ (List.getElem_mem hi)
    refine ⟨i, hi, dst, ?_, hd, hk, h2, h3⟩
    rw [heq, hfr, ← h1]
    simp only [Option.bind, hd, Option.map]

/-- C15, witness: scenario S6, vertex `s1` with emission weights 1, 3, 6; the
draw 1/4 gives `r = 5/2`, which the running sums 1, 4, 10 first reach at the
second edge. -/
theorem C15_chooser_returns_first_reaching_witness :
    ∃ i, ∃ hi : i < (kindEdges (engineOn graphThreeEmissions) EDGE_TYPE_EMISSION 1).length,
      ∃ dst,
      _tgenmarkovmodel_chooseEdge sampleEnv (engineOn graphThreeEmissions) EDGE_TYPE_EMISSION 1
        = some (some ((kindEdges (engineOn graphThreeEmissions) EDGE_TYPE_EMISSION 1)[i], dst),
            afterOneDraw (engineOn graphThreeEmissions)) ∧
      igraph_edge (engineOn graphThreeEmissions).graph
        (kindEdges (engineOn graphThreeEmissions) EDGE_TYPE_EMISSION 1)[i] = some (1, dst) ∧
      _tgenmarkovmodel_edgeTypeIsEqual
        (igraph_cattribute_EAS (engineOn graphThreeEmissions).graph
          (kindEdges (engineOn graphThreeEmissions) EDGE_TYPE_EMISSION 1)[i])
        EDGE_TYPE_EMISSION = true ∧
      Double.ge (runningTotal (engineOn graphThreeEmissions)
        (kindEdges (engineOn graphThreeEmissions) EDGE_TYPE_EMISSION 1) (i + 1))
        (Double.fin (5 / 2)) = true ∧
      ∀ j < i,
        Double.ge (runningTotal (engineOn graphThreeEmissions)
          (kindEdges (engineOn graphThreeEmissions) EDGE_TYPE_EMISSION 1) (j + 1))
          (Double.fin (5 / 2)) = false :=
  C15_chooser_returns_first_reaching sampleEnv (engineOn graphThreeEmissions)
    EDGE_TYPE_EMISSION 1 (by decide!) (by decide) (by decide) 10 (5 / 2) (by decide!)
    (by decide!) (by decide!) (by decide!) (by decide!)

theorem sumFrom_zero_weights (m : TGenMarkovModel) (es : List Nat) (a : ℚ)
    (h : ∀ x ∈ es, edgeWeight m x = Double.fin 0) :
    sumFrom m (Double.fin a) es = Double.fin a := by
  induction es generalizing a with
  | nil => rfl
  | cons e rest ih =>
    rw [sumFrom_cons, h e (List.mem_cons_self _ _)]
    have : Double.add (Double.fin a) (Double.fin 0) = Double.fin a := by
      simp [Double.add]
    rw [this]
    exact ih a (fun x hx => h x (List.mem_cons_of_mem _ hx))

theorem draw_of_zero_total (env : Env) (p : GRand) :
    (g_rand_double_range env p (Double.fin 0) (Double.fin 0)).1 = Double.fin 0 := by
  simp [g_rand_double_range, Double.sub, Double.mul, Double.add, Double.neg]

/-- C16, counterexample. On the accepted graph `start -t-> s1` whose only edge
has weight 0 the total transition weight of `start` is 0, yet the chooser
succeeds: it returns edge 0 and its destination, vertex 1. -/
theorem C16_counterexample_zero_weight_edge_chosen :
    _tgenmarkovmodel_new graphZeroWeight "m".toList 7 = some (engineOn graphZeroWeight) ∧
    chooseEdge_totalWeight (engineOn graphZeroWeight) EDGE_TYPE_TRANSITION
      (igraph_incident_out graphZeroWeight 0) (Double.fin 0) = some (Double.fin 0) ∧
    _tgenmarkovmodel_chooseEdge sampleEnv (engineOn graphZeroWeight) EDGE_TYPE_TRANSITION 0
      = some (some (0, 1), afterOneDraw (engineOn graphZeroWeight)) := by
  decide!

/-- C16, as amended. On a graph that passed the edge pass the edge chooser
fails (returns not-found) whenever the vertex has no outgoing edge of kind `K`
(the total weight is then 0). When the vertex has outgoing edges of kind `K`
and all of them have weight 0, the chooser does not fail: it returns the first
of them. -/
theorem C16_chooser_failure (env : Env) (mmodel : TGenMarkovModel) (type : EdgeType) (v : Nat)
    (hvalid : _tgenmarkovmodel_validateEdges mmodel = true)
    (hv : v < mmodel.graph.vertices.length) :
    (kindEdges mmodel type v = [] →
      runningTotal mmodel (kindEdges mmodel type v) (kindEdges mmodel type v).length
        = Double.fin 0 ∧
      _tgenmarkovmodel_chooseEdge env mmodel type v = some (none, afterOneDraw mmodel)) ∧
    (∀ e rest, kindEdges mmodel type v = e :: rest →
      (∀ x ∈ kindEdges mmodel type v, edgeWeight mmodel x = Double.fin 0) →
      runningTotal mmodel (kindEdges mmodel type v) (kindEdges mmodel type v).length
        = Double.fin 0 ∧
      ∃ dst, igraph_edge mmodel.graph e = some (v, dst) ∧
        _tgenmarkovmodel_chooseEdge env mmodel type v
          = some (some (e, dst), afterOneDraw mmodel)) := by
  have heq := chooseEdge_eq env mmodel type v hv (readable_of_validateEdges mmodel hvalid v)
  constructor
  · intro hnil
    rw [hnil] at heq ⊢
    exact ⟨rfl, heq⟩
  · intro e rest hk hzero
    have hsum : sumFrom mmodel (Double.fin 0) (kindEdges mmodel type v) = Double.fin 0 :=
      sumFrom_zero_weights mmodel _ 0 hzero
    have hmem : e ∈ kindEdges mmodel type v := by rw [hk]; exact List.mem_cons_self _ _
    obtain ⟨dst, hd, _⟩ := igraph_edge_of_mem_kindEdges mmodel type v e hmem
    refine ⟨by rw [runningTotal_length]; exact hsum, dst, hd, ?_⟩
    rw [heq, hsum, draw_of_zero_total, hk]
    have hw : edgeWeight mmodel e = Double.fin 0 := hzero e hmem
    simp [firstReaching, hw, Double.add, Double.ge, hd]

/-- C16, witness: the start vertex of the graph without edges has no
transition edge. -/
theorem C16_chooser_failure_witness :
    (kindEdges (engineOn graphStartOnly) EDGE_TYPE_TRANSITION 0 = [] →
      runningTotal (engineOn graphStartOnly)
        (kindEdges (engineOn graphStartOnly) EDGE_TYPE_TRANSITION 0)
        (kindEdges (engineOn graphStartOnly) EDGE_TYPE_TRANSITION 0).length = Double.fin 0 ∧
      _tgenmarkovmodel_chooseEdge sampleEnv (engineOn graphStartOnly) EDGE_TYPE_TRANSITION 0
        = some (none, afterOneDraw (engineOn graphStartOnly))) ∧
    (∀ e rest, kindEdges (engineOn graphStartOnly) EDGE_TYPE_TRANSITION 0 = e :: rest →
      (∀ x ∈ kindEdges (engineOn graphStartOnly) EDGE_TYPE_TRANSITION 0,
        edgeWeight (engineOn graphStartOnly) x = Double.fin 0) →
      runningTotal (engineOn graphStartOnly)
        (kindEdges (engineOn graphStartOnly) EDGE_TYPE_TRANSITION 0)
        (kindEdges (engineOn graphStartOnly) EDGE_TYPE_TRANSITION 0).length = Double.fin 0 ∧
      ∃ dst, igraph_edge (engineOn graphStartOnly).graph e = some (0, dst) ∧
        _tgenmarkovmodel_chooseEdge sampleEnv (engineOn graphStartOnly) EDGE_TYPE_TRANSITION 0
          = some (some (e, dst), afterOneDraw (engineOn graphStartOnly))) :=
  C16_chooser_failure sampleEnv (engineOn graphStartOnly) EDGE_TYPE_TRANSITION 0
    (by decide) (by decide)

theorem select_isSome_of_totalWeight (m : TGenMarkovModel) (type : EdgeType) (l : List Nat)
    (acc W : Double) (h : chooseEdge_totalWeight m type l acc = some W)
    (r acc' : Double) : ∃ c, chooseEdge_select m type r l acc' = some c := by
  induction l generalizing acc acc' with
  | nil => exact ⟨none, rfl⟩
  | cons e rest ih =>
    simp only [chooseEdge_totalWeight] at h
    simp only [chooseEdge_select]
    cases hty : _tgenmarkovmodel_findEdgeAttributeString m e EDGE_ATTR_TYPE with
    | none => simp [hty] at h
    | some typeStr =>
      simp only [hty] at h ⊢
      split
      · rename_i hk
        simp only [hk, ↓reduceIte] at h
        cases hw : _tgenmarkovmodel_findEdgeAttributeDouble m e EDGE_ATTR_WEIGHT with
        | none => simp [hw] at h
        | some w =>
          simp only [hw] at h ⊢
          split
          · exact ⟨_, rfl⟩
          · exact ih _ h _
      · rename_i hk
        simp only [hk, Bool.false_eq_true, ↓reduceIte] at h
        exact ih _ h _

/-- C18. Every call of the edge chooser that reaches the selection step (the
vertex exists and the first loop computes a total weight `W` without a failed
assertion) returns, having drawn exactly one uniform value from the PRNG: the
PRNG position has advanced by one, whether the call succeeds or fails, also
when no edge is eligible or `W` is 0. -/
theorem C18_one_draw_per_call (env : Env) (mmodel : TGenMarkovModel) (type : EdgeType)
    (v : Nat) (hv : v < mmodel.graph.vertices.length) (W : Double)
    (htotal : chooseEdge_totalWeight mmodel type (igraph_incident_out mmodel.graph v)
      (Double.fin 0) = some W) :
    ∃ result, _tgenmarkovmodel_chooseEdge env mmodel type v
        = some (result, afterOneDraw mmodel) ∧
      (afterOneDraw mmodel).prng.seed = mmodel.prng.seed ∧
      (afterOneDraw mmodel).prng.pos = mmodel.prng.pos + 1 ∧
      (afterOneDraw mmodel).prng
        = (g_rand_double_range env mmodel.prng (Double.fin 0) W).2 := by
  unfold _tgenmarkovmodel_chooseEdge
  simp only [hv, not_true_eq_false, ↓reduceIte, htotal]
  obtain ⟨c, hc⟩ := select_isSome_of_totalWeight mmodel type _ _ _ htotal
    (g_rand_double_range env mmodel.prng (Double.fin 0) W).1 (Double.fin 0)
  have hs := chooseEdge_select_graph
    { mmodel with prng := (g_rand_double_range env mmodel.prng (Double.fin 0) W).2 } mmodel rfl
    type (g_rand_double_range env mmodel.prng (Double.fin 0) W).1
    (igraph_incident_out mmodel.graph v) (Double.fin 0)
  rw [hs, hc]
  cases c with
  | none => exact ⟨none, rfl, rfl, rfl, rfl⟩
  | some chosen =>
    dsimp only
    cases igraph_edge mmodel.graph chosen with
    | none => exact ⟨none, rfl, rfl, rfl, rfl⟩
    | some p => exact ⟨some (chosen, p.2), rfl, rfl, rfl, rfl⟩

/-- C18, witness: the chooser on the start vertex of the graph without edges
computes `W = 0`, fails, and has drawn once. -/
theorem C18_one_draw_per_call_witness :
    ∃ result, _tgenmarkovmodel_chooseEdge sampleEnv (engineOn graphStartOnly)
        EDGE_TYPE_TRANSITION 0 = some (result, afterOneDraw (engineOn graphStartOnly)) ∧
      (afterOneDraw (engineOn graphStartOnly)).prng.seed
        = (engineOn graphStartOnly).prng.seed ∧
      (afterOneDraw (engineOn graphStartOnly)).prng.pos
        = (engineOn graphStartOnly).prng.pos + 1 ∧
      (afterOneDraw (engineOn graphStartOnly)).prng
        = (g_rand_double_range sampleEnv (engineOn graphStartOnly).prng (Double.fin 0)
            (Double.fin 0)).2 :=
  C18_one_draw_per_call sampleEnv (engineOn graphStartOnly) EDGE_TYPE_TRANSITION 0
    (by decide) (Double.fin 0) (by decide!)

theorem sumFrom_fin (m : TGenMarkovModel) (es : List Nat) (a : ℚ)
    (h : ∀ x ∈ es, edgeWeight m x = Double.fin (weightQ m x)) :
    sumFrom m (Double.fin a) es = Double.fin (a + (es.map (weightQ m)).sum) := by
  induction es generalizing a with
  | nil => simp [sumFrom]
  | cons e rest ih =>
    rw [sumFrom_cons, h e (List.mem_cons_self _ _)]
    have : Double.add (Double.fin a) (Double.fin (weightQ m e))
        = Double.fin (a + weightQ m e) := rfl
    rw [this, ih _ (fun x hx => h x (List.mem_cons_of_mem _ hx))]
    simp only [List.map_cons, List.sum_cons]
    rw [add_assoc]

theorem sumFrom_take_eq_prefixWeight (m : TGenMarkovModel) (es : List Nat) (k : Nat)
    (h : ∀ x ∈ es, edgeWeight m x = Double.fin (weightQ m x)) :
    sumFrom m (Double.fin 0) (es.take k) = Double.fin (prefixWeight m es k) := by
  rw [sumFrom_fin m _ 0 (fun x hx => h x (List.mem_of_mem_take hx))]
  unfold prefixWeight
  rw [zero_add]

theorem prefixWeight_succ (m : TGenMarkovModel) (es : List Nat) (k : Nat) (hk : k < es.length) :
    prefixWeight m es (k + 1) = prefixWeight m es k + weightQ m es[k] := by
  unfold prefixWeight
  rw [List.take_succ, List.map_append, List.sum_append, List.getElem?_eq_getElem hk]
  simp

theorem prefixWeight_zero (m : TGenMarkovModel) (es : List Nat) : prefixWeight m es 0 = 0 := by
  simp [prefixWeight]

theorem prefixWeight_mono (m : TGenMarkovModel) (es : List Nat)
    (hpos : ∀ x ∈ es, 0 < weightQ m x) (j i : Nat) (hji : j ≤ i) (hi : i ≤ es.length) :
    prefixWeight m es j ≤ prefixWeight m es i := by
  induction i with
  | zero =>
    have : j = 0 := by omega
    rw [this]
  | succ i ih =>
    rcases Nat.eq_or_lt_of_le hji with h | h
    · rw [h]
    · have h1 := ih (by omega) (by omega)
      have hlt : i < es.length := by omega
      rw [prefixWeight_succ m es i hlt]
      have := hpos es[i] (List.getElem_mem hlt)
      linarith

/-- C17 (weighted selection law, exact form). On a graph that passed the edge
pass, let the outgoing kind-`K` edges of `v` have positive finite weights
`w_0 .. w_(n-1)` with prefix sums `S_k` (the sum of the first `k` weights) and
total `W = S_n`. For a draw `r` with `0 <= r < W` the chooser returns the
`i`-th kind-`K` edge exactly when `S_i < r <= S_(i+1)`, or `r = 0` for the
first edge. The draws selecting edge `i` thus fill an interval of length
`S_(i+1) - S_i = w_i`, the fraction `w_i / (sum of the w_j)` of the range. -/
theorem C17_weighted_selection_law (env : Env) (mmodel : TGenMarkovModel) (type : EdgeType)
    (v : Nat)
    (hvalid : _tgenmarkovmodel_validateEdges mmodel = true)
    (hv : v < mmodel.graph.vertices.length)
    (hpos : ∀ e ∈ kindEdges mmodel type v,
      0 < weightQ mmodel e ∧ edgeWeight mmodel e = Double.fin (weightQ mmodel e))
    (q : ℚ)
    (hdraw : (g_rand_double_range env mmodel.prng (Double.fin 0)
      (Double.fin (prefixWeight mmodel (kindEdges mmodel type v)
        (kindEdges mmodel type v).length))).1 = Double.fin q)
    (hq0 : 0 ≤ q)
    (_hqW : q < prefixWeight mmodel (kindEdges mmodel type v) (kindEdges mmodel type v).length)
    (i : Nat) (hi : i < (kindEdges mmodel type v).length) :
    ((∃ dst, _tgenmarkovmodel_chooseEdge env mmodel type v
        = some (some ((kindEdges mmodel type v)[i], dst), afterOneDraw mmodel)) ↔
      ((prefixWeight mmodel (kindEdges mmodel type v) i < q ∧
          q ≤ prefixWeight mmodel (kindEdges mmodel type v) (i + 1)) ∨
        (i = 0 ∧ q = 0))) ∧
    prefixWeight mmodel (kindEdges mmodel type v) (i + 1)
        - prefixWeight mmodel (kindEdges mmodel type v) i
      = weightQ mmodel (kindEdges mmodel type v)[i] ∧
    (prefixWeight mmodel (kindEdges mmodel type v) (i + 1)
        - prefixWeight mmodel (kindEdges mmodel type v) i)
      / prefixWeight mmodel (kindEdges mmodel type v) (kindEdges mmodel type v).length
      = weightQ mmodel (kindEdges mmodel type v)[i]
        / ((kindEdges mmodel type v).map (weightQ mmodel)).sum := by
  have hfin : ∀ x ∈ kindEdges mmodel type v,
      edgeWeight mmodel x = Double.fin (weightQ mmodel x) := fun x hx => (hpos x hx).2
  have hposq : ∀ x ∈ kindEdges mmodel type v, 0 < weightQ mmodel x := fun x hx => (hpos x hx).1
  have hsumk : ∀ k, sumFrom mmodel (Double.fin 0) ((kindEdges mmodel type v).take k)
      = Double.fin (prefixWeight mmodel (kindEdges mmodel type v) k) :=
    fun k => sumFrom_take_eq_prefixWeight mmodel _ k hfin
  have hsum : sumFrom mmodel (Double.fin 0) (kindEdges mmodel type v)
      = Double.fin (prefixWeight mmodel (kindEdges mmodel type v)
          (kindEdges mmodel type v).length) := by
    have := hsumk (kindEdges mmodel type v).length
    rwa [List.take_length] at this
  have hge : ∀ k, Double.ge (sumFrom mmodel (Double.fin 0) ((kindEdges mmodel type v).take k))
      (Double.fin q) = decide (q ≤ prefixWeight mmodel (kindEdges mmodel type v) k) := by
    intro k; rw [hsumk k]; rfl
  have heq := chooseEdge_eq env mmodel type v hv (readable_of_validateEdges mmodel hvalid v)
  rw [hsum, hdraw] at heq
  have hsucc := prefixWeight_succ mmodel (kindEdges mmodel type v) i hi
  refine ⟨?_, ?_, ?_⟩
  · constructor
    · rintro ⟨dst, hch⟩
      rw [heq] at hch
      simp only [Option.some.injEq, Prod.mk.injEq, and_true] at hch
      cases hfr : firstReaching mmodel (Double.fin q) (Double.fin 0)
          (kindEdges mmodel type v) with
      | none => rw [hfr] at hch; simp at hch
      | some e =>
        rw [hfr] at hch
        obtain ⟨i', hi', h1, h2, h3⟩ := firstReaching_some _ _ _ _ _ hfr
        have he : e = (kindEdges mmodel type v)[i] := by
          simp only [Option.bind] at hch
          cases hedge : igraph_edge mmodel.graph e with
          | none => rw [hedge] at hch; simp at hch
          | some p =>
            rw [hedge] at hch
            simp only [Option.map, Option.some.injEq, Prod.mk.injEq] at hch
            exact hch.1
        have hii : i' = i := by
          exact (@List.Nodup.getElem_inj_iff _ _ (kindEdges_nodup mmodel type v)
            i' hi' i hi).mp (h1.trans he)
        subst hii
        rw [hge] at h2
        have h2' : q ≤ prefixWeight mmodel (kindEdges mmodel type v) (i' + 1) := by
          simpa using h2
        rcases Nat.eq_zero_or_pos i' with hz | hp
        · subst hz
          rcases eq_or_lt_of_le hq0 with h0 | h0
          · exact Or.inr ⟨rfl, h0.symm⟩
          · left
            rw [prefixWeight_zero]
            exact ⟨h0, h2'⟩
        · left
          have := h3 (i' - 1) (by omega)
          rw [hge] at this
          have hidx : i' - 1 + 1 = i' := by omega
          rw [hidx] at this
          have : ¬ q ≤ prefixWeight mmodel (kindEdges mmodel type v) i' := by simpa using this
          exact ⟨lt_of_not_le this, h2'⟩
    · intro hcond
      have hfirst : Double.ge (sumFrom mmodel (Double.fin 0)
            ((kindEdges mmodel type v).take (i + 1))) (Double.fin q) = true ∧
          ∀ j < i, Double.ge (sumFrom mmodel (Double.fin 0)
            ((kindEdges mmodel type v).take (j + 1))) (Double.fin q) = false := by
        rcases hcond with ⟨h1, h2⟩ | ⟨h1, h2⟩
        · refine ⟨by rw [hge]; simpa using h2, ?_⟩
          intro j hj
          rw [hge]
          have := prefixWeight_mono mmodel _ hposq (j + 1) i (by omega) (by omega)
          simp only [decide_eq_false_iff_not, not_le]
          linarith
        · subst h1 h2
          refine ⟨?_, fun j hj => absurd hj (Nat.not_lt_zero j)⟩
          rw [hge]
          have := hposq _ (List.getElem_mem hi)
          rw [hsucc, prefixWeight_zero]
          simp only [zero_add, decide_eq_true_eq]
          exact le_of_lt this
      have hfr := firstReaching_of_first mmodel (Double.fin q) (Double.fin 0)
        (kindEdges mmodel type v) i hi hfirst.1 hfirst.2
      obtain ⟨dst, hd, _⟩ :=
        igraph_edge_of_mem_kindEdges mmodel type v _ (List.getElem_mem hi)
      refine ⟨dst, ?_⟩
      rw [heq, hfr]
      simp only [Option.bind, hd, Option.map]
  · rw [hsucc]; ring
  · rw [hsucc]
    unfold prefixWeight
    rw [List.take_length]
    ring

/-- C17, witness: scenario S6, emission weights 1, 3, 6 on `s1`, prefix sums
0, 1, 4, 10; the draw `r = 5/2` lies in `(1, 4]` and selects the second edge. -/
theorem C17_weighted_selection_law_witness :
    ((∃ dst, _tgenmarkovmodel_chooseEdge sampleEnv (engineOn graphThreeEmissions)
          EDGE_TYPE_EMISSION 1
        = some (some ((kindEdges (engineOn graphThreeEmissions) EDGE_TYPE_EMISSION 1)[1], dst),
            afterOneDraw (engineOn graphThreeEmissions))) ↔
      ((prefixWeight (engineOn graphThreeEmissions)
            (kindEdges (engineOn graphThreeEmissions) EDGE_TYPE_EMISSION 1) 1 < 5 / 2 ∧
          5 / 2 ≤ prefixWeight (engineOn graphThreeEmissions)
            (kindEdges (engineOn graphThreeEmissions) EDGE_TYPE_EMISSION 1) (1 + 1)) ∨
        (1 = 0 ∧ (5 / 2 : ℚ) = 0))) ∧
    prefixWeight (engineOn graphThreeEmissions)
        (kindEdges (engineOn graphThreeEmissions) EDGE_TYPE_EMISSION 1) (1 + 1)
        - prefixWeight (engineOn graphThreeEmissions)
            (kindEdges (engineOn graphThreeEmissions) EDGE_TYPE_EMISSION 1) 1
      = weightQ (engineOn graphThreeEmissions)
          (kindEdges (engineOn graphThreeEmissions) EDGE_TYPE_EMISSION 1)[1] ∧
    (prefixWeight (engineOn graphThreeEmissions)
        (kindEdges (engineOn graphThreeEmissions) EDGE_TYPE_EMISSION 1) (1 + 1)
        - prefixWeight (engineOn graphThreeEmissions)
            (kindEdges (engineOn graphThreeEmissions) EDGE_TYPE_EMISSION 1) 1)
      / prefixWeight (engineOn graphThreeEmissions)
          (kindEdges (engineOn graphThreeEmissions) EDGE_TYPE_EMISSION 1)
          (kindEdges (engineOn graphThreeEmissions) EDGE_TYPE_EMISSION 1).length
      = weightQ (engineOn graphThreeEmissions)
          (kindEdges (engineOn graphThreeEmissions) EDGE_TYPE_EMISSION 1)[1]
        / ((kindEdges (engineOn graphThreeEmissions) EDGE_TYPE_EMISSION 1).map
            (weightQ (engineOn graphThreeEmissions))).sum :=
  C17_weighted_selection_law sampleEnv (engineOn graphThreeEmissions) EDGE_TYPE_EMISSION 1
    (by decide!) (by decide) (by decide!) (5 / 2) (by decide!) (by decide!) (by decide!) 1
    (by decide)

/-! ## Delay generation -/

theorem gt_zero_false_of_ge (x : Double) (hge : Double.ge x (Double.fin 0) = true)
    (hgt : Double.gt x (Double.fin 0) = false) : x = Double.fin 0 := by
  cases x with
  | nan => simp [Double.ge] at hge
  | ninf => simp [Double.ge] at hge
  | pinf => simp [Double.gt] at hgt
  | fin q =>
    simp only [Double.ge, decide_eq_true_eq] at hge
    simp only [Double.gt, decide_eq_false_iff_not, not_lt] at hgt
    rw [le_antisymm hgt hge]

theorem gt_zero_of_fin_zero : Double.gt (Double.fin 0) (Double.fin 0) = false := by
  simp [Double.gt]

/-- C19. For an emission edge with validated (present, non-NaN, non-negative)
`lognorm_mu` and `lognorm_sigma`, `_tgenmarkovmodel_generateDelay` converts a
sample of the log-normal sampler with the edge's `(mu, sigma)` exactly when
`mu > 0` or `sigma > 0`, and a sample of the exponential sampler with the
edge's `lambda` exactly when `mu = 0` and `sigma = 0`; the two conditions
exclude each other and one of them holds. -/
theorem C19_delay_distribution_choice (env : Env) (mmodel : TGenMarkovModel) (e : Nat)
    (typeStr : CStr) (mu sigma lam : Double)
    (hty : _tgenmarkovmodel_findEdgeAttributeString mmodel e EDGE_ATTR_TYPE = some typeStr)
    (hem : _tgenmarkovmodel_edgeTypeIsEqual typeStr EDGE_TYPE_EMISSION = true)
    (hmu : _tgenmarkovmodel_findEdgeAttributeDouble mmodel e EDGE_ATTR_LOGNORMMU = some mu)
    (hsigma : _tgenmarkovmodel_findEdgeAttributeDouble mmodel e EDGE_ATTR_LOGNORMSIGMA
      = some sigma)
    (hlam : _tgenmarkovmodel_findEdgeAttributeDouble mmodel e EDGE_ATTR_EXPLAMBDA = some lam)
    (hmu0 : Double.ge mu (Double.fin 0) = true)
    (hsigma0 : Double.ge sigma (Double.fin 0) = true) :
    ((Double.gt mu (Double.fin 0) = true ∨ Double.gt sigma (Double.fin 0) = true) →
      _tgenmarkovmodel_generateDelay env mmodel e = some
        (delayOfSample env (_tgenmarkovmodel_generateLogNormalValue env mmodel mu sigma).1,
         (_tgenmarkovmodel_generateLogNormalValue env mmodel mu sigma).2)) ∧
    ((mu = Double.fin 0 ∧ sigma = Double.fin 0) →
      _tgenmarkovmodel_generateDelay env mmodel e = some
        (delayOfSample env (_tgenmarkovmodel_generateExponentialValue env mmodel lam).1,
         (_tgenmarkovmodel_generateExponentialValue env mmodel lam).2)) ∧
    ((Double.gt mu (Double.fin 0) = true ∨ Double.gt sigma (Double.fin 0) = true) ↔
      ¬ (mu = Double.fin 0 ∧ sigma = Double.fin 0)) := by
  have hunfold : _tgenmarkovmodel_generateDelay env mmodel e =
      if Double.gt sigma (Double.fin 0) || Double.gt mu (Double.fin 0) then
        some (delayOfSample env (_tgenmarkovmodel_generateLogNormalValue env mmodel mu sigma).1,
          (_tgenmarkovmodel_generateLogNormalValue env mmodel mu sigma).2)
      else
        some (delayOfSample env (_tgenmarkovmodel_generateExponentialValue env mmodel lam).1,
          (_tgenmarkovmodel_generateExponentialValue env mmodel lam).2) := by
    unfold _tgenmarkovmodel_generateDelay delayOfSample
    simp only [hty, hem, hmu, hsigma, hlam, Bool.true_eq_false, ↓reduceIte]
    cases hb : (Double.gt sigma (Double.fin 0) || Double.gt mu (Double.fin 0)) with
    | true =>
      simp only [↓reduceIte]
      split <;> rfl
    | false =>
      simp only [Bool.false_eq_true, ↓reduceIte]
      split <;> rfl
  refine ⟨?_, ?_, ?_⟩
  · intro h
    rw [hunfold]
    have : (Double.gt sigma (Double.fin 0) || Double.gt mu (Double.fin 0)) = true := by
      rcases h with h | h <;> simp [h]
    simp [this]
  · rintro ⟨h1, h2⟩
    rw [hunfold, h1, h2, gt_zero_of_fin_zero]
    simp
  · constructor
    · rintro h ⟨h1, h2⟩
      rw [h1, h2, gt_zero_of_fin_zero] at h
      simp at h
    · intro h
      by_contra hn
      rw [not_or] at hn
      apply h
      exact ⟨gt_zero_false_of_ge _ hmu0 (by simpa using hn.1),
        gt_zero_false_of_ge _ hsigma0 (by simpa using hn.2)⟩

/-- C19, witness: the emission edge of `graphLogNormal`, with `mu = 1`,
`sigma = 2`, `lambda = 3`. -/
theorem C19_delay_distribution_choice_witness :
    ((Double.gt (Double.fin 1) (Double.fin 0) = true ∨
        Double.gt (Double.fin 2) (Double.fin 0) = true) →
      _tgenmarkovmodel_generateDelay sampleEnv (engineOn graphLogNormal) 1 = some
        (delayOfSample sampleEnv
          (_tgenmarkovmodel_generateLogNormalValue sampleEnv (engineOn graphLogNormal)
            (Double.fin 1) (Double.fin 2)).1,
         (_tgenmarkovmodel_generateLogNormalValue sampleEnv (engineOn graphLogNormal)
            (Double.fin 1) (Double.fin 2)).2)) ∧
    ((Double.fin 1 = Double.fin 0 ∧ Double.fin 2 = Double.fin 0) →
      _tgenmarkovmodel_generateDelay sampleEnv (engineOn graphLogNormal) 1 = some
        (delayOfSample sampleEnv
          (_tgenmarkovmodel_generateExponentialValue sampleEnv (engineOn graphLogNormal)
            (Double.fin 3)).1,
         (_tgenmarkovmodel_generateExponentialValue sampleEnv (engineOn graphLogNormal)
            (Double.fin 3)).2)) ∧
    ((Double.gt (Double.fin 1) (Double.fin 0) = true ∨
        Double.gt (Double.fin 2) (Double.fin 0) = true) ↔
      ¬ (Double.fin 1 = Double.fin 0 ∧ Double.fin 2 = Double.fin 0)) := by
  have hty : _tgenmarkovmodel_findEdgeAttributeString (engineOn graphLogNormal) 1
      EDGE_ATTR_TYPE = some "emission".toList := by decide
  have hmu : _tgenmarkovmodel_findEdgeAttributeDouble (engineOn graphLogNormal) 1
      EDGE_ATTR_LOGNORMMU = some (Double.fin 1) := by decide!
  have hsigma : _tgenmarkovmodel_findEdgeAttributeDouble (engineOn graphLogNormal) 1
      EDGE_ATTR_LOGNORMSIGMA = some (Double.fin 2) := by decide!
  have hlam : _tgenmarkovmodel_findEdgeAttributeDouble (engineOn graphLogNormal) 1
      EDGE_ATTR_EXPLAMBDA = some (Double.fin 3) := by decide!
  exact C19_delay_distribution_choice sampleEnv (engineOn graphLogNormal) 1 "emission".toList
    (Double.fin 1) (Double.fin 2) (Double.fin 3) hty (by decide) hmu hsigma hlam
    (by decide!) (by decide!)

theorem clampedUniform_eq (env : Env) (mmodel : TGenMarkovModel) (pos : Nat) :
    clampedUniform env mmodel pos
      = Double.fin (0.0001 + 0.9998 * env.g_rand_double mmodel.prng.seed pos) := by
  unfold clampedUniform g_rand_double_range
  simp only [Double.sub, Double.mul, Double.add, Double.neg]
  congr 1
  ring

/-- C20. With the PRNG's raw values in `[0, 1)`, the log-normal sampler draws
exactly two uniforms `u` then `v`, each in `[0.0001, 0.9999)`, and returns
`exp (mu + sigma * (sqrt (-2 * log u) * cos (2 * M_PI * v)))`; the exponential
sampler draws exactly one uniform `u` in `[0.0001, 0.9999)` and returns
`-log u / lambda`. Here `exp`, `log`, `sqrt`, `cos` are the environment's libm
and `u`, `v` the values `g_rand_double_range (prng, 0.0001, 0.9999)` yields at
the PRNG's position and at the next one. -/
theorem C20_samplers (env : Env) (mmodel : TGenMarkovModel) (mu sigma lam : Double)
    (hu0 : 0 ≤ env.g_rand_double mmodel.prng.seed mmodel.prng.pos)
    (hu1 : env.g_rand_double mmodel.prng.seed mmodel.prng.pos < 1)
    (hv0 : 0 ≤ env.g_rand_double mmodel.prng.seed (mmodel.prng.pos + 1))
    (hv1 : env.g_rand_double mmodel.prng.seed (mmodel.prng.pos + 1) < 1) :
    ∃ u v : ℚ,
      clampedUniform env mmodel mmodel.prng.pos = Double.fin u ∧
      clampedUniform env mmodel (mmodel.prng.pos + 1) = Double.fin v ∧
      (0.0001 ≤ u ∧ u < 0.9999) ∧ (0.0001 ≤ v ∧ v < 0.9999) ∧
      _tgenmarkovmodel_generateLogNormalValue env mmodel mu sigma
        = (env.exp (Double.add mu (Double.mul sigma
            (Double.mul (env.sqrt (Double.mul (Double.neg (Double.fin 2)) (env.log (Double.fin u))))
              (env.cos (Double.mul (Double.mul (Double.fin 2) M_PI) (Double.fin v)))))),
           afterTwoDraws mmodel) ∧
      _tgenmarkovmodel_generateExponentialValue env mmodel lam
        = (Double.div (Double.neg (env.log (Double.fin u))) lam, afterOneDraw mmodel) := by
  refine ⟨0.0001 + 0.9998 * env.g_rand_double mmodel.prng.seed mmodel.prng.pos,
    0.0001 + 0.9998 * env.g_rand_double mmodel.prng.seed (mmodel.prng.pos + 1),
    clampedUniform_eq env mmodel _, clampedUniform_eq env mmodel _, ?_, ?_, ?_, ?_⟩
  · constructor
    · linarith
    · linarith
  · constructor
    · linarith
    · linarith
  · have h1 := clampedUniform_eq env mmodel mmodel.prng.pos
    have h2 := clampedUniform_eq env mmodel (mmodel.prng.pos + 1)
    unfold clampedUniform at h1 h2
    unfold _tgenmarkovmodel_generateLogNormalValue afterTwoDraws
    have e1 : (g_rand_double_range env mmodel.prng (Double.fin 0.0001) (Double.fin 0.9999)).2
        = { seed := mmodel.prng.seed, pos := mmodel.prng.pos + 1 } := rfl
    dsimp only
    rw [e1, h2]
    have h1' : (g_rand_double_range env mmodel.prng (Double.fin 0.0001) (Double.fin 0.9999)).1
        = Double.fin (0.0001 + 0.9998 * env.g_rand_double mmodel.prng.seed mmodel.prng.pos) :=
      h1
    rw [h1']
    rfl
  · have h1 := clampedUniform_eq env mmodel mmodel.prng.pos
    unfold clampedUniform at h1
    have h1' : (g_rand_double_range env mmodel.prng (Double.fin 0.0001) (Double.fin 0.9999)).1
        = Double.fin (0.0001 + 0.9998 * env.g_rand_double mmodel.prng.seed mmodel.prng.pos) :=
      h1
    unfold _tgenmarkovmodel_generateExponentialValue afterOneDraw
    dsimp only
    rw [h1']
    rfl

/-- C20, witness: the engine on `graphLogNormal` with every raw draw 1/4. -/
theorem C20_samplers_witness :
    ∃ u v : ℚ,
      clampedUniform sampleEnv (engineOn graphLogNormal) (engineOn graphLogNormal).prng.pos
        = Double.fin u ∧
      clampedUniform sampleEnv (engineOn graphLogNormal)
        ((engineOn graphLogNormal).prng.pos + 1) = Double.fin v ∧
      (0.0001 ≤ u ∧ u < 0.9999) ∧ (0.0001 ≤ v ∧ v < 0.9999) ∧
      _tgenmarkovmodel_generateLogNormalValue sampleEnv (engineOn graphLogNormal)
          (Double.fin 1) (Double.fin 2)
        = (sampleEnv.exp (Double.add (Double.fin 1) (Double.mul (Double.fin 2)
            (Double.mul
              (sampleEnv.sqrt (Double.mul (Double.neg (Double.fin 2))
                (sampleEnv.log (Double.fin u))))
              (sampleEnv.cos (Double.mul (Double.mul (Double.fin 2) M_PI) (Double.fin v)))))),
           afterTwoDraws (engineOn graphLogNormal)) ∧
      _tgenmarkovmodel_generateExponentialValue sampleEnv (engineOn graphLogNormal)
          (Double.fin 3)
        = (Double.div (Double.neg (sampleEnv.log (Double.fin u))) (Double.fin 3),
           afterOneDraw (engineOn graphLogNormal)) :=
  C20_samplers sampleEnv (engineOn graphLogNormal) (Double.fin 1) (Double.fin 2) (Double.fin 3)
    (by decide!) (by decide!) (by decide!) (by decide!)

/-! ## The engine between calls -/

theorem afterDraws_zero (m : TGenMarkovModel) : afterDraws 0 m = m := rfl

theorem afterOneDraw_eq (m : TGenMarkovModel) : afterOneDraw m = afterDraws 1 m := rfl

theorem afterDraws_afterDraws (a b : Nat) (m : TGenMarkovModel) :
    afterDraws a (afterDraws b m) = afterDraws (b + a) m := by
  unfold afterDraws
  simp only [Nat.add_assoc]

theorem VAS_name_ne_nil_lt (g : igraph_t) (i : Nat)
    (h : igraph_cattribute_VAS g VERTEX_ATTR_NAME i ≠ []) : i < g.vertices.length := by
  by_contra hlt
  apply h
  unfold igraph_cattribute_VAS
  rw [List.getElem?_eq_none (Nat.le_of_not_lt hlt)]

theorem start_not_emission (s : CStr)
    (h : _tgenmarkovmodel_vertexIDIsEqual s VERTEX_NAME_START = true) :
    _tgenmarkovmodel_vertexIDIsEmission s = false := by
  rw [vertexIDIsEmission_eq_false_iff]
  have hs : startsWithIgnoringCase s "start".toList := (vertexIDIsEqual_iff _ _).mp h
  obtain ⟨c1, s1, hs1, hc⟩ := startsWithIgnoringCase_head s _ _ hs
  subst hs1
  intro hem
  unfold emissionNamed at hem
  rcases hem with hem | hem | hem | hem <;>
    · obtain ⟨c2, s2, hs2, hc2⟩ := startsWithIgnoringCase_head _ _ _ hem
      simp only [List.cons.injEq] at hs2
      rw [← hs2.1, hc] at hc2
      revert hc2
      decide

theorem new_some_invariant (graph : igraph_t) (name : CStr) (seed : Nat) (m : TGenMarkovModel)
    (h : _tgenmarkovmodel_new graph name seed = some m) :
    engineInvariant graph name seed m ∧ m.prng.pos = 0 ∧
      m.currentStateVertexIndex = m.startVertexIndex := by
  obtain ⟨s, hv, he, hm⟩ := (new_eq_some_iff graph name seed m).mp h
  subst hm
  obtain ⟨r, hl, _, hfound, hs, _⟩ := validateVertices_true _ s hv
  refine ⟨⟨rfl, rfl, rfl, rfl, rfl, ?_, ?_, Or.inl rfl⟩, rfl, rfl⟩
  · rw [← he]
    exact validateEdges_graph _ _ rfl
  · rcases validateVertices_loop_found (newModelBeforeValidation graph name seed) _ _ r hl
      with h1 | h1
    · rw [h1.1] at hfound
      exact absurd hfound (by simp)
    · rw [hs] at h1
      have hlt : s < graph.vertices.length := List.mem_range.mp h1.2.1
      have hget : graph.vertices[s]? = some (graph.vertices[s]) := List.getElem?_eq_getElem hlt
      refine ⟨_, hget, ?_⟩
      have hm : _tgenmarkovmodel_vertexIDIsEqual
          (igraph_cattribute_VAS graph VERTEX_ATTR_NAME s) VERTEX_NAME_START = true := h1.2.2
      rw [VAS_name_of_getElem _ _ _ hget] at hm
      exact hm

/-- An accepted edge: its endpoints are vertices of the graph. -/
theorem endpoints_lt_of_validateEdges (m : TGenMarkovModel)
    (hvalid : _tgenmarkovmodel_validateEdges m = true) (e : Nat) (edge : Edge)
    (hedge : m.graph.edges[e]? = some edge) :
    edge.src < m.graph.vertices.length ∧ edge.dst < m.graph.vertices.length := by
  have hc := validateEdges_checks m hvalid e (getElem?_lt_length _ _ _ hedge)
  rw [checkEdgeAttributes_iff] at hc
  obtain ⟨edge', hedge', _, hs, hd, _⟩ := hc
  rw [hedge] at hedge'
  simp only [Option.some.injEq] at hedge'
  subst hedge'
  exact ⟨VAS_name_ne_nil_lt _ _ hs, VAS_name_ne_nil_lt _ _ hd⟩

/-- An accepted transition edge: its destination is not emission-named. -/
theorem transition_dst_of_validateEdges (m : TGenMarkovModel)
    (hvalid : _tgenmarkovmodel_validateEdges m = true) (e : Nat) (edge : Edge)
    (hedge : m.graph.edges[e]? = some edge)
    (htr : _tgenmarkovmodel_edgeTypeIsEqual edge.type EDGE_TYPE_TRANSITION = true) :
    _tgenmarkovmodel_vertexIDIsEmission
        (igraph_cattribute_VAS m.graph VERTEX_ATTR_NAME edge.src) = false ∧
      _tgenmarkovmodel_vertexIDIsEmission
        (igraph_cattribute_VAS m.graph VERTEX_ATTR_NAME edge.dst) = false := by
  have hc := validateEdges_checks m hvalid e (getElem?_lt_length _ _ _ hedge)
  rw [checkEdgeAttributes_iff] at hc
  obtain ⟨edge', hedge', _, _, _, _, _, _, hk⟩ := hc
  rw [hedge] at hedge'
  simp only [Option.some.injEq] at hedge'
  subst hedge'
  rcases hk with ⟨_, h1, h2⟩ | ⟨hn, _⟩
  · exact ⟨h1, h2⟩
  · rw [htr] at hn
    exact absurd hn (by simp)

/-- An accepted emission edge: its source is not emission-named, its
destination is, and its three parameters are present and non-negative. -/
theorem emission_of_validateEdges (m : TGenMarkovModel)
    (hvalid : _tgenmarkovmodel_validateEdges m = true) (e : Nat) (edge : Edge)
    (hedge : m.graph.edges[e]? = some edge)
    (hem : _tgenmarkovmodel_edgeTypeIsEqual edge.type EDGE_TYPE_EMISSION = true) :
    _tgenmarkovmodel_vertexIDIsEmission
        (igraph_cattribute_VAS m.graph VERTEX_ATTR_NAME edge.src) = false ∧
      _tgenmarkovmodel_vertexIDIsEmission
        (igraph_cattribute_VAS m.graph VERTEX_ATTR_NAME edge.dst) = true ∧
      edgeAttributeNonNegative m e EDGE_ATTR_LOGNORMMU = true ∧
      edgeAttributeNonNegative m e EDGE_ATTR_LOGNORMSIGMA = true ∧
      edgeAttributeNonNegative m e EDGE_ATTR_EXPLAMBDA = true := by
  have hc := validateEdges_checks m hvalid e (getElem?_lt_length _ _ _ hedge)
  rw [checkEdgeAttributes_iff] at hc
  obtain ⟨edge', hedge', _, _, _, _, _, _, hk⟩ := hc
  rw [hedge] at hedge'
  simp only [Option.some.injEq] at hedge'
  subst hedge'
  rcases hk with ⟨ht, _, _⟩ | ⟨_, _, h1, h2, h3, h4, h5⟩
  · rw [not_transition_of_emission _ hem] at ht
    exact absurd ht (by simp)
  · exact ⟨h1, h2, h3, h4, h5⟩

/-- On a graph that passed the edge pass the chooser returns, having drawn
once: FALSE, or an outgoing edge of the kind asked for and its destination. -/
theorem chooseEdge_valid (env : Env) (m : TGenMarkovModel) (type : EdgeType) (v : Nat)
    (hvalid : _tgenmarkovmodel_validateEdges m = true) (hv : v < m.graph.vertices.length) :
    _tgenmarkovmodel_chooseEdge env m type v = some (none, afterDraws 1 m) ∨
    ∃ (e : Nat) (edge : Edge), m.graph.edges[e]? = some edge ∧ edge.src = v ∧
      _tgenmarkovmodel_edgeTypeIsEqual edge.type type = true ∧
      _tgenmarkovmodel_chooseEdge env m type v = some (some (e, edge.dst), afterDraws 1 m) := by
  have heq := chooseEdge_eq env m type v hv (readable_of_validateEdges m hvalid v)
  rw [afterOneDraw_eq] at heq
  cases hfr : firstReaching m
      (g_rand_double_range env m.prng (Double.fin 0)
        (sumFrom m (Double.fin 0) (kindEdges m type v))).1
      (Double.fin 0) (kindEdges m type v) with
  | none =>
    left
    rw [heq, hfr]
    rfl
  | some e =>
    right
    obtain ⟨i, hi, h1, _, _⟩ := firstReaching_some _ _ _ _ _ hfr
    have hmem : e ∈ kindEdges m type v := by
      rw [← h1]
      exact List.getElem_mem hi
    obtain ⟨edge, hedge, hsrc, hty⟩ := (mem_kindEdges m type v e).mp hmem
    refine ⟨e, edge, hedge, hsrc, hty, ?_⟩
    rw [heq, hfr]
    simp only [Option.bind, igraph_edge, hedge, Option.map]

/-! ## The paths of `next` -/

theorem next_of_transition_failure (env : Env) (m : TGenMarkovModel) (delay : Option Nat)
    (m1 : TGenMarkovModel) (hrun : m.foundEndState = false)
    (ht : _tgenmarkovmodel_chooseTransition env m m.currentStateVertexIndex = some (none, m1)) :
    tgenmarkovmodel_getNextObservation env m delay = some (OBSERVATION_END, delay, m1) := by
  unfold tgenmarkovmodel_getNextObservation
  rw [hrun, ht]
  rfl

theorem next_of_emission_failure (env : Env) (m : TGenMarkovModel) (delay : Option Nat)
    (e v : Nat) (m1 m2 : TGenMarkovModel) (hrun : m.foundEndState = false)
    (ht : _tgenmarkovmodel_chooseTransition env m m.currentStateVertexIndex
      = some (some (e, v), m1))
    (hem : _tgenmarkovmodel_chooseEmission env { m1 with currentStateVertexIndex := v } v
      = some (none, m2)) :
    tgenmarkovmodel_getNextObservation env m delay = some (OBSERVATION_END, delay, m2) := by
  unfold tgenmarkovmodel_getNextObservation
  rw [hrun, ht]
  simp only [Bool.false_eq_true, ↓reduceIte]
  rw [hem]

theorem next_of_emission (env : Env) (m : TGenMarkovModel) (delay : Option Nat)
    (e v ee ov : Nat) (m1 m2 : TGenMarkovModel) (hrun : m.foundEndState = false)
    (ht : _tgenmarkovmodel_chooseTransition env m m.currentStateVertexIndex
      = some (some (e, v), m1))
    (hem : _tgenmarkovmodel_chooseEmission env { m1 with currentStateVertexIndex := v } v
      = some (some (ee, ov), m2)) :
    tgenmarkovmodel_getNextObservation env m delay =
      match delay with
      | none => (_tgenmarkovmodel_vertexToObservation m2 ov).map (fun obs => (obs, none, m2))
      | some _ =>
        (_tgenmarkovmodel_generateDelay env m2 ee).bind (fun r =>
          (_tgenmarkovmodel_vertexToObservation r.2 ov).map (fun obs =>
            (obs, some (if r.1 > 60000000 then 60000000 else r.1), r.2))) := by
  unfold tgenmarkovmodel_getNextObservation
  rw [hrun, ht]
  simp only [Bool.false_eq_true, ↓reduceIte]
  rw [hem]
  cases delay with
  | none =>
    dsimp only
    cases _tgenmarkovmodel_vertexToObservation m2 ov <;> rfl
  | some d0 =>
    dsimp only
    cases _tgenmarkovmodel_generateDelay env m2 ee with
    | none => rfl
    | some r =>
      obtain ⟨x, m3⟩ := r
      dsimp only [Option.bind]
      cases _tgenmarkovmodel_vertexToObservation m3 ov <;> rfl

/-! ## The sampler call -/

theorem generateDelay_eq_call (env : Env) (m : TGenMarkovModel) (e : Nat) :
    _tgenmarkovmodel_generateDelay env m e =
      (generateDelay_samplerCall m e).map (fun c =>
        (delayOfSample env (runSamplerCall env m c).1, (runSamplerCall env m c).2)) := by
  unfold _tgenmarkovmodel_generateDelay generateDelay_samplerCall delayOfSample
  cases _tgenmarkovmodel_findEdgeAttributeString m e EDGE_ATTR_TYPE with
  | none => rfl
  | some typeStr =>
    dsimp only
    cases _tgenmarkovmodel_edgeTypeIsEqual typeStr EDGE_TYPE_EMISSION with
    | false => rfl
    | true =>
      simp only [Bool.true_eq_false, ↓reduceIte]
      cases _tgenmarkovmodel_findEdgeAttributeDouble m e EDGE_ATTR_LOGNORMMU with
      | none => rfl
      | some mu =>
        dsimp only
        cases _tgenmarkovmodel_findEdgeAttributeDouble m e EDGE_ATTR_LOGNORMSIGMA with
        | none => rfl
        | some sigma =>
          dsimp only
          cases (Double.gt sigma (Double.fin 0) || Double.gt mu (Double.fin 0)) with
          | true =>
            simp only [↓reduceIte, Option.map, runSamplerCall]
            split <;> rfl
          | false =>
            simp only [Bool.false_eq_true, ↓reduceIte]
            cases _tgenmarkovmodel_findEdgeAttributeDouble m e EDGE_ATTR_EXPLAMBDA with
            | none => rfl
            | some lam =>
              simp only [Option.map, runSamplerCall]
              split <;> rfl

theorem runSamplerCall_snd (env : Env) (m : TGenMarkovModel) (c : SamplerCall) :
    (runSamplerCall env m c).2 = afterDraws c.draws m := by
  cases c <;> rfl

theorem generateDelay_samplerCall_graph (m1 m2 : TGenMarkovModel) (h : m1.graph = m2.graph)
    (e : Nat) : generateDelay_samplerCall m1 e = generateDelay_samplerCall m2 e := by
  unfold generateDelay_samplerCall
  rw [findEdgeAttributeString_graph m1 m2 h, findEdgeAttributeDouble_graph m1 m2 h,
    findEdgeAttributeDouble_graph m1 m2 h, findEdgeAttributeDouble_graph m1 m2 h]

theorem findDouble_of_nonNegative (m : TGenMarkovModel) (e : Nat) (a : EdgeAttribute)
    (h : edgeAttributeNonNegative m e a = true) :
    _tgenmarkovmodel_findEdgeAttributeDouble m e a = some (igraph_cattribute_EAN m.graph a e) ∧
      Double.ge (igraph_cattribute_EAN m.graph a e) (Double.fin 0) = true := by
  rw [edgeAttributeNonNegative_iff] at h
  refine ⟨?_, h.2⟩
  rw [findEdgeAttributeDouble_eq_some]
  exact ⟨h.1, rfl, ge_zero_ne_nan _ h.2⟩

/-- For an emission edge of a graph that passed the edge pass, the assertions of
`_tgenmarkovmodel_generateDelay` hold and the sampler called is the log-normal
one with the edge's `(mu, sigma)` when `sigma > 0` or `mu > 0`, the exponential
one with the edge's `lambda` otherwise. -/
theorem samplerCall_of_validateEdges (m : TGenMarkovModel)
    (hvalid : _tgenmarkovmodel_validateEdges m = true) (e : Nat) (edge : Edge)
    (hedge : m.graph.edges[e]? = some edge)
    (hem : _tgenmarkovmodel_edgeTypeIsEqual edge.type EDGE_TYPE_EMISSION = true) :
    generateDelay_samplerCall m e = some
      (if Double.gt edge.lognorm_sigma (Double.fin 0) || Double.gt edge.lognorm_mu (Double.fin 0)
       then SamplerCall.logNormal edge.lognorm_mu edge.lognorm_sigma
       else SamplerCall.exponential edge.exp_lambda) := by
  obtain ⟨_, _, hmu, hsigma, hlam⟩ := emission_of_validateEdges m hvalid e edge hedge hem
  obtain ⟨_, hmu', hsigma', hlam'⟩ := EAN_weight_of_getElem m.graph e edge hedge
  have h1 := (findDouble_of_nonNegative m e _ hmu).1
  have h2 := (findDouble_of_nonNegative m e _ hsigma).1
  have h3 := (findDouble_of_nonNegative m e _ hlam).1
  rw [hmu'] at h1
  rw [hsigma'] at h2
  rw [hlam'] at h3
  have hty : _tgenmarkovmodel_findEdgeAttributeString m e EDGE_ATTR_TYPE = some edge.type := by
    have hc := validateEdges_checks m hvalid e (getElem?_lt_length _ _ _ hedge)
    rw [checkEdgeAttributes_iff] at hc
    obtain ⟨edge', hedge', _, _, _, _, hcol, hne, _⟩ := hc
    rw [hedge] at hedge'
    simp only [Option.some.injEq] at hedge'
    subst hedge'
    rw [findEdgeAttributeString_type_eq_some]
    exact ⟨hcol, EAS_of_getElem _ _ _ hedge, hne⟩
  unfold generateDelay_samplerCall
  rw [hty]
  simp only [hem, Bool.true_eq_false, ↓reduceIte, h1, h2, h3]
  split <;> rfl

/-! ## `next` on an engine whose graph passed the edge pass -/

/-- The three ways a call of `next` goes on a Running engine whose graph passed
the edge pass and whose current vertex exists: the transition chooser fails
after one draw; the emission chooser fails after two; or an emission edge is
chosen, its sampler call is the one its attributes select, and the call returns
what `_tgenmarkovmodel_vertexToObservation` yields for the edge's destination. -/
theorem next_running (env : Env) (m : TGenMarkovModel) (delay : Option Nat)
    (hvalid : _tgenmarkovmodel_validateEdges m = true)
    (hcur : m.currentStateVertexIndex < m.graph.vertices.length)
    (hrun : m.foundEndState = false) :
    (_tgenmarkovmodel_chooseTransition env m m.currentStateVertexIndex
        = some (none, afterDraws 1 m) ∧
      tgenmarkovmodel_getNextObservation env m delay
        = some (OBSERVATION_END, delay, afterDraws 1 m)) ∨
    ∃ (e : Nat) (edge : Edge), m.graph.edges[e]? = some edge ∧
      edge.src = m.currentStateVertexIndex ∧
      _tgenmarkovmodel_edgeTypeIsEqual edge.type EDGE_TYPE_TRANSITION = true ∧
      _tgenmarkovmodel_chooseTransition env m m.currentStateVertexIndex
        = some (some (e, edge.dst), afterDraws 1 m) ∧
      ((_tgenmarkovmodel_chooseEmission env
            { afterDraws 1 m with currentStateVertexIndex := edge.dst } edge.dst
          = some (none, afterDraws 2 { m with currentStateVertexIndex := edge.dst }) ∧
        tgenmarkovmodel_getNextObservation env m delay
          = some (OBSERVATION_END, delay,
              afterDraws 2 { m with currentStateVertexIndex := edge.dst })) ∨
       ∃ (ee : Nat) (eedge : Edge) (c : SamplerCall), m.graph.edges[ee]? = some eedge ∧
         eedge.src = edge.dst ∧
         _tgenmarkovmodel_edgeTypeIsEqual eedge.type EDGE_TYPE_EMISSION = true ∧
         _tgenmarkovmodel_chooseEmission env
             { afterDraws 1 m with currentStateVertexIndex := edge.dst } edge.dst
           = some (some (ee, eedge.dst),
               afterDraws 2 { m with currentStateVertexIndex := edge.dst }) ∧
         generateDelay_samplerCall m ee = some c ∧
         c = (if Double.gt eedge.lognorm_sigma (Double.fin 0) ||
                 Double.gt eedge.lognorm_mu (Double.fin 0)
              then SamplerCall.logNormal eedge.lognorm_mu eedge.lognorm_sigma
              else SamplerCall.exponential eedge.exp_lambda) ∧
         tgenmarkovmodel_getNextObservation env m delay =
           (_tgenmarkovmodel_vertexToObservation m eedge.dst).map (fun obs =>
             match delay with
             | none => (obs, none, afterDraws 2 { m with currentStateVertexIndex := edge.dst })
             | some _ =>
               (obs,
                some (if delayOfSample env (runSamplerCall env
                        (afterDraws 2 { m with currentStateVertexIndex := edge.dst }) c).1
                        > 60000000 then 60000000
                      else delayOfSample env (runSamplerCall env
                        (afterDraws 2 { m with currentStateVertexIndex := edge.dst }) c).1),
                afterDraws (2 + c.draws) { m with currentStateVertexIndex := edge.dst }))) := by
  rcases chooseEdge_valid env m EDGE_TYPE_TRANSITION m.currentStateVertexIndex hvalid hcur
    with ht | ⟨e, edge, hedge, hsrc, hty, ht⟩
  · left
    exact ⟨ht, next_of_transition_failure env m delay _ hrun ht⟩
  · right
    refine ⟨e, edge, hedge, hsrc, hty, ht, ?_⟩
    have hvalid1 : _tgenmarkovmodel_validateEdges
        { afterDraws 1 m with currentStateVertexIndex := edge.dst } = true := by
      rw [← hvalid]
      exact validateEdges_graph _ _ rfl
    have hdst : edge.dst < m.graph.vertices.length :=
      (endpoints_lt_of_validateEdges m hvalid e edge hedge).2
    rcases chooseEdge_valid env { afterDraws 1 m with currentStateVertexIndex := edge.dst }
        EDGE_TYPE_EMISSION edge.dst hvalid1 hdst
      with hem | ⟨ee, eedge, heedge, hesrc, hety, hem⟩
    · left
      have hem' : _tgenmarkovmodel_chooseEmission env
            { afterDraws 1 m with currentStateVertexIndex := edge.dst } edge.dst
          = some (none, afterDraws 2 { m with currentStateVertexIndex := edge.dst }) := hem
      exact ⟨hem', next_of_emission_failure env m delay e edge.dst _ _ hrun ht hem'⟩
    · right
      have hem' : _tgenmarkovmodel_chooseEmission env
            { afterDraws 1 m with currentStateVertexIndex := edge.dst } edge.dst
          = some (some (ee, eedge.dst),
              afterDraws 2 { m with currentStateVertexIndex := edge.dst }) := hem
      have heedge' : m.graph.edges[ee]? = some eedge := heedge
      have hcall := samplerCall_of_validateEdges m hvalid ee eedge heedge' hety
      refine ⟨ee, eedge, _, heedge', hesrc, hety, hem', hcall, rfl, ?_⟩
      rw [next_of_emission env m delay e edge.dst ee eedge.dst _ _ hrun ht hem']
      cases delay with
      | none =>
        dsimp only
        rw [vertexToObservation_graph
          (afterDraws 2 { m with currentStateVertexIndex := edge.dst }) m rfl]
      | some d0 =>
        dsimp only
        rw [generateDelay_eq_call,
          generateDelay_samplerCall_graph
            (afterDraws 2 { m with currentStateVertexIndex := edge.dst }) m rfl, hcall]
        simp only [Option.map, Option.bind]
        rw [runSamplerCall_snd, afterDraws_afterDraws,
          vertexToObservation_graph
            (afterDraws (2 + SamplerCall.draws
              (if Double.gt eedge.lognorm_sigma (Double.fin 0) ||
                  Double.gt eedge.lognorm_mu (Double.fin 0)
               then SamplerCall.logNormal eedge.lognorm_mu eedge.lognorm_sigma
               else SamplerCall.exponential eedge.exp_lambda))
              { m with currentStateVertexIndex := edge.dst }) m rfl]

/-! ## What `next` and `reset` preserve -/

theorem engineInvariant_current_lt (graph : igraph_t) (name : CStr) (seed : Nat)
    (m : TGenMarkovModel) (h : engineInvariant graph name seed m) :
    m.currentStateVertexIndex < m.graph.vertices.length := by
  obtain ⟨hg, _, _, _, _, hvalid, ⟨v, hv, _⟩, hcur⟩ := h
  rcases hcur with hcur | ⟨e, edge, hedge, _, hdst⟩
  · rw [hcur, hg]
    exact getElem?_lt_length _ _ _ hv
  · rw [← hdst]
    rw [← hg] at hedge
    exact (endpoints_lt_of_validateEdges m hvalid e edge hedge).2

theorem engineInvariant_step (graph : igraph_t) (name : CStr) (seed : Nat)
    (m : TGenMarkovModel) (h : engineInvariant graph name seed m) (k v : Nat)
    (hv : v = m.startVertexIndex ∨ ∃ (e : Nat) (edge : Edge), graph.edges[e]? = some edge ∧
      _tgenmarkovmodel_edgeTypeIsEqual edge.type EDGE_TYPE_TRANSITION = true ∧ edge.dst = v) :
    engineInvariant graph name seed (afterDraws k { m with currentStateVertexIndex := v }) := by
  obtain ⟨hg, hn, hs, hp, hf, hvalid, hstart, _⟩ := h
  refine ⟨hg, hn, hs, hp, hf, ?_, hstart, hv⟩
  rw [← hvalid]
  exact validateEdges_graph _ _ rfl

theorem next_invariant (env : Env) (graph : igraph_t) (name : CStr) (seed : Nat)
    (m : TGenMarkovModel) (h : engineInvariant graph name seed m) (delay : Option Nat)
    (obs : Observation) (d : Option Nat) (m' : TGenMarkovModel)
    (hnext : tgenmarkovmodel_getNextObservation env m delay = some (obs, d, m')) :
    engineInvariant graph name seed m' := by
  have hcur := engineInvariant_current_lt graph name seed m h
  have hkeep := h
  obtain ⟨hg, _, _, _, hf, hvalid, _, hcurrent⟩ := h
  rcases next_running env m delay hvalid hcur hf with ⟨_, hn⟩ | ⟨e, edge, hedge, _, hty, _, hrest⟩
  · rw [hn] at hnext
    simp only [Option.some.injEq, Prod.mk.injEq] at hnext
    rw [← hnext.2.2]
    exact engineInvariant_step graph name seed m hkeep 1 m.currentStateVertexIndex hcurrent
  · have hstep : ∀ k, engineInvariant graph name seed
        (afterDraws k { m with currentStateVertexIndex := edge.dst }) := fun k =>
      engineInvariant_step graph name seed m hkeep k edge.dst
        (Or.inr ⟨e, edge, hg ▸ hedge, hty, rfl⟩)
    rcases hrest with ⟨_, hn⟩ | ⟨ee, eedge, c, _, _, _, _, _, _, hn⟩
    · rw [hn] at hnext
      simp only [Option.some.injEq, Prod.mk.injEq] at hnext
      rw [← hnext.2.2]
      exact hstep 2
    · rw [hn] at hnext
      cases hobs : _tgenmarkovmodel_vertexToObservation m eedge.dst with
      | none =>
        rw [hobs] at hnext
        exact absurd hnext (by simp)
      | some o =>
        rw [hobs] at hnext
        cases delay with
        | none =>
          simp only [Option.map, Option.some.injEq, Prod.mk.injEq] at hnext
          rw [← hnext.2.2]
          exact hstep 2
        | some d0 =>
          simp only [Option.map, Option.some.injEq, Prod.mk.injEq] at hnext
          rw [← hnext.2.2]
          exact hstep _

theorem reset_invariant (graph : igraph_t) (name : CStr) (seed : Nat) (m : TGenMarkovModel)
    (h : engineInvariant graph name seed m) :
    engineInvariant graph name seed (tgenmarkovmodel_reset m) := by
  obtain ⟨hg, hn, hs, hp, _, hvalid, hstart, _⟩ := h
  refine ⟨hg, hn, hs, hp, rfl, ?_, hstart, Or.inl rfl⟩
  rw [← hvalid]
  exact validateEdges_graph _ _ rfl

theorem runCalls_invariant (env : Env) (graph : igraph_t) (name : CStr) (seed : Nat)
    (calls : List Call) (m : TGenMarkovModel) (h : engineInvariant graph name seed m)
    (outs : List Output) (mk : TGenMarkovModel)
    (hrun : runCalls env calls m = some (outs, mk)) :
    engineInvariant graph name seed mk := by
  induction calls generalizing m outs with
  | nil =>
    simp only [runCalls, Option.some.injEq, Prod.mk.injEq] at hrun
    rw [← hrun.2]
    exact h
  | cons c rest ih =>
    cases c with
    | next delay =>
      simp only [runCalls] at hrun
      split at hrun
      · exact absurd hrun (by simp)
      · rename_i obs d m1 hn
        split at hrun
        · exact absurd hrun (by simp)
        · rename_i outs1 m2 hr
          simp only [Option.some.injEq, Prod.mk.injEq] at hrun
          rw [hrun.2] at hr
          exact ih m1 (next_invariant env graph name seed m h delay obs d m1 hn) outs1 hr
    | reset =>
      simp only [runCalls] at hrun
      split at hrun
      · exact absurd hrun (by simp)
      · rename_i outs1 m2 hr
        simp only [Option.some.injEq, Prod.mk.injEq] at hrun
        rw [hrun.2] at hr
        exact ih _ (reset_invariant graph name seed m h) outs1 hr

/-- Every engine reached from a constructed one by `next` and `reset` calls
satisfies the invariant. -/
theorem reached_invariant (env : Env) (graph : igraph_t) (name : CStr) (seed : Nat)
    (m0 : TGenMarkovModel) (hnew : _tgenmarkovmodel_new graph name seed = some m0)
    (calls : List Call) (outs : List Output) (mk : TGenMarkovModel)
    (hrun : runCalls env calls m0 = some (outs, mk)) :
    engineInvariant graph name seed mk :=
  runCalls_invariant env graph name seed calls m0
    (new_some_invariant graph name seed m0 hnew).1 outs mk hrun

/-! ## The paths of `next`, read from the choosers' results -/

theorem next_transition_failure_path (env : Env) (m : TGenMarkovModel) (delay : Option Nat)
    (hvalid : _tgenmarkovmodel_validateEdges m = true)
    (hcur : m.currentStateVertexIndex < m.graph.vertices.length)
    (hrun : m.foundEndState = false) (m1 : TGenMarkovModel)
    (ht : _tgenmarkovmodel_chooseTransition env m m.currentStateVertexIndex = some (none, m1)) :
    m1 = afterDraws 1 m ∧
      tgenmarkovmodel_getNextObservation env m delay
        = some (OBSERVATION_END, delay, afterDraws 1 m) := by
  rcases next_running env m delay hvalid hcur hrun with ⟨ht', hn⟩ | ⟨e, edge, _, _, _, ht', _⟩
  · rw [ht] at ht'
    simp only [Option.some.injEq, Prod.mk.injEq, true_and] at ht'
    exact ⟨ht', hn⟩
  · rw [ht] at ht'
    simp at ht'

theorem next_transition_path (env : Env) (m : TGenMarkovModel)
    (hvalid : _tgenmarkovmodel_validateEdges m = true)
    (hcur : m.currentStateVertexIndex < m.graph.vertices.length)
    (e v : Nat) (m1 : TGenMarkovModel)
    (ht : _tgenmarkovmodel_chooseTransition env m m.currentStateVertexIndex
      = some (some (e, v), m1)) :
    ∃ edge : Edge, m.graph.edges[e]? = some edge ∧ edge.src = m.currentStateVertexIndex ∧
      edge.dst = v ∧ _tgenmarkovmodel_edgeTypeIsEqual edge.type EDGE_TYPE_TRANSITION = true ∧
      m1 = afterDraws 1 m := by
  rcases chooseEdge_valid env m EDGE_TYPE_TRANSITION m.currentStateVertexIndex hvalid hcur
    with ht' | ⟨e', edge, hedge, hsrc, hty, ht'⟩
  · have ht'' : _tgenmarkovmodel_chooseTransition env m m.currentStateVertexIndex
        = some (none, afterDraws 1 m) := ht'
    rw [ht] at ht''
    simp at ht''
  · have ht'' : _tgenmarkovmodel_chooseTransition env m m.currentStateVertexIndex
        = some (some (e', edge.dst), afterDraws 1 m) := ht'
    rw [ht] at ht''
    simp only [Option.some.injEq, Prod.mk.injEq] at ht''
    obtain ⟨⟨h1, h2⟩, h3⟩ := ht''
    subst h1
    exact ⟨edge, hedge, hsrc, h2.symm, hty, h3⟩

theorem next_emission_failure_path (env : Env) (m : TGenMarkovModel) (delay : Option Nat)
    (hvalid : _tgenmarkovmodel_validateEdges m = true)
    (hcur : m.currentStateVertexIndex < m.graph.vertices.length)
    (hrun : m.foundEndState = false) (e v : Nat) (m1 m2 : TGenMarkovModel)
    (ht : _tgenmarkovmodel_chooseTransition env m m.currentStateVertexIndex
      = some (some (e, v), m1))
    (hem : _tgenmarkovmodel_chooseEmission env { m1 with currentStateVertexIndex := v } v
      = some (none, m2)) :
    m2 = afterDraws 2 { m with currentStateVertexIndex := v } ∧
      tgenmarkovmodel_getNextObservation env m delay
        = some (OBSERVATION_END, delay, afterDraws 2 { m with currentStateVertexIndex := v }) := by
  obtain ⟨edge, hedge, _, hdst, _, hm1⟩ := next_transition_path env m hvalid hcur e v m1 ht
  subst hm1
  have hvalid1 : _tgenmarkovmodel_validateEdges
      { afterDraws 1 m with currentStateVertexIndex := v } = true := by
    rw [← hvalid]
    exact validateEdges_graph _ _ rfl
  have hv : v < m.graph.vertices.length := by
    rw [← hdst]
    exact (endpoints_lt_of_validateEdges m hvalid e edge hedge).2
  rcases chooseEdge_valid env { afterDraws 1 m with currentStateVertexIndex := v }
      EDGE_TYPE_EMISSION v hvalid1 hv with hem' | ⟨ee, eedge, _, _, _, hem'⟩
  · have hem'' : _tgenmarkovmodel_chooseEmission env
          { afterDraws 1 m with currentStateVertexIndex := v } v
        = some (none, afterDraws 2 { m with currentStateVertexIndex := v }) := hem'
    rw [hem] at hem''
    simp only [Option.some.injEq, Prod.mk.injEq, true_and] at hem''
    refine ⟨hem'', ?_⟩
    rw [← hem'']
    exact next_of_emission_failure env m delay e v _ _ hrun ht hem
  · have hem'' : _tgenmarkovmodel_chooseEmission env
          { afterDraws 1 m with currentStateVertexIndex := v } v
        = some (some (ee, eedge.dst), afterDraws 2 { m with currentStateVertexIndex := v }) :=
      hem'
    rw [hem] at hem''
    simp at hem''

/-- The emission path of `next`: both choosers returned TRUE.  The edges they
chose are a transition edge from the current vertex and an emission edge from
its destination; three uniforms were drawn for them; the sampler call is the
one the emission edge's attributes select; the call returns what
`_tgenmarkovmodel_vertexToObservation` yields for the emission's destination. -/
theorem next_emission_path (env : Env) (m : TGenMarkovModel) (delay : Option Nat)
    (hvalid : _tgenmarkovmodel_validateEdges m = true)
    (hcur : m.currentStateVertexIndex < m.graph.vertices.length)
    (hrun : m.foundEndState = false) (e v ee ov : Nat) (m1 m2 : TGenMarkovModel)
    (ht : _tgenmarkovmodel_chooseTransition env m m.currentStateVertexIndex
      = some (some (e, v), m1))
    (hem : _tgenmarkovmodel_chooseEmission env { m1 with currentStateVertexIndex := v } v
      = some (some (ee, ov), m2)) :
    ∃ eedge : Edge, m.graph.edges[ee]? = some eedge ∧ eedge.src = v ∧ eedge.dst = ov ∧
      _tgenmarkovmodel_edgeTypeIsEqual eedge.type EDGE_TYPE_EMISSION = true ∧
      m2 = afterDraws 2 { m with currentStateVertexIndex := v } ∧
      generateDelay_samplerCall m2 ee = some
        (if Double.gt eedge.lognorm_sigma (Double.fin 0) ||
            Double.gt eedge.lognorm_mu (Double.fin 0)
         then SamplerCall.logNormal eedge.lognorm_mu eedge.lognorm_sigma
         else SamplerCall.exponential eedge.exp_lambda) ∧
      tgenmarkovmodel_getNextObservation env m delay =
        (_tgenmarkovmodel_vertexToObservation m ov).map (fun obs =>
          match delay with
          | none => (obs, none, m2)
          | some _ =>
            (obs,
             some (if delayOfSample env (runSamplerCall env m2
                     (if Double.gt eedge.lognorm_sigma (Double.fin 0) ||
                         Double.gt eedge.lognorm_mu (Double.fin 0)
                      then SamplerCall.logNormal eedge.lognorm_mu eedge.lognorm_sigma
                      else SamplerCall.exponential eedge.exp_lambda)).1 > 60000000
                   then 60000000
                   else delayOfSample env (runSamplerCall env m2
                     (if Double.gt eedge.lognorm_sigma (Double.fin 0) ||
                         Double.gt eedge.lognorm_mu (Double.fin 0)
                      then SamplerCall.logNormal eedge.lognorm_mu eedge.lognorm_sigma
                      else SamplerCall.exponential eedge.exp_lambda)).1),
             afterDraws
               (SamplerCall.draws
                 (if Double.gt eedge.lognorm_sigma (Double.fin 0) ||
                     Double.gt eedge.lognorm_mu (Double.fin 0)
                  then SamplerCall.logNormal eedge.lognorm_mu eedge.lognorm_sigma
                  else SamplerCall.exponential eedge.exp_lambda)) m2)) := by
  obtain ⟨edge, hedge, _, hdst, _, hm1⟩ := next_transition_path env m hvalid hcur e v m1 ht
  subst hm1
  have hvalid1 : _tgenmarkovmodel_validateEdges
      { afterDraws 1 m with currentStateVertexIndex := v } = true := by
    rw [← hvalid]
    exact validateEdges_graph _ _ rfl
  have hv : v < m.graph.vertices.length := by
    rw [← hdst]
    exact (endpoints_lt_of_validateEdges m hvalid e edge hedge).2
  rcases chooseEdge_valid env { afterDraws 1 m with currentStateVertexIndex := v }
      EDGE_TYPE_EMISSION v hvalid1 hv with hem' | ⟨ee', eedge, heedge, hesrc, hety, hem'⟩
  · have hem'' : _tgenmarkovmodel_chooseEmission env
          { afterDraws 1 m with currentStateVertexIndex := v } v
        = some (none, afterDraws 2 { m with currentStateVertexIndex := v }) := hem'
    rw [hem] at hem''
    simp at hem''
  · have hem'' : _tgenmarkovmodel_chooseEmission env
          { afterDraws 1 m with currentStateVertexIndex := v } v
        = some (some (ee', eedge.dst), afterDraws 2 { m with currentStateVertexIndex := v }) :=
      hem'
    rw [hem] at hem''
    simp only [Option.some.injEq, Prod.mk.injEq] at hem''
    obtain ⟨⟨h1, h2⟩, h3⟩ := hem''
    subst h1 h3
    have heedge' : m.graph.edges[ee]? = some eedge := heedge
    have hcall := samplerCall_of_validateEdges m hvalid ee eedge heedge' hety
    have hcall2 : generateDelay_samplerCall
        (afterDraws 2 { m with currentStateVertexIndex := v }) ee = _ :=
      (generateDelay_samplerCall_graph
        (afterDraws 2 { m with currentStateVertexIndex := v }) m rfl ee).trans hcall
    refine ⟨eedge, heedge', hesrc, h2.symm, hety, rfl, hcall2, ?_⟩
    rw [next_of_emission env m delay e v ee ov _ _ hrun ht hem]
    cases delay with
    | none =>
      dsimp only
      rw [vertexToObservation_graph
        (afterDraws 2 { m with currentStateVertexIndex := v }) m rfl]
    | some d0 =>
      dsimp only
      rw [generateDelay_eq_call, hcall2]
      simp only [Option.map, Option.bind]
      rw [runSamplerCall_snd,
        vertexToObservation_graph
          (afterDraws (SamplerCall.draws
            (if Double.gt eedge.lognorm_sigma (Double.fin 0) ||
                Double.gt eedge.lognorm_mu (Double.fin 0)
             then SamplerCall.logNormal eedge.lognorm_mu eedge.lognorm_sigma
             else SamplerCall.exponential eedge.exp_lambda))
            (afterDraws 2 { m with currentStateVertexIndex := v })) m rfl]

/-- What `_tgenmarkovmodel_vertexToObservation` returns once its assertions pass. -/
theorem vertexToObservation_eq (m : TGenMarkovModel) (v : Nat)
    (hcol : m.graph.hasVertexType = true)
    (hty : _tgenmarkovmodel_vertexTypeIsEqual
      (igraph_cattribute_VAS m.graph VERTEX_ATTR_TYPE v) VERTEX_TYPE_OBSERVATION = true)
    (hname : _tgenmarkovmodel_findVertexAttributeString m v VERTEX_ATTR_NAME
      = some (igraph_cattribute_VAS m.graph VERTEX_ATTR_NAME v)) :
    _tgenmarkovmodel_vertexToObservation m v
      = some (observationOfName (igraph_cattribute_VAS m.graph VERTEX_ATTR_NAME v)) := by
  have hne : igraph_cattribute_VAS m.graph VERTEX_ATTR_TYPE v ≠ [] := by
    intro h
    rw [h] at hty
    revert hty
    decide
  have hfind : _tgenmarkovmodel_findVertexAttributeString m v VERTEX_ATTR_TYPE
      = some (igraph_cattribute_VAS m.graph VERTEX_ATTR_TYPE v) := by
    unfold _tgenmarkovmodel_findVertexAttributeString igraph_cattribute_has_vertex_attr
    simp only [hcol, ↓reduceIte]
    cases hx : igraph_cattribute_VAS m.graph VERTEX_ATTR_TYPE v with
    | nil => exact absurd hx hne
    | cons c cs => rfl
  unfold _tgenmarkovmodel_vertexToObservation observationOfName
  rw [hfind]
  simp only [hty, Bool.true_eq_false, ↓reduceIte, hname]
  split
  · rfl
  · split
    · rfl
    · split <;> rfl

theorem vertexToObservation_none_iff (m : TGenMarkovModel) (v : Nat)
    (hcol : m.graph.hasVertexType = true)
    (hname : _tgenmarkovmodel_findVertexAttributeString m v VERTEX_ATTR_NAME
      = some (igraph_cattribute_VAS m.graph VERTEX_ATTR_NAME v)) :
    _tgenmarkovmodel_vertexToObservation m v = none ↔
      _tgenmarkovmodel_vertexTypeIsEqual
        (igraph_cattribute_VAS m.graph VERTEX_ATTR_TYPE v) VERTEX_TYPE_OBSERVATION = false := by
  constructor
  · intro h
    rw [Bool.eq_false_iff]
    intro hty
    rw [vertexToObservation_eq m v hcol hty hname] at h
    exact absurd h (by simp)
  · intro hty
    unfold _tgenmarkovmodel_vertexToObservation _tgenmarkovmodel_findVertexAttributeString
      igraph_cattribute_has_vertex_attr
    simp only [hcol, ↓reduceIte]
    cases hx : igraph_cattribute_VAS m.graph VERTEX_ATTR_TYPE v with
    | nil => rfl
    | cons c cs =>
      rw [hx] at hty
      simp only [hty, ↓reduceIte]

/-- On a Running engine whose graph passed the edge pass, `next` aborts exactly
when both choosers succeed and the assertions of
`_tgenmarkovmodel_vertexToObservation` fail on the emission's destination. -/
theorem next_aborts_iff (env : Env) (m : TGenMarkovModel) (delay : Option Nat)
    (hvalid : _tgenmarkovmodel_validateEdges m = true)
    (hcur : m.currentStateVertexIndex < m.graph.vertices.length)
    (hrun : m.foundEndState = false) :
    tgenmarkovmodel_getNextObservation env m delay = none ↔
      ∃ (e v : Nat) (m1 : TGenMarkovModel) (ee ov : Nat) (m2 : TGenMarkovModel),
        _tgenmarkovmodel_chooseTransition env m m.currentStateVertexIndex
          = some (some (e, v), m1) ∧
        _tgenmarkovmodel_chooseEmission env { m1 with currentStateVertexIndex := v } v
          = some (some (ee, ov), m2) ∧
        _tgenmarkovmodel_vertexToObservation m ov = none := by
  constructor
  · intro h
    rcases next_running env m delay hvalid hcur hrun with ⟨_, hn⟩ | ⟨e, edge, _, _, _, ht, hrest⟩
    · rw [hn] at h
      exact absurd h (by simp)
    · rcases hrest with ⟨_, hn⟩ | ⟨ee, eedge, c, _, _, _, hem, _, _, hn⟩
      · rw [hn] at h
        exact absurd h (by simp)
      · refine ⟨e, edge.dst, _, ee, eedge.dst, _, ht, hem, ?_⟩
        rw [hn] at h
        cases hobs : _tgenmarkovmodel_vertexToObservation m eedge.dst with
        | none => rfl
        | some o =>
          rw [hobs] at h
          exact absurd h (by simp)
  · rintro ⟨e, v, m1, ee, ov, m2, ht, hem, hobs⟩
    obtain ⟨_, _, _, _, _, _, _, hnext⟩ :=
      next_emission_path env m delay hvalid hcur hrun e v ee ov m1 m2 ht hem
    rw [hnext, hobs]
    rfl

/-- The conversion that ends `_tgenmarkovmodel_generateDelay`, on a finite
non-negative sample other than `2^64`: truncation, saturated at `UINT64_MAX`;
and the delay `next` makes of it: capped at 60,000,000. -/
theorem delayOfSample_fin (env : Env) (q : ℚ) (h0 : 0 ≤ q) (hne : q ≠ 2 ^ 64) :
    delayOfSample env (Double.fin q) = min ⌊q⌋.toNat UINT64_MAX ∧
    (if delayOfSample env (Double.fin q) > 60000000 then 60000000
      else delayOfSample env (Double.fin q)) = min ⌊q⌋.toNat 60000000 := by
  have hfloor0 : 0 ≤ ⌊q⌋ := Int.floor_nonneg.mpr h0
  have hmain : delayOfSample env (Double.fin q) = min ⌊q⌋.toNat UINT64_MAX := by
    unfold delayOfSample UINT64_MAX_double UINT64_MAX
    by_cases h : (2 : ℚ) ^ 64 < q
    · have hgt : Double.gt (Double.fin q) (Double.fin (2 ^ 64)) = true := by
        simp [Double.gt, h]
      rw [hgt]
      simp only [↓reduceIte]
      have hle : (2 ^ 64 : ℤ) ≤ ⌊q⌋ := by
        rw [Int.le_floor]
        have : (((2 ^ 64 : ℤ)) : ℚ) = (2 : ℚ) ^ 64 := by norm_num
        rw [this]
        exact le_of_lt h
      omega
    · have hlt : q < 2 ^ 64 := lt_of_le_of_ne (not_lt.mp h) hne
      have hgt : Double.gt (Double.fin q) (Double.fin (2 ^ 64)) = false := by
        simp [Double.gt, le_of_lt hlt]
      rw [hgt]
      simp only [Bool.false_eq_true, ↓reduceIte]
      unfold castToUInt64
      have hc : -1 < q ∧ q < 2 ^ 64 := ⟨by linarith, hlt⟩
      simp only [hc, and_self, ↓reduceIte]
      have hfl : ⌊q⌋ < (2 ^ 64 : ℤ) := by
        rw [Int.floor_lt]
        have : (((2 ^ 64 : ℤ)) : ℚ) = (2 : ℚ) ^ 64 := by norm_num
        rw [this]
        exact hlt
      omega
  refine ⟨hmain, ?_⟩
  rw [hmain]
  have hU : UINT64_MAX = 18446744073709551615 := by
    unfold UINT64_MAX
    norm_num
  rw [hU]
  split <;> omega

/-! ## Delay and observation of an emission -/

theorem accepted_vertex_columns (graph : igraph_t) (name : CStr) (seed : Nat)
    (m : TGenMarkovModel) (h : _tgenmarkovmodel_new graph name seed = some m) (i : Nat)
    (hi : i < graph.vertices.length) :
    graph.hasVertexName = true ∧ graph.hasVertexType = true ∧
      igraph_cattribute_VAS graph VERTEX_ATTR_NAME i ≠ [] := by
  have hc := new_some_checks graph name seed m h i hi
  rw [checkVertexAttributes_iff] at hc
  exact ⟨hc.1, hc.2.1, hc.2.2.1⟩

/-- C21, counterexample. The graph `start -t-> s1`, `s1 -e-> $` whose emission
has `lognorm_mu = 0`, `lognorm_sigma = 0`, `exp_lambda = 0` is accepted; the
first `next` chooses that emission edge and `_tgenmarkovmodel_generateDelay`
calls the exponential sampler with `lambda = 0`.  The division yields plus
infinity and the call returns the capped delay 60,000,000. -/
theorem C21_counterexample_zero_lambda :
    _tgenmarkovmodel_new graphZeroLambda "m".toList 7 = some (engineOn graphZeroLambda) ∧
    _tgenmarkovmodel_chooseTransition sampleEnv (engineOn graphZeroLambda) 0
      = some (some (0, 1), afterDraws 1 (engineOn graphZeroLambda)) ∧
    _tgenmarkovmodel_chooseEmission sampleEnv
        { afterDraws 1 (engineOn graphZeroLambda) with currentStateVertexIndex := 1 } 1
      = some (some (1, 2),
          afterDraws 2 { engineOn graphZeroLambda with currentStateVertexIndex := 1 }) ∧
    generateDelay_samplerCall
        (afterDraws 2 { engineOn graphZeroLambda with currentStateVertexIndex := 1 }) 1
      = some (SamplerCall.exponential (Double.fin 0)) ∧
    tgenmarkovmodel_getNextObservation sampleEnv (engineOn graphZeroLambda) (some 0)
      = some (OBSERVATION_STREAM, some 60000000,
          afterDraws 3 { engineOn graphZeroLambda with currentStateVertexIndex := 1 }) := by
  decide!

/-- C21, as amended. For every engine built from an accepted graph and every
sequence of `next`/`reset` calls, when `next` chooses an emission edge the
assertions of `_tgenmarkovmodel_generateDelay` hold and it calls one sampler;
the exponential sampler is called only with the chosen edge's `exp_lambda`,
which is not NaN and is `>= 0`, and only when the edge has `lognorm_mu = 0`
and `lognorm_sigma = 0`.  It is called with `lambda = 0` exactly when the
chosen edge has `lognorm_mu = 0`, `lognorm_sigma = 0` and `exp_lambda = 0`. -/
theorem C21_exponential_lambda (env : Env) (graph : igraph_t) (name : CStr) (seed : Nat)
    (m0 : TGenMarkovModel) (hnew : _tgenmarkovmodel_new graph name seed = some m0)
    (calls : List Call) (outs : List Output) (mmodel : TGenMarkovModel)
    (hreach : runCalls env calls m0 = some (outs, mmodel))
    (e v ee ov : Nat) (m1 m2 : TGenMarkovModel)
    (ht : _tgenmarkovmodel_chooseTransition env mmodel mmodel.currentStateVertexIndex
      = some (some (e, v), m1))
    (hem : _tgenmarkovmodel_chooseEmission env { m1 with currentStateVertexIndex := v } v
      = some (some (ee, ov), m2)) :
    ∃ (eedge : Edge) (c : SamplerCall), graph.edges[ee]? = some eedge ∧
      generateDelay_samplerCall m2 ee = some c ∧
      _tgenmarkovmodel_generateDelay env m2 ee
        = some (delayOfSample env (runSamplerCall env m2 c).1, (runSamplerCall env m2 c).2) ∧
      (∀ lam, c = SamplerCall.exponential lam →
        lam = eedge.exp_lambda ∧ lam ≠ Double.nan ∧ Double.ge lam (Double.fin 0) = true ∧
        eedge.lognorm_mu = Double.fin 0 ∧ eedge.lognorm_sigma = Double.fin 0) ∧
      (c = SamplerCall.exponential (Double.fin 0) ↔
        eedge.lognorm_mu = Double.fin 0 ∧ eedge.lognorm_sigma = Double.fin 0 ∧
          eedge.exp_lambda = Double.fin 0) := by
  have hinv := reached_invariant env graph name seed m0 hnew calls outs mmodel hreach
  have hcur := engineInvariant_current_lt graph name seed mmodel hinv
  obtain ⟨hg, _, _, _, hf, hvalid, _, _⟩ := hinv
  obtain ⟨eedge, heedge, _, _, hety, hm2, hcall, _⟩ :=
    next_emission_path env mmodel none hvalid hcur hf e v ee ov m1 m2 ht hem
  obtain ⟨_, _, hmu, hsigma, hlam⟩ := emission_of_validateEdges mmodel hvalid ee eedge heedge hety
  obtain ⟨_, hmu', hsigma', hlam'⟩ := EAN_weight_of_getElem mmodel.graph ee eedge heedge
  have hmu0 := (findDouble_of_nonNegative mmodel ee _ hmu).2
  have hsigma0 := (findDouble_of_nonNegative mmodel ee _ hsigma).2
  have hlam0 := (findDouble_of_nonNegative mmodel ee _ hlam).2
  rw [hmu'] at hmu0
  rw [hsigma'] at hsigma0
  rw [hlam'] at hlam0
  refine ⟨eedge, _, hg ▸ heedge, hcall, ?_, ?_, ?_⟩
  · rw [generateDelay_eq_call, hcall]
    rfl
  · intro lam hc
    cases hb : (Double.gt eedge.lognorm_sigma (Double.fin 0) ||
        Double.gt eedge.lognorm_mu (Double.fin 0)) with
    | true =>
      rw [hb] at hc
      simp at hc
    | false =>
      rw [hb] at hc
      simp only [Bool.false_eq_true, ↓reduceIte, SamplerCall.exponential.injEq] at hc
      rw [Bool.or_eq_false_iff] at hb
      subst hc
      exact ⟨rfl, ge_zero_ne_nan _ hlam0, hlam0, gt_zero_false_of_ge _ hmu0 hb.2,
        gt_zero_false_of_ge _ hsigma0 hb.1⟩
  · cases hb : (Double.gt eedge.lognorm_sigma (Double.fin 0) ||
        Double.gt eedge.lognorm_mu (Double.fin 0)) with
    | true =>
      simp only [↓reduceIte]
      constructor
      · intro hc
        simp at hc
      · rintro ⟨h1, h2, _⟩
        rw [h1, h2, gt_zero_of_fin_zero] at hb
        simp at hb
    | false =>
      simp only [Bool.false_eq_true, ↓reduceIte, SamplerCall.exponential.injEq]
      rw [Bool.or_eq_false_iff] at hb
      constructor
      · intro hc
        exact ⟨gt_zero_false_of_ge _ hmu0 hb.2, gt_zero_false_of_ge _ hsigma0 hb.1, hc⟩
      · rintro ⟨_, _, h3⟩
        exact h3

/-- C21, witness: the first `next` on `graphEndThenPacket` chooses the emission
edge `s1 -e-> F`, whose `exp_lambda` is 1. -/
theorem C21_exponential_lambda_witness :
    ∃ (eedge : Edge) (c : SamplerCall), graphEndThenPacket.edges[2]? = some eedge ∧
      generateDelay_samplerCall
        (afterDraws 2 { engineOn graphEndThenPacket with currentStateVertexIndex := 1 }) 2
        = some c ∧
      _tgenmarkovmodel_generateDelay sampleEnv
        (afterDraws 2 { engineOn graphEndThenPacket with currentStateVertexIndex := 1 }) 2
        = some (delayOfSample sampleEnv (runSamplerCall sampleEnv
              (afterDraws 2 { engineOn graphEndThenPacket with currentStateVertexIndex := 1 })
              c).1,
            (runSamplerCall sampleEnv
              (afterDraws 2 { engineOn graphEndThenPacket with currentStateVertexIndex := 1 })
              c).2) ∧
      (∀ lam, c = SamplerCall.exponential lam →
        lam = eedge.exp_lambda ∧ lam ≠ Double.nan ∧ Double.ge lam (Double.fin 0) = true ∧
        eedge.lognorm_mu = Double.fin 0 ∧ eedge.lognorm_sigma = Double.fin 0) ∧
      (c = SamplerCall.exponential (Double.fin 0) ↔
        eedge.lognorm_mu = Double.fin 0 ∧ eedge.lognorm_sigma = Double.fin 0 ∧
          eedge.exp_lambda = Double.fin 0) := by
  have hnew : _tgenmarkovmodel_new graphEndThenPacket "m".toList 7
      = some (engineOn graphEndThenPacket) := by decide!
  have ht : _tgenmarkovmodel_chooseTransition sampleEnv (engineOn graphEndThenPacket)
      (engineOn graphEndThenPacket).currentStateVertexIndex
      = some (some (0, 1), afterDraws 1 (engineOn graphEndThenPacket)) := by decide!
  have hem : _tgenmarkovmodel_chooseEmission sampleEnv
      { afterDraws 1 (engineOn graphEndThenPacket) with currentStateVertexIndex := 1 } 1
      = some (some (2, 3),
          afterDraws 2 { engineOn graphEndThenPacket with currentStateVertexIndex := 1 }) := by
    decide!
  exact C21_exponential_lambda sampleEnv graphEndThenPacket "m".toList 7
    (engineOn graphEndThenPacket) hnew [] [] (engineOn graphEndThenPacket) rfl
    0 1 2 3 _ _ ht hem

/-- C22, failing input. The graph `start -t-> s1`, `s1 -e-> $` whose emission is
exponential with rate `1.386 / 2^64` is accepted.  With `-log u = 1.386` the
sample is `2^64` exactly; the comparison `generatedValue > UINT64_MAX`, made
in `gdouble` where `UINT64_MAX` is `2^64`, is false, so the sample is not
saturated but cast, which C leaves undefined for this value: on a platform
whose cast yields 0 the call returns the delay 0, where truncation saturated at
`2^64 - 1` and capped gives 60,000,000.  For every other finite non-negative
sample the conversion is truncation saturated at `2^64 - 1`, and the delay
`next` makes of it is the minimum of the truncated sample and 60,000,000. -/
theorem C22_sample_two_pow_64_not_saturated :
    _tgenmarkovmodel_new graphBoundarySample "m".toList 7
      = some (engineOn graphBoundarySample) ∧
    generateDelay_samplerCall
        (afterDraws 2 { engineOn graphBoundarySample with currentStateVertexIndex := 1 }) 1
      = some (SamplerCall.exponential (Double.fin (1386 / 1000 / 2 ^ 64))) ∧
    (runSamplerCall sampleEnv
        (afterDraws 2 { engineOn graphBoundarySample with currentStateVertexIndex := 1 })
        (SamplerCall.exponential (Double.fin (1386 / 1000 / 2 ^ 64)))).1
      = Double.fin (2 ^ 64) ∧
    Double.gt (Double.fin (2 ^ 64)) UINT64_MAX_double = false ∧
    delayOfSample sampleEnv (Double.fin (2 ^ 64))
      = sampleEnv.castUndefined (Double.fin (2 ^ 64)) % 2 ^ 64 ∧
    tgenmarkovmodel_getNextObservation sampleEnv (engineOn graphBoundarySample) (some 5)
      = some (OBSERVATION_STREAM, some 0,
          afterDraws 3 { engineOn graphBoundarySample with currentStateVertexIndex := 1 }) ∧
    min (min (⌊(2 : ℚ) ^ 64⌋.toNat) UINT64_MAX) 60000000 = 60000000 ∧
    (∀ (env : Env) (q : ℚ), 0 ≤ q → q ≠ 2 ^ 64 →
      delayOfSample env (Double.fin q) = min ⌊q⌋.toNat UINT64_MAX ∧
      (if delayOfSample env (Double.fin q) > 60000000 then 60000000
        else delayOfSample env (Double.fin q)) = min ⌊q⌋.toNat 60000000) := by
  refine ⟨by decide!, by decide!, by decide!, by decide!, by decide!, by decide!, ?_,
    delayOfSample_fin⟩
  have h : ⌊(2 : ℚ) ^ 64⌋ = 2 ^ 64 := by
    have : ((2 : ℚ) ^ 64) = ((2 ^ 64 : ℤ) : ℚ) := by norm_num
    rw [this, Int.floor_intCast]
  rw [h]
  decide

/-- C23. For every engine built from an accepted graph and every sequence of
`next`/`reset` calls, when `next` chooses an emission edge whose destination
vertex has type `observation`, the call returns, and the observation it
returns is the one `_tgenmarkovmodel_vertexToObservation` reads off the name of
that destination: `-` gives packet-to-origin, `+` gives packet-to-server, `$`
gives stream and `F` gives end-of-session. -/
theorem C23_observation_of_destination_name (env : Env) (graph : igraph_t) (name : CStr)
    (seed : Nat) (m0 : TGenMarkovModel)
    (hnew : _tgenmarkovmodel_new graph name seed = some m0)
    (calls : List Call) (outs : List Output) (mmodel : TGenMarkovModel)
    (hreach : runCalls env calls m0 = some (outs, mmodel)) (delay : Option Nat)
    (e v ee ov : Nat) (m1 m2 : TGenMarkovModel)
    (ht : _tgenmarkovmodel_chooseTransition env mmodel mmodel.currentStateVertexIndex
      = some (some (e, v), m1))
    (hem : _tgenmarkovmodel_chooseEmission env { m1 with currentStateVertexIndex := v } v
      = some (some (ee, ov), m2))
    (hobs : _tgenmarkovmodel_vertexTypeIsEqual
      (igraph_cattribute_VAS graph VERTEX_ATTR_TYPE ov) VERTEX_TYPE_OBSERVATION = true) :
    (∃ d m', tgenmarkovmodel_getNextObservation env mmodel delay
      = some (observationOfName (igraph_cattribute_VAS graph VERTEX_ATTR_NAME ov), d, m')) ∧
    _tgenmarkovmodel_vertexToObservation mmodel ov
      = some (observationOfName (igraph_cattribute_VAS graph VERTEX_ATTR_NAME ov)) ∧
    (igraph_cattribute_VAS graph VERTEX_ATTR_NAME ov = "-".toList →
      observationOfName (igraph_cattribute_VAS graph VERTEX_ATTR_NAME ov)
        = OBSERVATION_PACKET_TO_ORIGIN) ∧
    (igraph_cattribute_VAS graph VERTEX_ATTR_NAME ov = "+".toList →
      observationOfName (igraph_cattribute_VAS graph VERTEX_ATTR_NAME ov)
        = OBSERVATION_PACKET_TO_SERVER) ∧
    (igraph_cattribute_VAS graph VERTEX_ATTR_NAME ov = "$".toList →
      observationOfName (igraph_cattribute_VAS graph VERTEX_ATTR_NAME ov)
        = OBSERVATION_STREAM) ∧
    (igraph_cattribute_VAS graph VERTEX_ATTR_NAME ov = "F".toList →
      observationOfName (igraph_cattribute_VAS graph VERTEX_ATTR_NAME ov)
        = OBSERVATION_END) := by
  have hinv := reached_invariant env graph name seed m0 hnew calls outs mmodel hreach
  have hcur := engineInvariant_current_lt graph name seed mmodel hinv
  obtain ⟨hg, _, _, _, hf, hvalid, _, _⟩ := hinv
  obtain ⟨eedge, heedge, _, hdst, _, _, _, hnext⟩ :=
    next_emission_path env mmodel delay hvalid hcur hf e v ee ov m1 m2 ht hem
  have hov : ov < graph.vertices.length := by
    rw [← hdst, ← hg]
    exact (endpoints_lt_of_validateEdges mmodel hvalid ee eedge heedge).2
  obtain ⟨hncol, htcol, hne⟩ := accepted_vertex_columns graph name seed m0 hnew ov hov
  have hname : _tgenmarkovmodel_findVertexAttributeString mmodel ov VERTEX_ATTR_NAME
      = some (igraph_cattribute_VAS mmodel.graph VERTEX_ATTR_NAME ov) := by
    rw [findVertexAttributeString_name_eq_some, hg]
    exact ⟨hncol, rfl, hne⟩
  have hto := vertexToObservation_eq mmodel ov (by rw [hg]; exact htcol)
    (by rw [hg]; exact hobs) hname
  rw [hg] at hto
  refine ⟨?_, hto, ?_, ?_, ?_, ?_⟩
  · rw [hnext, hto]
    cases delay with
    | none => exact ⟨_, _, rfl⟩
    | some d0 => exact ⟨_, _, rfl⟩
  · intro h
    rw [h]
    decide
  · intro h
    rw [h]
    decide
  · intro h
    rw [h]
    decide
  · intro h
    rw [h]
    decide

/-- C23, witness: the first `next` on `graphEndThenPacket` chooses the emission
edge to the vertex named `F` and returns end-of-session. -/
theorem C23_observation_of_destination_name_witness :
    (∃ d m', tgenmarkovmodel_getNextObservation sampleEnv (engineOn graphEndThenPacket) (some 0)
      = some (observationOfName (igraph_cattribute_VAS graphEndThenPacket VERTEX_ATTR_NAME 3),
          d, m')) ∧
    _tgenmarkovmodel_vertexToObservation (engineOn graphEndThenPacket) 3
      = some (observationOfName (igraph_cattribute_VAS graphEndThenPacket VERTEX_ATTR_NAME 3)) ∧
    (igraph_cattribute_VAS graphEndThenPacket VERTEX_ATTR_NAME 3 = "-".toList →
      observationOfName (igraph_cattribute_VAS graphEndThenPacket VERTEX_ATTR_NAME 3)
        = OBSERVATION_PACKET_TO_ORIGIN) ∧
    (igraph_cattribute_VAS graphEndThenPacket VERTEX_ATTR_NAME 3 = "+".toList →
      observationOfName (igraph_cattribute_VAS graphEndThenPacket VERTEX_ATTR_NAME 3)
        = OBSERVATION_PACKET_TO_SERVER) ∧
    (igraph_cattribute_VAS graphEndThenPacket VERTEX_ATTR_NAME 3 = "$".toList →
      observationOfName (igraph_cattribute_VAS graphEndThenPacket VERTEX_ATTR_NAME 3)
        = OBSERVATION_STREAM) ∧
    (igraph_cattribute_VAS graphEndThenPacket VERTEX_ATTR_NAME 3 = "F".toList →
      observationOfName (igraph_cattribute_VAS graphEndThenPacket VERTEX_ATTR_NAME 3)
        = OBSERVATION_END) := by
  have hnew : _tgenmarkovmodel_new graphEndThenPacket "m".toList 7
      = some (engineOn graphEndThenPacket) := by decide!
  have ht : _tgenmarkovmodel_chooseTransition sampleEnv (engineOn graphEndThenPacket)
      (engineOn graphEndThenPacket).currentStateVertexIndex
      = some (some (0, 1), afterDraws 1 (engineOn graphEndThenPacket)) := by decide!
  have hem : _tgenmarkovmodel_chooseEmission sampleEnv
      { afterDraws 1 (engineOn graphEndThenPacket) with currentStateVertexIndex := 1 } 1
      = some (some (2, 3),
          afterDraws 2 { engineOn graphEndThenPacket with currentStateVertexIndex := 1 }) := by
    decide!
  exact C23_observation_of_destination_name sampleEnv graphEndThenPacket "m".toList 7
    (engineOn graphEndThenPacket) hnew [] [] (engineOn graphEndThenPacket) rfl (some 0)
    0 1 2 3 _ _ ht hem (by decide)

/-! ## Accessors, the start vertex and the current vertex -/

/-- C24, counterexample. `graphEndThenPacket` is accepted and its vertices carry
the attribute `id`; after `tgenmarkovmodel_toGraphmlString` the engine's graph
no longer has it: the call changed the engine's graph. -/
theorem C24_counterexample_serializer_removes_id :
    _tgenmarkovmodel_new graphEndThenPacket "m".toList 7
      = some (engineOn graphEndThenPacket) ∧
    (engineOn graphEndThenPacket).graph.hasVertexId = true ∧
    (tgenmarkovmodel_toGraphmlString sampleWriter (engineOn graphEndThenPacket)).1
      = some "<graphml/>".toList ∧
    (tgenmarkovmodel_toGraphmlString sampleWriter (engineOn graphEndThenPacket)).2.graph.hasVertexId
      = false ∧
    (tgenmarkovmodel_toGraphmlString sampleWriter (engineOn graphEndThenPacket)).2.graph
      ≠ (engineOn graphEndThenPacket).graph := by
  decide!

/-- C24, as amended. After any sequence of `next`/`reset` calls on an engine
built from an accepted graph, `tgenmarkovmodel_getSeed` returns the seed and
`tgenmarkovmodel_getName` the name given at construction (both only read the
engine).  `tgenmarkovmodel_toGraphmlString` leaves the engine as it is when
the stream cannot be opened and otherwise removes the vertex attribute `id`
from the engine's graph; it changes nothing else: vertices with their `name`
and `type`, edges with their attributes, the other attribute columns, start
vertex, current vertex, terminated flag, PRNG, seed and name are the same, and
an engine whose graph has no `id` attribute is unchanged. -/
theorem C24_accessors (env : Env) (graph : igraph_t) (name : CStr) (seed : Nat)
    (m0 : TGenMarkovModel) (hnew : _tgenmarkovmodel_new graph name seed = some m0)
    (calls : List Call) (outs : List Output) (mmodel : TGenMarkovModel)
    (hreach : runCalls env calls m0 = some (outs, mmodel)) (w : GraphmlWriter) :
    tgenmarkovmodel_getSeed mmodel = seed ∧
    tgenmarkovmodel_getName mmodel = name ∧
    ((tgenmarkovmodel_toGraphmlString w mmodel).2 = mmodel ∨
      (tgenmarkovmodel_toGraphmlString w mmodel).2
        = { mmodel with graph := { mmodel.graph with hasVertexId := false } }) ∧
    (w.open_memstream = false → (tgenmarkovmodel_toGraphmlString w mmodel).2 = mmodel) ∧
    (w.open_memstream = true →
      (tgenmarkovmodel_toGraphmlString w mmodel).2.graph.hasVertexId = false) ∧
    (mmodel.graph.hasVertexId = false → (tgenmarkovmodel_toGraphmlString w mmodel).2 = mmodel) ∧
    (tgenmarkovmodel_toGraphmlString w mmodel).2.graph.vertices = mmodel.graph.vertices ∧
    (tgenmarkovmodel_toGraphmlString w mmodel).2.graph.edges = mmodel.graph.edges ∧
    (∀ a, igraph_cattribute_has_vertex_attr (tgenmarkovmodel_toGraphmlString w mmodel).2.graph a
      = igraph_cattribute_has_vertex_attr mmodel.graph a) ∧
    (∀ a, igraph_cattribute_has_edge_attr (tgenmarkovmodel_toGraphmlString w mmodel).2.graph a
      = igraph_cattribute_has_edge_attr mmodel.graph a) ∧
    (tgenmarkovmodel_toGraphmlString w mmodel).2.startVertexIndex = mmodel.startVertexIndex ∧
    (tgenmarkovmodel_toGraphmlString w mmodel).2.currentStateVertexIndex
      = mmodel.currentStateVertexIndex ∧
    (tgenmarkovmodel_toGraphmlString w mmodel).2.foundEndState = mmodel.foundEndState ∧
    (tgenmarkovmodel_toGraphmlString w mmodel).2.prng = mmodel.prng ∧
    (tgenmarkovmodel_toGraphmlString w mmodel).2.prngSeed = mmodel.prngSeed ∧
    (tgenmarkovmodel_toGraphmlString w mmodel).2.name = mmodel.name := by
  have hinv := reached_invariant env graph name seed m0 hnew calls outs mmodel hreach
  obtain ⟨_, hn, hs, _, _, _, _, _⟩ := hinv
  have hform : (tgenmarkovmodel_toGraphmlString w mmodel).2
      = if w.open_memstream = false then mmodel
        else { mmodel with graph := { mmodel.graph with hasVertexId := false } } := by
    unfold tgenmarkovmodel_toGraphmlString igraph_cattribute_remove_v_id
    cases w.open_memstream with
    | false => rfl
    | true =>
      simp only [Bool.true_eq_false, ↓reduceIte]
      split
      · rfl
      · split <;> rfl
  refine ⟨hs, hn, ?_, ?_, ?_, ?_, ?_, ?_, ?_, ?_, ?_, ?_, ?_, ?_, ?_, ?_⟩
  · rw [hform]
    cases w.open_memstream with
    | false => exact Or.inl rfl
    | true => exact Or.inr rfl
  · intro h
    rw [hform, h]
    rfl
  · intro h
    rw [hform, h]
    rfl
  · intro h
    rw [hform]
    cases w.open_memstream with
    | false => rfl
    | true =>
      simp only [Bool.true_eq_false, ↓reduceIte]
      obtain ⟨rc, prng, ps, nm, g, sv, cv, fe, mg⟩ := mmodel
      obtain ⟨hid, h1, h2, h3, h4, h5, h6, h7, vs, es⟩ := g
      simp only at h
      subst h
      rfl
  all_goals
    rw [hform]
    cases w.open_memstream with
    | false => first | rfl | (intro a; rfl)
    | true => first | rfl | (intro a; cases a <;> rfl)

/-- C24, witness: the engine on `graphEndThenPacket` after one `next`. -/
theorem C24_accessors_witness :
    tgenmarkovmodel_getSeed
        (afterDraws 3 { engineOn graphEndThenPacket with currentStateVertexIndex := 1 }) = 7 ∧
    tgenmarkovmodel_getName
        (afterDraws 3 { engineOn graphEndThenPacket with currentStateVertexIndex := 1 })
      = "m".toList ∧
    (tgenmarkovmodel_toGraphmlString sampleWriter
        (afterDraws 3 { engineOn graphEndThenPacket with currentStateVertexIndex := 1 })).2
      = { afterDraws 3 { engineOn graphEndThenPacket with currentStateVertexIndex := 1 } with
          graph := { graphEndThenPacket with hasVertexId := false } } := by
  have hnew : _tgenmarkovmodel_new graphEndThenPacket "m".toList 7
      = some (engineOn graphEndThenPacket) := by decide!
  have hreach : runCalls sampleEnv [Call.next (some 0)] (engineOn graphEndThenPacket)
      = some ([Output.observed OBSERVATION_END (some 1)],
          afterDraws 3 { engineOn graphEndThenPacket with currentStateVertexIndex := 1 }) := by
    decide!
  have h := C24_accessors sampleEnv graphEndThenPacket "m".toList 7
    (engineOn graphEndThenPacket) hnew _ _ _ hreach sampleWriter
  refine ⟨h.1, h.2.1, ?_⟩
  rcases h.2.2.1 with h3 | h3
  · exact absurd (congrArg (fun m => m.graph.hasVertexId) h3) (by decide)
  · exact h3

/-- The names the source matches to `start` are not emission names. -/
theorem start_not_emissionNamed (s : CStr)
    (h : _tgenmarkovmodel_vertexIDIsEqual s VERTEX_NAME_START = true) : ¬ emissionNamed s :=
  (vertexIDIsEmission_eq_false_iff s).mp (start_not_emission s h)

/-- C25, counterexample. The graph `start -t-> s1`, `s1 -t-> start`,
`start -e-> $` is accepted: a transition edge enters its start vertex and an
emission edge leaves it. -/
theorem C25_counterexample_edges_at_start :
    _tgenmarkovmodel_new graphEdgesAtStart "m".toList 7 = some (engineOn graphEdgesAtStart) ∧
    (engineOn graphEdgesAtStart).startVertexIndex = 0 ∧
    graphEdgesAtStart.vertices[0]? = some startVertex ∧
    graphEdgesAtStart.edges[1]? = some (transitionEdge 1 0 1) ∧
    (transitionEdge 1 0 1).dst = 0 ∧
    graphEdgesAtStart.edges[2]? = some (emissionEdge 0 2 1 0 0 1) ∧
    (emissionEdge 0 2 1 0 0 1).src = 0 ∧
    _tgenmarkovmodel_edgeTypeIsEqual (emissionEdge 0 2 1 0 0 1).type EDGE_TYPE_EMISSION
      = true := by
  decide!

/-- C25, as amended. In every graph accepted by the validator, every edge that
enters a vertex the source matches to `start` (the engine's start vertex is
one) is a transition edge, not an emission edge; and every edge that leaves
such a vertex is either a transition edge to a vertex that is not
emission-named or an emission edge to an emission-named vertex. -/
theorem C25_edges_at_start (graph : igraph_t) (name : CStr) (seed : Nat) (m : TGenMarkovModel)
    (hnew : _tgenmarkovmodel_new graph name seed = some m)
    (e : Nat) (edge : Edge) (hedge : graph.edges[e]? = some edge) :
    _tgenmarkovmodel_vertexIDIsEqual
      (igraph_cattribute_VAS graph VERTEX_ATTR_NAME m.startVertexIndex) VERTEX_NAME_START
      = true ∧
    (_tgenmarkovmodel_vertexIDIsEqual
        (igraph_cattribute_VAS graph VERTEX_ATTR_NAME edge.dst) VERTEX_NAME_START = true →
      _tgenmarkovmodel_edgeTypeIsEqual edge.type EDGE_TYPE_TRANSITION = true ∧
      _tgenmarkovmodel_edgeTypeIsEqual edge.type EDGE_TYPE_EMISSION = false) ∧
    (edge.dst = m.startVertexIndex →
      _tgenmarkovmodel_edgeTypeIsEqual edge.type EDGE_TYPE_TRANSITION = true ∧
      _tgenmarkovmodel_edgeTypeIsEqual edge.type EDGE_TYPE_EMISSION = false) ∧
    (edge.src = m.startVertexIndex →
      (_tgenmarkovmodel_edgeTypeIsEqual edge.type EDGE_TYPE_TRANSITION = true ∧
        ¬ emissionNamed (igraph_cattribute_VAS graph VERTEX_ATTR_NAME edge.dst)) ∨
      (_tgenmarkovmodel_edgeTypeIsEqual edge.type EDGE_TYPE_EMISSION = true ∧
        emissionNamed (igraph_cattribute_VAS graph VERTEX_ATTR_NAME edge.dst))) := by
  obtain ⟨⟨hg, _, _, _, _, hvalid, ⟨v, hv, hvs⟩, _⟩, _, _⟩ :=
    new_some_invariant graph name seed m hnew
  have hstart : _tgenmarkovmodel_vertexIDIsEqual
      (igraph_cattribute_VAS graph VERTEX_ATTR_NAME m.startVertexIndex) VERTEX_NAME_START
      = true := by
    rw [VAS_name_of_getElem _ _ _ hv]
    exact hvs
  have hedge' : m.graph.edges[e]? = some edge := by rw [hg]; exact hedge
  have hc := validateEdges_checks m hvalid e (getElem?_lt_length _ _ _ hedge')
  rw [checkEdgeAttributes_iff] at hc
  obtain ⟨edge', hedge'', _, _, _, _, _, _, hk⟩ := hc
  rw [hedge'] at hedge''
  simp only [Option.some.injEq] at hedge''
  subst hedge''
  rw [hg] at hk
  have hin : _tgenmarkovmodel_vertexIDIsEqual
        (igraph_cattribute_VAS graph VERTEX_ATTR_NAME edge.dst) VERTEX_NAME_START = true →
      _tgenmarkovmodel_edgeTypeIsEqual edge.type EDGE_TYPE_TRANSITION = true ∧
      _tgenmarkovmodel_edgeTypeIsEqual edge.type EDGE_TYPE_EMISSION = false := by
    intro hd
    rcases hk with ⟨ht, _, _⟩ | ⟨_, _, _, hdm, _⟩
    · refine ⟨ht, ?_⟩
      rw [Bool.eq_false_iff]
      intro hem
      rw [not_transition_of_emission _ hem] at ht
      exact absurd ht (by simp)
    · rw [start_not_emission _ hd] at hdm
      exact absurd hdm (by simp)
  refine ⟨hstart, hin, ?_, ?_⟩
  · intro hd
    apply hin
    rw [hd]
    exact hstart
  · intro _
    rcases hk with ⟨ht, _, hdm⟩ | ⟨_, hem, _, hdm, _⟩
    · exact Or.inl ⟨ht, (vertexIDIsEmission_eq_false_iff _).mp hdm⟩
    · exact Or.inr ⟨hem, (emissionNamed_iff _).mp hdm⟩

/-- C25, witness: the edge `s1 -t-> start` of `graphEdgesAtStart`. -/
theorem C25_edges_at_start_witness :
    _tgenmarkovmodel_vertexIDIsEqual
      (igraph_cattribute_VAS graphEdgesAtStart VERTEX_ATTR_NAME
        (engineOn graphEdgesAtStart).startVertexIndex) VERTEX_NAME_START = true ∧
    (_tgenmarkovmodel_vertexIDIsEqual
        (igraph_cattribute_VAS graphEdgesAtStart VERTEX_ATTR_NAME (transitionEdge 1 0 1).dst)
        VERTEX_NAME_START = true →
      _tgenmarkovmodel_edgeTypeIsEqual (transitionEdge 1 0 1).type EDGE_TYPE_TRANSITION = true ∧
      _tgenmarkovmodel_edgeTypeIsEqual (transitionEdge 1 0 1).type EDGE_TYPE_EMISSION = false) ∧
    ((transitionEdge 1 0 1).dst = (engineOn graphEdgesAtStart).startVertexIndex →
      _tgenmarkovmodel_edgeTypeIsEqual (transitionEdge 1 0 1).type EDGE_TYPE_TRANSITION = true ∧
      _tgenmarkovmodel_edgeTypeIsEqual (transitionEdge 1 0 1).type EDGE_TYPE_EMISSION = false) ∧
    ((transitionEdge 1 0 1).src = (engineOn graphEdgesAtStart).startVertexIndex →
      (_tgenmarkovmodel_edgeTypeIsEqual (transitionEdge 1 0 1).type EDGE_TYPE_TRANSITION = true ∧
        ¬ emissionNamed (igraph_cattribute_VAS graphEdgesAtStart VERTEX_ATTR_NAME
          (transitionEdge 1 0 1).dst)) ∨
      (_tgenmarkovmodel_edgeTypeIsEqual (transitionEdge 1 0 1).type EDGE_TYPE_EMISSION = true ∧
        emissionNamed (igraph_cattribute_VAS graphEdgesAtStart VERTEX_ATTR_NAME
          (transitionEdge 1 0 1).dst))) := by
  have hnew : _tgenmarkovmodel_new graphEdgesAtStart "m".toList 7
      = some (engineOn graphEdgesAtStart) := by decide!
  exact C25_edges_at_start graphEdgesAtStart "m".toList 7 (engineOn graphEdgesAtStart) hnew
    1 (transitionEdge 1 0 1) (by decide!)

/-- C26. For every engine built from an accepted graph and every sequence of
`next`/`reset` calls, the current vertex is a vertex of the graph whose name is
none of `+`, `-`, `$`, `F` (it does not even begin with one of them): it is the
start vertex or the destination of a transition edge of the accepted graph. -/
theorem C26_current_vertex_is_state (env : Env) (graph : igraph_t) (name : CStr) (seed : Nat)
    (m0 : TGenMarkovModel) (hnew : _tgenmarkovmodel_new graph name seed = some m0)
    (calls : List Call) (outs : List Output) (mmodel : TGenMarkovModel)
    (hreach : runCalls env calls m0 = some (outs, mmodel)) :
    mmodel.currentStateVertexIndex < graph.vertices.length ∧
    ¬ isOneOfEmissionNames
      (igraph_cattribute_VAS graph VERTEX_ATTR_NAME mmodel.currentStateVertexIndex) ∧
    ¬ emissionNamed
      (igraph_cattribute_VAS graph VERTEX_ATTR_NAME mmodel.currentStateVertexIndex) ∧
    (mmodel.currentStateVertexIndex = mmodel.startVertexIndex ∨
      ∃ (e : Nat) (edge : Edge), graph.edges[e]? = some edge ∧
        _tgenmarkovmodel_edgeTypeIsEqual edge.type EDGE_TYPE_TRANSITION = true ∧
        edge.dst = mmodel.currentStateVertexIndex) := by
  have hinv := reached_invariant env graph name seed m0 hnew calls outs mmodel hreach
  have hcur := engineInvariant_current_lt graph name seed mmodel hinv
  obtain ⟨hg, _, _, _, _, hvalid, ⟨v, hv, hvs⟩, hcurrent⟩ := hinv
  have hnot : ¬ emissionNamed
      (igraph_cattribute_VAS graph VERTEX_ATTR_NAME mmodel.currentStateVertexIndex) := by
    rcases hcurrent with hc | ⟨e, edge, hedge, hty, hdst⟩
    · rw [hc, VAS_name_of_getElem _ _ _ hv]
      exact start_not_emissionNamed _ hvs
    · rw [← hdst, ← vertexIDIsEmission_eq_false_iff, ← hg]
      exact (transition_dst_of_validateEdges mmodel hvalid e edge (by rw [hg]; exact hedge)
        hty).2
  refine ⟨hg ▸ hcur, fun h => hnot (emissionNamed_of_isOneOf _ h), hnot, hcurrent⟩

/-- C26, witness: the engine on `graphEndThenPacket` after one `next`; its
current vertex is `s1`. -/
theorem C26_current_vertex_is_state_witness :
    (afterDraws 3 { engineOn graphEndThenPacket with currentStateVertexIndex := 1 }
      ).currentStateVertexIndex < graphEndThenPacket.vertices.length ∧
    ¬ isOneOfEmissionNames (igraph_cattribute_VAS graphEndThenPacket VERTEX_ATTR_NAME
      (afterDraws 3 { engineOn graphEndThenPacket with currentStateVertexIndex := 1 }
        ).currentStateVertexIndex) ∧
    ¬ emissionNamed (igraph_cattribute_VAS graphEndThenPacket VERTEX_ATTR_NAME
      (afterDraws 3 { engineOn graphEndThenPacket with currentStateVertexIndex := 1 }
        ).currentStateVertexIndex) ∧
    ((afterDraws 3 { engineOn graphEndThenPacket with currentStateVertexIndex := 1 }
        ).currentStateVertexIndex
        = (afterDraws 3 { engineOn graphEndThenPacket with currentStateVertexIndex := 1 }
          ).startVertexIndex ∨
      ∃ (e : Nat) (edge : Edge), graphEndThenPacket.edges[e]? = some edge ∧
        _tgenmarkovmodel_edgeTypeIsEqual edge.type EDGE_TYPE_TRANSITION = true ∧
        edge.dst = (afterDraws 3
          { engineOn graphEndThenPacket with currentStateVertexIndex := 1 }
          ).currentStateVertexIndex) := by
  have hnew : _tgenmarkovmodel_new graphEndThenPacket "m".toList 7
      = some (engineOn graphEndThenPacket) := by decide!
  have hreach : runCalls sampleEnv [Call.next (some 0)] (engineOn graphEndThenPacket)
      = some ([Output.observed OBSERVATION_END (some 1)],
          afterDraws 3 { engineOn graphEndThenPacket with currentStateVertexIndex := 1 }) := by
    decide!
  exact C26_current_vertex_is_state sampleEnv graphEndThenPacket "m".toList 7
    (engineOn graphEndThenPacket) hnew _ _ _ hreach

/-! ## The validation passes stop at the first failure -/

theorem range_split (n k : Nat) (h : k < n) :
    ∃ l2, List.range n = List.range k ++ k :: l2 := by
  induction n with
  | zero => exact absurd h (Nat.not_lt_zero k)
  | succ n ih =>
    rw [List.range_succ]
    rcases Nat.lt_succ_iff_lt_or_eq.mp h with hlt | heq
    · obtain ⟨l2, hl2⟩ := ih hlt
      exact ⟨l2 ++ [n], by rw [hl2]; simp⟩
    · subst heq
      exact ⟨[], rfl⟩

/-- The vertex loop on a list whose first failing check is that of `a`: it
leaves there, having called the check on the elements before `a` and on `a`. -/
theorem validateVertices_loop_break (m : TGenMarkovModel) (l1 : List Nat) (a : Nat)
    (l2 : List Nat) (st : Bool × Bool × Nat) (checked : List Nat)
    (h1 : ∀ x ∈ l1, _tgenmarkovmodel_checkVertexAttributes m x = some true)
    (ha : _tgenmarkovmodel_checkVertexAttributes m a = some false) :
    ∃ f s, _tgenmarkovmodel_validateVertices_loop m (l1 ++ a :: l2) (st, checked)
      = some ((false, f, s), checked ++ l1 ++ [a]) := by
  induction l1 generalizing st checked with
  | nil =>
    obtain ⟨b, f, s⟩ := st
    exact ⟨f, s, by simp [_tgenmarkovmodel_validateVertices_loop, ha]⟩
  | cons b rest ih =>
    obtain ⟨b0, f, s⟩ := st
    have hb := h1 b (List.mem_cons_self _ _)
    have hrest : ∀ x ∈ rest, _tgenmarkovmodel_checkVertexAttributes m x = some true :=
      fun x hx => h1 x (List.mem_cons_of_mem _ hx)
    rw [List.cons_append]
    simp only [_tgenmarkovmodel_validateVertices_loop, hb, Bool.not_true,
      Bool.false_eq_true, ↓reduceIte]
    split
    · obtain ⟨f1, s1, h⟩ := ih (true, true, b) (checked ++ [b]) hrest
      exact ⟨f1, s1, by rw [h]; simp⟩
    · obtain ⟨f1, s1, h⟩ := ih (true, f, s) (checked ++ [b]) hrest
      exact ⟨f1, s1, by rw [h]; simp⟩

/-- The vertex loop on a list all of whose checks return TRUE: it calls the
check on every element, in order. -/
theorem validateVertices_loop_all (m : TGenMarkovModel) (l : List Nat) (f0 : Bool) (s0 : Nat)
    (checked : List Nat)
    (h : ∀ x ∈ l, _tgenmarkovmodel_checkVertexAttributes m x = some true) :
    ∃ f s, _tgenmarkovmodel_validateVertices_loop m l ((true, f0, s0), checked)
      = some ((true, f, s), checked ++ l) := by
  induction l generalizing f0 s0 checked with
  | nil => exact ⟨f0, s0, by simp [_tgenmarkovmodel_validateVertices_loop]⟩
  | cons b rest ih =>
    have hb := h b (List.mem_cons_self _ _)
    have hrest : ∀ x ∈ rest, _tgenmarkovmodel_checkVertexAttributes m x = some true :=
      fun x hx => h x (List.mem_cons_of_mem _ hx)
    simp only [_tgenmarkovmodel_validateVertices_loop, hb, Bool.not_true, Bool.false_eq_true,
      ↓reduceIte]
    split
    · obtain ⟨f1, s1, h2⟩ := ih true b (checked ++ [b]) hrest
      exact ⟨f1, s1, by rw [h2]; simp⟩
    · obtain ⟨f1, s1, h2⟩ := ih f0 s0 (checked ++ [b]) hrest
      exact ⟨f1, s1, by rw [h2]; simp⟩

/-- The edge loop on a list whose first failing check is that of `a`. -/
theorem validateEdges_loop_break (m : TGenMarkovModel) (l1 : List Nat) (a : Nat)
    (l2 : List Nat) (b : Bool) (checked : List Nat)
    (h1 : ∀ x ∈ l1, _tgenmarkovmodel_checkEdgeAttributes m x = true)
    (ha : _tgenmarkovmodel_checkEdgeAttributes m a = false) :
    _tgenmarkovmodel_validateEdges_loop m (l1 ++ a :: l2) (b, checked)
      = (false, checked ++ l1 ++ [a]) := by
  induction l1 generalizing b checked with
  | nil => simp [_tgenmarkovmodel_validateEdges_loop, ha]
  | cons c rest ih =>
    have hc := h1 c (List.mem_cons_self _ _)
    rw [List.cons_append]
    simp only [_tgenmarkovmodel_validateEdges_loop, hc, Bool.not_true,
      Bool.false_eq_true, ↓reduceIte]
    rw [ih true (checked ++ [c]) (fun x hx => h1 x (List.mem_cons_of_mem _ hx))]
    simp

/-- The edge loop on a list all of whose checks return TRUE. -/
theorem validateEdges_loop_all (m : TGenMarkovModel) (l : List Nat) (checked : List Nat)
    (h : ∀ x ∈ l, _tgenmarkovmodel_checkEdgeAttributes m x = true) :
    _tgenmarkovmodel_validateEdges_loop m l (true, checked) = (true, checked ++ l) := by
  induction l generalizing checked with
  | nil => simp [_tgenmarkovmodel_validateEdges_loop]
  | cons c rest ih =>
    have hc := h c (List.mem_cons_self _ _)
    simp only [_tgenmarkovmodel_validateEdges_loop, hc, Bool.not_true, Bool.false_eq_true,
      ↓reduceIte]
    rw [ih (checked ++ [c]) (fun x hx => h x (List.mem_cons_of_mem _ hx))]
    simp

/-- C27, counterexample. In `graphTwoViolations` the checks of the vertices 1
and 2 both return FALSE and so do the checks of the edges 0 and 1; the loop of
the vertex pass calls the check on the vertices 0 and 1 only, the loop of the
edge pass on the edge 0 only: vertex 2 and edge 1 are never examined. -/
theorem C27_counterexample_second_violation_not_examined :
    _tgenmarkovmodel_checkVertexAttributes (engineOn graphTwoViolations) 1 = some false ∧
    _tgenmarkovmodel_checkVertexAttributes (engineOn graphTwoViolations) 2 = some false ∧
    _tgenmarkovmodel_validateVertices_loop (engineOn graphTwoViolations)
        (List.range (engineOn graphTwoViolations).graph.vertices.length)
        ((true, false, (engineOn graphTwoViolations).startVertexIndex), [])
      = some ((false, true, 0), [0, 1]) ∧
    _tgenmarkovmodel_validateVertices (engineOn graphTwoViolations) = some (false, 0) ∧
    _tgenmarkovmodel_checkEdgeAttributes (engineOn graphTwoViolations) 0 = false ∧
    _tgenmarkovmodel_checkEdgeAttributes (engineOn graphTwoViolations) 1 = false ∧
    _tgenmarkovmodel_validateEdges_loop (engineOn graphTwoViolations)
        (List.range (engineOn graphTwoViolations).graph.edges.length) (true, [])
      = (false, [0]) ∧
    _tgenmarkovmodel_validateEdges (engineOn graphTwoViolations) = false ∧
    _tgenmarkovmodel_new graphTwoViolations "m".toList 7 = none := by
  decide!

/-- C27, as amended. Each validation pass stops at the first check that
returns FALSE.  The loop of the vertex pass (resp. edge pass) calls the check
on the vertices (resp. edges) in index order; when the check of the element
`k` is the first to return FALSE, the calls the loop has made are those on
`0, ..., k` and no other, whatever comes after `k`, and the pass returns FALSE;
when every check returns TRUE, the loop has called it on every element.  So of
the violating vertices and edges only the first of each pass is examined. -/
theorem C27_pass_stops_at_first_failure (mmodel : TGenMarkovModel) :
    (∀ (l1 : List Nat) (a : Nat) (l2 : List Nat) (st : Bool × Bool × Nat) (checked : List Nat),
      (∀ x ∈ l1, _tgenmarkovmodel_checkVertexAttributes mmodel x = some true) →
      _tgenmarkovmodel_checkVertexAttributes mmodel a = some false →
      ∃ f s, _tgenmarkovmodel_validateVertices_loop mmodel (l1 ++ a :: l2) (st, checked)
        = some ((false, f, s), checked ++ l1 ++ [a])) ∧
    (∀ k, k < mmodel.graph.vertices.length →
      (∀ j, j < k → _tgenmarkovmodel_checkVertexAttributes mmodel j = some true) →
      _tgenmarkovmodel_checkVertexAttributes mmodel k = some false →
      (∃ f s, _tgenmarkovmodel_validateVertices_loop mmodel
          (List.range mmodel.graph.vertices.length)
          ((true, false, mmodel.startVertexIndex), [])
        = some ((false, f, s), List.range (k + 1))) ∧
      ∃ s, _tgenmarkovmodel_validateVertices mmodel = some (false, s)) ∧
    ((∀ j, j < mmodel.graph.vertices.length →
        _tgenmarkovmodel_checkVertexAttributes mmodel j = some true) →
      ∃ f s, _tgenmarkovmodel_validateVertices_loop mmodel
          (List.range mmodel.graph.vertices.length)
          ((true, false, mmodel.startVertexIndex), [])
        = some ((true, f, s), List.range mmodel.graph.vertices.length)) ∧
    (∀ (l1 : List Nat) (a : Nat) (l2 : List Nat) (b : Bool) (checked : List Nat),
      (∀ x ∈ l1, _tgenmarkovmodel_checkEdgeAttributes mmodel x = true) →
      _tgenmarkovmodel_checkEdgeAttributes mmodel a = false →
      _tgenmarkovmodel_validateEdges_loop mmodel (l1 ++ a :: l2) (b, checked)
        = (false, checked ++ l1 ++ [a])) ∧
    (∀ k, k < mmodel.graph.edges.length →
      (∀ j, j < k → _tgenmarkovmodel_checkEdgeAttributes mmodel j = true) →
      _tgenmarkovmodel_checkEdgeAttributes mmodel k = false →
      _tgenmarkovmodel_validateEdges_loop mmodel (List.range mmodel.graph.edges.length)
          (true, [])
        = (false, List.range (k + 1)) ∧
      _tgenmarkovmodel_validateEdges mmodel = false) ∧
    ((∀ j, j < mmodel.graph.edges.length →
        _tgenmarkovmodel_checkEdgeAttributes mmodel j = true) →
      _tgenmarkovmodel_validateEdges_loop mmodel (List.range mmodel.graph.edges.length)
          (true, [])
        = (true, List.range mmodel.graph.edges.length)) := by
  refine ⟨validateVertices_loop_break mmodel, ?_, ?_, validateEdges_loop_break mmodel, ?_, ?_⟩
  · intro k hk hbefore hfail
    obtain ⟨l2, hl2⟩ := range_split _ k hk
    obtain ⟨f, s, h⟩ := validateVertices_loop_break mmodel (List.range k) k l2
      (true, false, mmodel.startVertexIndex) []
      (fun x hx => hbefore x (List.mem_range.mp hx)) hfail
    have hloop : _tgenmarkovmodel_validateVertices_loop mmodel
        (List.range mmodel.graph.vertices.length) ((true, false, mmodel.startVertexIndex), [])
        = some ((false, f, s), List.range (k + 1)) := by
      rw [hl2, h, List.range_succ]
      simp
    refine ⟨⟨f, s, hloop⟩, s, ?_⟩
    unfold _tgenmarkovmodel_validateVertices
    rw [hloop]
    rfl
  · intro hall
    obtain ⟨f, s, h⟩ := validateVertices_loop_all mmodel
      (List.range mmodel.graph.vertices.length) false mmodel.startVertexIndex []
      (fun x hx => hall x (List.mem_range.mp hx))
    exact ⟨f, s, by rw [h]; simp⟩
  · intro k hk hbefore hfail
    obtain ⟨l2, hl2⟩ := range_split _ k hk
    have h := validateEdges_loop_break mmodel (List.range k) k l2 true []
      (fun x hx => hbefore x (List.mem_range.mp hx)) hfail
    have hloop : _tgenmarkovmodel_validateEdges_loop mmodel
        (List.range mmodel.graph.edges.length) (true, [])
        = (false, List.range (k + 1)) := by
      rw [hl2, h, List.range_succ]
      simp
    refine ⟨hloop, ?_⟩
    unfold _tgenmarkovmodel_validateEdges
    rw [hloop]
  · intro hall
    have h := validateEdges_loop_all mmodel (List.range mmodel.graph.edges.length) []
      (fun x hx => hall x (List.mem_range.mp hx))
    rw [h]
    simp

/-! ## Chooser failure, assertions and draw counts -/

theorem chooseEdge_some_dst (env : Env) (m : TGenMarkovModel) (type : EdgeType) (v e dst : Nat)
    (m1 : TGenMarkovModel)
    (h : _tgenmarkovmodel_chooseEdge env m type v = some (some (e, dst), m1)) :
    ∃ src, igraph_edge m.graph e = some (src, dst) := by
  unfold _tgenmarkovmodel_chooseEdge at h
  split at h
  · simp at h
  · dsimp only at h
    split at h
    · exact absurd h (by simp)
    · split at h
      · exact absurd h (by simp)
      · simp at h
      · rename_i chosen _
        split at h
        · simp at h
        · rename_i src toVertex hedge
          simp only [Option.some.injEq, Prod.mk.injEq] at h
          obtain ⟨⟨h1, h2⟩, _⟩ := h
          subst h1 h2
          exact ⟨src, hedge⟩

/-- C28. When a chooser fails inside `next` on a Running engine, the call
returns end-of-session with the caller's delay as it was, and the terminated
flag stays down.  After a failure of the transition chooser the current vertex
is unchanged; after a failure of the emission chooser the current vertex is the
destination of the transition edge just chosen.  In both cases only the PRNG
and the current vertex can differ from before. -/
theorem C28_chooser_failure_frame (env : Env) (mmodel : TGenMarkovModel) (delay : Option Nat)
    (hrun : mmodel.foundEndState = false) :
    (∀ m1, _tgenmarkovmodel_chooseTransition env mmodel mmodel.currentStateVertexIndex
        = some (none, m1) →
      tgenmarkovmodel_getNextObservation env mmodel delay = some (OBSERVATION_END, delay, m1) ∧
      m1.foundEndState = false ∧
      m1.currentStateVertexIndex = mmodel.currentStateVertexIndex ∧
      m1 = { mmodel with prng := m1.prng }) ∧
    (∀ e v m1 m2, _tgenmarkovmodel_chooseTransition env mmodel mmodel.currentStateVertexIndex
        = some (some (e, v), m1) →
      _tgenmarkovmodel_chooseEmission env { m1 with currentStateVertexIndex := v } v
        = some (none, m2) →
      tgenmarkovmodel_getNextObservation env mmodel delay = some (OBSERVATION_END, delay, m2) ∧
      m2.foundEndState = false ∧
      m2.currentStateVertexIndex = v ∧
      (∃ src, igraph_edge mmodel.graph e = some (src, v)) ∧
      m2 = { mmodel with prng := m2.prng, currentStateVertexIndex := v }) := by
  constructor
  · intro m1 ht
    have hframe := chooseEdge_frame env mmodel _ _ _ _ ht
    refine ⟨next_of_transition_failure env mmodel delay m1 hrun ht, ?_, ?_, hframe⟩
    · rw [hframe]; exact hrun
    · rw [hframe]
  · intro e v m1 m2 ht hem
    have h1 := chooseEdge_frame env mmodel _ _ _ _ ht
    have h2 := chooseEdge_frame env _ _ _ _ _ hem
    refine ⟨next_of_emission_failure env mmodel delay e v m1 m2 hrun ht hem, ?_, ?_,
      chooseEdge_some_dst env mmodel _ _ _ _ _ ht, ?_⟩
    · rw [h2]; dsimp only
      rw [h1]; exact hrun
    · rw [h2]
    · rw [h2]; dsimp only
      rw [h1]

/-- C28, witness: the transition chooser fails on `graphStartOnly`, whose start
vertex has no edge, and the emission chooser fails on `graphNoEmission` after
the transition `start -t-> s1`. -/
theorem C28_chooser_failure_frame_witness :
    (tgenmarkovmodel_getNextObservation sampleEnv (engineOn graphStartOnly) (some 5)
        = some (OBSERVATION_END, some 5, afterDraws 1 (engineOn graphStartOnly)) ∧
      (afterDraws 1 (engineOn graphStartOnly)).foundEndState = false ∧
      (afterDraws 1 (engineOn graphStartOnly)).currentStateVertexIndex
        = (engineOn graphStartOnly).currentStateVertexIndex) ∧
    (tgenmarkovmodel_getNextObservation sampleEnv (engineOn graphNoEmission) (some 5)
        = some (OBSERVATION_END, some 5,
            afterDraws 2 { engineOn graphNoEmission with currentStateVertexIndex := 1 }) ∧
      (afterDraws 2 { engineOn graphNoEmission with currentStateVertexIndex := 1 }).foundEndState
        = false ∧
      (afterDraws 2 { engineOn graphNoEmission with currentStateVertexIndex := 1 }
        ).currentStateVertexIndex = 1 ∧
      ∃ src, igraph_edge (engineOn graphNoEmission).graph 0 = some (src, 1)) := by
  have h1 := (C28_chooser_failure_frame sampleEnv (engineOn graphStartOnly) (some 5) rfl).1
    (afterDraws 1 (engineOn graphStartOnly)) (by decide!)
  have h2 := (C28_chooser_failure_frame sampleEnv (engineOn graphNoEmission) (some 5) rfl).2
    0 1 (afterDraws 1 (engineOn graphNoEmission))
    (afterDraws 2 { engineOn graphNoEmission with currentStateVertexIndex := 1 })
    (by decide!) (by decide!)
  exact ⟨⟨h1.1, h1.2.1, h1.2.2.1⟩, h2.1, h2.2.1, h2.2.2.1, h2.2.2.2.1⟩

/-- C29, failing input. The graph `start -t-> s1`, `s1 -e-> F` in which the
vertex named `F` has type `state` is accepted.  The first `next` chooses the
emission edge to `F`; `_tgenmarkovmodel_vertexToObservation` then asserts that
the destination's type is `observation`, which fails: the call aborts, with or
without a delay output.  This is the only assertion that can fail: on an engine
built from an accepted graph, after any sequence of `next`/`reset` calls, a
`next` aborts exactly when both choosers succeed and the type of the chosen
emission edge's destination does not match `observation`. -/
theorem C29_assertion_fails_on_state_vertex_named_F :
    _tgenmarkovmodel_new graphEmissionToStateF "m".toList 7
      = some (engineOn graphEmissionToStateF) ∧
    _tgenmarkovmodel_chooseTransition sampleEnv (engineOn graphEmissionToStateF) 0
      = some (some (0, 1), afterDraws 1 (engineOn graphEmissionToStateF)) ∧
    _tgenmarkovmodel_chooseEmission sampleEnv
        { afterDraws 1 (engineOn graphEmissionToStateF) with currentStateVertexIndex := 1 } 1
      = some (some (1, 2),
          afterDraws 2 { engineOn graphEmissionToStateF with currentStateVertexIndex := 1 }) ∧
    _tgenmarkovmodel_findVertexAttributeString (engineOn graphEmissionToStateF) 2
      VERTEX_ATTR_TYPE = some "state".toList ∧
    _tgenmarkovmodel_vertexTypeIsEqual "state".toList VERTEX_TYPE_OBSERVATION = false ∧
    _tgenmarkovmodel_vertexToObservation (engineOn graphEmissionToStateF) 2 = none ∧
    tgenmarkovmodel_getNextObservation sampleEnv (engineOn graphEmissionToStateF) (some 5)
      = none ∧
    tgenmarkovmodel_getNextObservation sampleEnv (engineOn graphEmissionToStateF) none
      = none ∧
    (∀ (env : Env) (graph : igraph_t) (name : CStr) (seed : Nat) (m0 : TGenMarkovModel),
      _tgenmarkovmodel_new graph name seed = some m0 →
      ∀ (calls : List Call) (outs : List Output) (mmodel : TGenMarkovModel),
      runCalls env calls m0 = some (outs, mmodel) →
      ∀ delay : Option Nat,
      (tgenmarkovmodel_getNextObservation env mmodel delay = none ↔
        ∃ (e v : Nat) (m1 : TGenMarkovModel) (ee ov : Nat) (m2 : TGenMarkovModel),
          _tgenmarkovmodel_chooseTransition env mmodel mmodel.currentStateVertexIndex
            = some (some (e, v), m1) ∧
          _tgenmarkovmodel_chooseEmission env { m1 with currentStateVertexIndex := v } v
            = some (some (ee, ov), m2) ∧
          _tgenmarkovmodel_vertexTypeIsEqual
            (igraph_cattribute_VAS graph VERTEX_ATTR_TYPE ov) VERTEX_TYPE_OBSERVATION
            = false)) := by
  refine ⟨by decide!, by decide!, by decide!, by decide, by decide, by decide, by decide!,
    by decide!, ?_⟩
  intro env graph name seed m0 hnew calls outs mmodel hreach delay
  have hinv := reached_invariant env graph name seed m0 hnew calls outs mmodel hreach
  have hcur := engineInvariant_current_lt graph name seed mmodel hinv
  obtain ⟨hg, _, _, _, hf, hvalid, _, _⟩ := hinv
  rw [next_aborts_iff env mmodel delay hvalid hcur hf]
  have key : ∀ (e v : Nat) (m1 : TGenMarkovModel) (ee ov : Nat) (m2 : TGenMarkovModel),
      _tgenmarkovmodel_chooseTransition env mmodel mmodel.currentStateVertexIndex
        = some (some (e, v), m1) →
      _tgenmarkovmodel_chooseEmission env { m1 with currentStateVertexIndex := v } v
        = some (some (ee, ov), m2) →
      (_tgenmarkovmodel_vertexToObservation mmodel ov = none ↔
        _tgenmarkovmodel_vertexTypeIsEqual
          (igraph_cattribute_VAS graph VERTEX_ATTR_TYPE ov) VERTEX_TYPE_OBSERVATION
          = false) := by
    intro e v m1 ee ov m2 ht hem
    obtain ⟨eedge, heedge, _, hdst, _, _, _, _⟩ :=
      next_emission_path env mmodel delay hvalid hcur hf e v ee ov m1 m2 ht hem
    have hov : ov < graph.vertices.length := by
      rw [← hdst, ← hg]
      exact (endpoints_lt_of_validateEdges mmodel hvalid ee eedge heedge).2
    obtain ⟨hncol, htcol, hne⟩ := accepted_vertex_columns graph name seed m0 hnew ov hov
    have hname : _tgenmarkovmodel_findVertexAttributeString mmodel ov VERTEX_ATTR_NAME
        = some (igraph_cattribute_VAS mmodel.graph VERTEX_ATTR_NAME ov) := by
      rw [findVertexAttributeString_name_eq_some, hg]
      exact ⟨hncol, rfl, hne⟩
    rw [vertexToObservation_none_iff mmodel ov (by rw [hg]; exact htcol) hname, hg]
  constructor
  · rintro ⟨e, v, m1, ee, ov, m2, ht, hem, hobs⟩
    exact ⟨e, v, m1, ee, ov, m2, ht, hem, (key e v m1 ee ov m2 ht hem).mp hobs⟩
  · rintro ⟨e, v, m1, ee, ov, m2, ht, hem, hobs⟩
    exact ⟨e, v, m1, ee, ov, m2, ht, hem, (key e v m1 ee ov m2 ht hem).mpr hobs⟩

/-- C30. For every engine built from an accepted graph and every sequence of
`next`/`reset` calls, the uniforms a further `next` draws are fixed by its
path: none when the engine is terminated (for any engine); exactly 1 when the
transition chooser fails; exactly 2 when the emission chooser fails; and when
an emission edge is chosen and the call returns, exactly 2 if the caller passes
no delay output, and otherwise 2 plus 2 if the chosen edge has `sigma > 0` or
`mu > 0`, else 2 plus 1. -/
theorem C30_draw_counts (env : Env) (graph : igraph_t) (name : CStr) (seed : Nat)
    (m0 : TGenMarkovModel) (hnew : _tgenmarkovmodel_new graph name seed = some m0)
    (calls : List Call) (outs : List Output) (mmodel : TGenMarkovModel)
    (hreach : runCalls env calls m0 = some (outs, mmodel)) (delay : Option Nat) :
    (∀ mt : TGenMarkovModel, mt.foundEndState = true →
      tgenmarkovmodel_getNextObservation env mt delay
        = some (OBSERVATION_END, delay, afterDraws 0 mt)) ∧
    (∀ m1, _tgenmarkovmodel_chooseTransition env mmodel mmodel.currentStateVertexIndex
        = some (none, m1) →
      tgenmarkovmodel_getNextObservation env mmodel delay
        = some (OBSERVATION_END, delay, afterDraws 1 mmodel)) ∧
    (∀ e v m1 m2, _tgenmarkovmodel_chooseTransition env mmodel mmodel.currentStateVertexIndex
        = some (some (e, v), m1) →
      _tgenmarkovmodel_chooseEmission env { m1 with currentStateVertexIndex := v } v
        = some (none, m2) →
      tgenmarkovmodel_getNextObservation env mmodel delay
        = some (OBSERVATION_END, delay,
            afterDraws 2 { mmodel with currentStateVertexIndex := v })) ∧
    (∀ e v m1 ee ov m2 eedge obs,
      _tgenmarkovmodel_chooseTransition env mmodel mmodel.currentStateVertexIndex
        = some (some (e, v), m1) →
      _tgenmarkovmodel_chooseEmission env { m1 with currentStateVertexIndex := v } v
        = some (some (ee, ov), m2) →
      graph.edges[ee]? = some eedge →
      _tgenmarkovmodel_vertexToObservation mmodel ov = some obs →
      ∃ d, tgenmarkovmodel_getNextObservation env mmodel delay
        = some (obs, d,
            afterDraws
              (2 + match delay with
                   | none => 0
                   | some _ =>
                     if Double.gt eedge.lognorm_mu (Double.fin 0) = true ∨
                         Double.gt eedge.lognorm_sigma (Double.fin 0) = true then 2 else 1)
              { mmodel with currentStateVertexIndex := v })) := by
  have hinv := reached_invariant env graph name seed m0 hnew calls outs mmodel hreach
  have hcur := engineInvariant_current_lt graph name seed mmodel hinv
  obtain ⟨hg, _, _, _, hf, hvalid, _, _⟩ := hinv
  refine ⟨?_, ?_, ?_, ?_⟩
  · intro mt ht
    unfold tgenmarkovmodel_getNextObservation
    rw [ht]
    rfl
  · intro m1 ht
    exact (next_transition_failure_path env mmodel delay hvalid hcur hf m1 ht).2
  · intro e v m1 m2 ht hem
    exact (next_emission_failure_path env mmodel delay hvalid hcur hf e v m1 m2 ht hem).2
  · intro e v m1 ee ov m2 eedge obs ht hem heedge hobs
    obtain ⟨eedge', heedge', _, _, _, hm2, _, hnext⟩ :=
      next_emission_path env mmodel delay hvalid hcur hf e v ee ov m1 m2 ht hem
    rw [hg, heedge] at heedge'
    simp only [Option.some.injEq] at heedge'
    subst heedge'
    subst hm2
    rw [hnext, hobs]
    cases delay with
    | none => exact ⟨_, rfl⟩
    | some d0 =>
      have hk : SamplerCall.draws
          (if Double.gt eedge.lognorm_sigma (Double.fin 0) ||
              Double.gt eedge.lognorm_mu (Double.fin 0)
           then SamplerCall.logNormal eedge.lognorm_mu eedge.lognorm_sigma
           else SamplerCall.exponential eedge.exp_lambda)
          = if Double.gt eedge.lognorm_mu (Double.fin 0) = true ∨
              Double.gt eedge.lognorm_sigma (Double.fin 0) = true then 2 else 1 := by
        cases h1 : Double.gt eedge.lognorm_sigma (Double.fin 0) <;>
          cases h2 : Double.gt eedge.lognorm_mu (Double.fin 0) <;>
          simp [SamplerCall.draws]
      simp only [Option.map]
      rw [afterDraws_afterDraws, hk]
      exact ⟨_, rfl⟩

/-- C30, witness: the first `next` on `graphLogNormal`, whose emission edge has
`mu = 1` and `sigma = 2`, called with a delay output: 2 + 2 uniforms. -/
theorem C30_draw_counts_witness :
    ∃ d, tgenmarkovmodel_getNextObservation sampleEnv (engineOn graphLogNormal) (some 0)
      = some (OBSERVATION_STREAM, d,
          afterDraws
            (2 + if Double.gt (emissionEdge 1 2 1 1 2 3).lognorm_mu (Double.fin 0) = true ∨
                    Double.gt (emissionEdge 1 2 1 1 2 3).lognorm_sigma (Double.fin 0) = true
                 then 2 else 1)
            { engineOn graphLogNormal with currentStateVertexIndex := 1 }) := by
  have hnew : _tgenmarkovmodel_new graphLogNormal "m".toList 7
      = some (engineOn graphLogNormal) := by decide!
  exact (C30_draw_counts sampleEnv graphLogNormal "m".toList 7 (engineOn graphLogNormal) hnew
    [] [] (engineOn graphLogNormal) rfl (some 0)).2.2.2 0 1
    (afterDraws 1 (engineOn graphLogNormal)) 1 2
    (afterDraws 2 { engineOn graphLogNormal with currentStateVertexIndex := 1 })
    (emissionEdge 1 2 1 1 2 3) OBSERVATION_STREAM
    (by decide!) (by decide!) (by decide!) (by decide!)

/-! ## The chooser and the edges of the other kind -/

theorem edgeWeight_eq_of_edge (m : TGenMarkovModel) (e : Nat) :
    edgeWeight m e
      = (match m.graph.edges[e]? with
         | some edge => edge.weight
         | none => Double.nan) := by
  unfold edgeWeight igraph_cattribute_EAN
  cases m.graph.edges[e]? <;> rfl

theorem igraph_edge_eq_of_edge (g : igraph_t) (e : Nat) :
    igraph_edge g e = (g.edges[e]?).map (fun edge => (edge.src, edge.dst)) := by
  unfold igraph_edge
  cases g.edges[e]? <;> rfl

/-- Equal sequences of edges have equal sequences of weights. -/
theorem weights_eq_of_edges_eq (m m' : TGenMarkovModel) (es es' : List Nat)
    (h : es.map (fun e => m.graph.edges[e]?) = es'.map (fun e => m'.graph.edges[e]?)) :
    es.map (edgeWeight m) = es'.map (edgeWeight m') := by
  have h1 : ∀ (n : TGenMarkovModel) (l : List Nat), l.map (edgeWeight n)
      = (l.map (fun e => n.graph.edges[e]?)).map (fun o =>
          match o with
          | some edge => edge.weight
          | none => Double.nan) := by
    intro n l
    rw [List.map_map]
    apply List.map_congr_left
    intro e _
    exact edgeWeight_eq_of_edge n e
  rw [h1 m es, h1 m' es', h]

theorem sumFrom_eq_foldl (m : TGenMarkovModel) (acc : Double) (es : List Nat) :
    sumFrom m acc es = (es.map (edgeWeight m)).foldl Double.add acc := by
  unfold sumFrom
  rw [List.foldl_map]

theorem sumFrom_congr (m m' : TGenMarkovModel) (acc : Double) (es es' : List Nat)
    (h : es.map (edgeWeight m) = es'.map (edgeWeight m')) :
    sumFrom m acc es = sumFrom m' acc es' := by
  rw [sumFrom_eq_foldl, sumFrom_eq_foldl, h]

/-- The second loop's choice depends on the weights only: on two sequences of
edges with the same weights it finds no edge in either, or the edges at the
same position. -/
theorem firstReaching_congr (m m' : TGenMarkovModel) (r : Double) (acc : Double)
    (es es' : List Nat) (h : es.map (edgeWeight m) = es'.map (edgeWeight m')) :
    (firstReaching m r acc es = none ∧ firstReaching m' r acc es' = none) ∨
    ∃ i, ∃ hi : i < es.length, ∃ hi' : i < es'.length,
      firstReaching m r acc es = some es[i] ∧ firstReaching m' r acc es' = some es'[i] := by
  induction es generalizing es' acc with
  | nil =>
    cases es' with
    | nil => exact Or.inl ⟨rfl, rfl⟩
    | cons x' rest' => simp at h
  | cons x rest ih =>
    cases es' with
    | nil => simp at h
    | cons x' rest' =>
      simp only [List.map_cons, List.cons.injEq] at h
      obtain ⟨hw, ht⟩ := h
      simp only [firstReaching]
      rw [← hw]
      cases hge : Double.ge (Double.add acc (edgeWeight m x)) r with
      | true =>
        right
        exact ⟨0, by simp, by simp, by simp, by simp⟩
      | false =>
        simp only [Bool.false_eq_true, ↓reduceIte]
        rcases ih (Double.add acc (edgeWeight m x)) rest' ht with h0 | ⟨i, hi, hi', h1, h2⟩
        · exact Or.inl h0
        · right
          refine ⟨i + 1, by simp; omega, by simp; omega, ?_, ?_⟩
          · rw [h1]; simp
          · rw [h2]; simp

/-- C31. On two engines whose graphs passed the edge pass, let a vertex `v` have
the same sequence of outgoing edges of kind `K` in both (the edges of the other
kind may differ in number, place and weight, and so may the edge ids).  Then
the first loop of the chooser computes the same total weight `W`; for every
`r` the second loop finds no edge in either engine or finds the kind-`K` edges
at the same position in both; and with the PRNG in the same state the two
calls draw the same `r` and both fail, or both succeed and return the
kind-`K` edges at the same position, which are the same edge, with the same
destination. -/
theorem C31_chooser_ignores_other_kind (env : Env) (m m' : TGenMarkovModel) (type : EdgeType)
    (v : Nat)
    (hvalid : _tgenmarkovmodel_validateEdges m = true)
    (hvalid' : _tgenmarkovmodel_validateEdges m' = true)
    (hv : v < m.graph.vertices.length) (hv' : v < m'.graph.vertices.length)
    (hprng : m.prng = m'.prng)
    (hseq : (kindEdges m type v).map (fun e => m.graph.edges[e]?)
      = (kindEdges m' type v).map (fun e => m'.graph.edges[e]?)) :
    (∃ W, chooseEdge_totalWeight m type (igraph_incident_out m.graph v) (Double.fin 0) = some W ∧
      chooseEdge_totalWeight m' type (igraph_incident_out m'.graph v) (Double.fin 0) = some W ∧
      g_rand_double_range env m.prng (Double.fin 0) W
        = g_rand_double_range env m'.prng (Double.fin 0) W) ∧
    (∀ r : Double,
      (chooseEdge_select m type r (igraph_incident_out m.graph v) (Double.fin 0) = some none ∧
        chooseEdge_select m' type r (igraph_incident_out m'.graph v) (Double.fin 0)
          = some none) ∨
      ∃ i, ∃ hi : i < (kindEdges m type v).length, ∃ hi' : i < (kindEdges m' type v).length,
        chooseEdge_select m type r (igraph_incident_out m.graph v) (Double.fin 0)
          = some (some (kindEdges m type v)[i]) ∧
        chooseEdge_select m' type r (igraph_incident_out m'.graph v) (Double.fin 0)
          = some (some (kindEdges m' type v)[i])) ∧
    ((_tgenmarkovmodel_chooseEdge env m type v = some (none, afterOneDraw m) ∧
        _tgenmarkovmodel_chooseEdge env m' type v = some (none, afterOneDraw m')) ∨
      ∃ i, ∃ hi : i < (kindEdges m type v).length, ∃ hi' : i < (kindEdges m' type v).length,
        ∃ dst,
        _tgenmarkovmodel_chooseEdge env m type v
          = some (some ((kindEdges m type v)[i], dst), afterOneDraw m) ∧
        _tgenmarkovmodel_chooseEdge env m' type v
          = some (some ((kindEdges m' type v)[i], dst), afterOneDraw m') ∧
        m.graph.edges[(kindEdges m type v)[i]]? = m'.graph.edges[(kindEdges m' type v)[i]]?) := by
  have hread := readable_of_validateEdges m hvalid v
  have hread' := readable_of_validateEdges m' hvalid' v
  have hw := weights_eq_of_edges_eq m m' _ _ hseq
  have hW : sumFrom m (Double.fin 0) (kindEdges m type v)
      = sumFrom m' (Double.fin 0) (kindEdges m' type v) := sumFrom_congr m m' _ _ _ hw
  have hsel : ∀ r, chooseEdge_select m type r (igraph_incident_out m.graph v) (Double.fin 0)
      = some (firstReaching m r (Double.fin 0) (kindEdges m type v)) := fun r =>
    select_eq_firstReaching m type r _ _ hread
  have hsel' : ∀ r, chooseEdge_select m' type r (igraph_incident_out m'.graph v) (Double.fin 0)
      = some (firstReaching m' r (Double.fin 0) (kindEdges m' type v)) := fun r =>
    select_eq_firstReaching m' type r _ _ hread'
  refine ⟨⟨sumFrom m (Double.fin 0) (kindEdges m type v), ?_, ?_, ?_⟩, ?_, ?_⟩
  · exact totalWeight_eq_sumFrom m type _ _ hread
  · rw [hW]
    exact totalWeight_eq_sumFrom m' type _ _ hread'
  · rw [hprng]
  · intro r
    rw [hsel r, hsel' r]
    rcases firstReaching_congr m m' r (Double.fin 0) _ _ hw with ⟨h1, h2⟩ | ⟨i, hi, hi', h1, h2⟩
    · left
      rw [h1, h2]
      exact ⟨rfl, rfl⟩
    · right
      refine ⟨i, hi, hi', ?_, ?_⟩
      · rw [h1]
      · rw [h2]
  · have heq := chooseEdge_eq env m type v hv hread
    have heq' := chooseEdge_eq env m' type v hv' hread'
    rw [← hprng, ← hW] at heq'
    rcases firstReaching_congr m m'
        (g_rand_double_range env m.prng (Double.fin 0)
          (sumFrom m (Double.fin 0) (kindEdges m type v))).1
        (Double.fin 0) _ _ hw with ⟨h1, h2⟩ | ⟨i, hi, hi', h1, h2⟩
    · left
      rw [heq, heq', h1, h2]
      exact ⟨rfl, rfl⟩
    · right
      obtain ⟨dst, hd, _⟩ := igraph_edge_of_mem_kindEdges m type v _ (List.getElem_mem hi)
      have hedges : m.graph.edges[(kindEdges m type v)[i]]?
          = m'.graph.edges[(kindEdges m' type v)[i]]? := by
        have h3 := congrArg (fun l => l[i]?) hseq
        simp only [List.getElem?_map, List.getElem?_eq_getElem hi, List.getElem?_eq_getElem hi',
          Option.map_some'] at h3
        exact Option.some.inj h3
      have hd' : igraph_edge m'.graph (kindEdges m' type v)[i] = some (v, dst) := by
        rw [igraph_edge_eq_of_edge, ← hedges, ← igraph_edge_eq_of_edge]
        exact hd
      refine ⟨i, hi, hi', dst, ?_, ?_, hedges⟩
      · rw [heq, h1]
        simp only [Option.bind, hd, Option.map]
      · rw [heq', h2]
        simp only [Option.bind, hd', Option.map]

/-- C31, witness: vertex `s1` and the kind emission in `graphThreeEmissions` and
in the same graph with two transition edges added out of `s1`. -/
theorem C31_chooser_ignores_other_kind_witness :
    (∃ W, chooseEdge_totalWeight (engineOn graphThreeEmissions) EDGE_TYPE_EMISSION
          (igraph_incident_out (engineOn graphThreeEmissions).graph 1) (Double.fin 0) = some W ∧
      chooseEdge_totalWeight (engineOn graphThreeEmissionsAndTransitions) EDGE_TYPE_EMISSION
          (igraph_incident_out (engineOn graphThreeEmissionsAndTransitions).graph 1)
          (Double.fin 0) = some W ∧
      g_rand_double_range sampleEnv (engineOn graphThreeEmissions).prng (Double.fin 0) W
        = g_rand_double_range sampleEnv (engineOn graphThreeEmissionsAndTransitions).prng
            (Double.fin 0) W) ∧
    ((_tgenmarkovmodel_chooseEdge sampleEnv (engineOn graphThreeEmissions) EDGE_TYPE_EMISSION 1
          = some (none, afterOneDraw (engineOn graphThreeEmissions)) ∧
        _tgenmarkovmodel_chooseEdge sampleEnv (engineOn graphThreeEmissionsAndTransitions)
            EDGE_TYPE_EMISSION 1
          = some (none, afterOneDraw (engineOn graphThreeEmissionsAndTransitions))) ∨
      ∃ i, ∃ _hi : i < (kindEdges (engineOn graphThreeEmissions) EDGE_TYPE_EMISSION 1).length,
        ∃ hi' : i < (kindEdges (engineOn graphThreeEmissionsAndTransitions)
          EDGE_TYPE_EMISSION 1).length,
        ∃ dst,
        _tgenmarkovmodel_chooseEdge sampleEnv (engineOn graphThreeEmissions) EDGE_TYPE_EMISSION 1
          = some (some ((kindEdges (engineOn graphThreeEmissions) EDGE_TYPE_EMISSION 1)[i], dst),
              afterOneDraw (engineOn graphThreeEmissions)) ∧
        _tgenmarkovmodel_chooseEdge sampleEnv (engineOn graphThreeEmissionsAndTransitions)
            EDGE_TYPE_EMISSION 1
          = some (some ((kindEdges (engineOn graphThreeEmissionsAndTransitions)
                EDGE_TYPE_EMISSION 1)[i], dst),
              afterOneDraw (engineOn graphThreeEmissionsAndTransitions)) ∧
        (engineOn graphThreeEmissions).graph.edges[
            (kindEdges (engineOn graphThreeEmissions) EDGE_TYPE_EMISSION 1)[i]]?
          = (engineOn graphThreeEmissionsAndTransitions).graph.edges[
              (kindEdges (engineOn graphThreeEmissionsAndTransitions)
                EDGE_TYPE_EMISSION 1)[i]]?) := by
  have hvalid : _tgenmarkovmodel_validateEdges (engineOn graphThreeEmissions) = true := by
    decide!
  have hvalid' : _tgenmarkovmodel_validateEdges (engineOn graphThreeEmissionsAndTransitions)
      = true := by decide!
  have hseq : (kindEdges (engineOn graphThreeEmissions) EDGE_TYPE_EMISSION 1).map
        (fun e => (engineOn graphThreeEmissions).graph.edges[e]?)
      = (kindEdges (engineOn graphThreeEmissionsAndTransitions) EDGE_TYPE_EMISSION 1).map
        (fun e => (engineOn graphThreeEmissionsAndTransitions).graph.edges[e]?) := by
    decide!
  have h := C31_chooser_ignores_other_kind sampleEnv (engineOn graphThreeEmissions)
    (engineOn graphThreeEmissionsAndTransitions) EDGE_TYPE_EMISSION 1 hvalid hvalid'
    (by decide) (by decide) rfl hseq
  exact ⟨h.1, h.2.2⟩

/-! ## Magnitudes of the samples -/

end TGen
